import Mathlib

/-!
# TipTop: a sharded byte cache on a packed ring buffer

A shallow embedding of the Go package `tiptop` (`byte_queue.go`, `byte_coder.go`,
`clock.go`, `hash_calculator.go`, `config.go`, `stats.go`, `redis_cache.go`, `shard.go`,
`shuffler.go`, `tiptop.go`) and theorems about it.

Conventions of the embedding.

* A Go `[]byte` is a `List Byte` with `Byte = Fin 256`.  A Go `string` key is its byte
  sequence.
* Go `int` values that are sizes or offsets (never negative on the paths modelled) are `Nat`;
  the two "available space" computations can be negative and are `Int`.  The 64-bit width of
  `int` is not modelled: a ring of `2^63` bytes cannot be allocated.
* `uint32` / `uint64` / `int64` conversions are explicit `% 2^32`, `% 2^64` and a
  two's-complement reinterpretation.
* A slice that aliases the ring (the result of `Get`) is modelled by its bytes; an in-place
  write through such a slice is modelled by writing the bytes back at the slice's offset.
* Each operation of a shard runs under the shard lock; the model is the sequential
  semantics of one operation at a time.  Work started with `go` is not part of the call.
-/

namespace Tiptop

/-! ## Bytes and little-endian integers -/

/-- One byte. -/
abbrev Byte := Fin 256

/-- The conversion `byte(n)`: the low eight bits of `n`. -/
def byteOf (n : Nat) : Byte := ⟨n % 256, Nat.mod_lt _ (by decide)⟩

/-- The number whose little-endian digits (base 256) are the given bytes. -/
def leNat : List Byte → Nat
  | [] => 0
  | b :: bs => b.val + 256 * leNat bs

/-- The `n` low little-endian bytes of `v`. -/
def leBytes : Nat → Nat → List Byte
  | 0, _ => []
  | n + 1, v => byteOf v :: leBytes n (v / 256)

/-- The bytes written by `binary.LittleEndian.PutUint32(b, v)` into `b[0:4]`. -/
def putUint32 (v : Nat) : List Byte := leBytes 4 v

/-- The bytes written by `binary.LittleEndian.PutUint64(b, v)` into `b[0:8]`. -/
def putUint64 (v : Nat) : List Byte := leBytes 8 v

/-- The value of `binary.LittleEndian.Uint32(b)`: it reads `b[0:4]` (Go panics when `b` is
shorter; the model then reads the missing bytes as zero). -/
def getUint32 (b : List Byte) : Nat := leNat (b.take 4)

/-- The value of `binary.LittleEndian.Uint64(b)`: it reads `b[0:8]` (Go panics when `b` is
shorter; the model then reads the missing bytes as zero). -/
def getUint64 (b : List Byte) : Nat := leNat (b.take 8)

/-- The conversion `uint64(x)` of an `int64`. -/
def uint64OfInt (x : Int) : Nat := (x % 18446744073709551616).toNat

/-- The conversion `int64(u)` of a `uint64`. -/
def int64OfNat (u : Nat) : Int :=
  if u % 18446744073709551616 < 9223372036854775808 then ((u % 18446744073709551616 : Nat) : Int)
  else ((u % 18446744073709551616 : Nat) : Int) - 18446744073709551616

/-- The builtin `copy(dst[pos:], src)`: it copies `min(len(dst) - pos, len(src))` bytes and
returns the new content of `dst` and the number of bytes copied.  (Go panics when
`pos > len(dst)`; the model then copies nothing.) -/
def copyAt (dst : List Byte) (pos : Nat) (src : List Byte) : List Byte × Nat :=
  let n := min (dst.length - pos) src.length
  (dst.take pos ++ src.take n ++ dst.drop (pos + n), n)

/-- The bytes `a[lo : lo+n]` of a slice (Go panics when the range leaves the slice; the model
then returns the part that exists). -/
def slice (a : List Byte) (lo n : Nat) : List Byte := (a.drop lo).take n

/-! ## Errors -/

deriving instance DecidableEq for Except

/-- The error values of the package (`byte_queue.go`, `shard.go`). -/
inductive Err where
  | errEmptyQueue
  | errInvalidIndex
  | errIndexOutOfBounds
  | errFullQueue
  | errKeyNotFound
  | errEntryIsDead
  | errMaxEntry
  deriving DecidableEq, Repr

/-! ## byte_queue.go -/

/-- Number of bytes used to keep information about entry size. -/
abbrev headerEntrySize : Nat := 4

/-- Bytes before the left margin are not used; index zero means "no element". -/
abbrev leftMarginIndex : Nat := 1

/-- Minimum empty blob size in bytes. -/
abbrev minimumEmptyBlobSize : Nat := 32 + headerEntrySize

/-- The struct `ByteQueue` (the scratch `headerBuffer` is not state: `push` overwrites it
before every use). -/
structure ByteQueue where
  array : List Byte
  capacity : Nat
  maxCapacity : Nat
  head : Nat
  tail : Nat
  count : Nat
  rightMargin : Nat
  initialCapacity : Nat
  deriving DecidableEq, Repr

/-- `NewByteQueue(initialCapacity, maxCapacity)`. -/
def NewByteQueue (initialCapacity maxCapacity : Nat) : ByteQueue :=
  { array := List.replicate initialCapacity 0
    capacity := initialCapacity
    maxCapacity := maxCapacity
    head := leftMarginIndex
    tail := leftMarginIndex
    count := 0
    rightMargin := leftMarginIndex
    initialCapacity := initialCapacity }

namespace ByteQueue

/-- `Reset`: only the cursors and the count are reset. -/
def Reset (q : ByteQueue) : ByteQueue :=
  { q with tail := leftMarginIndex, head := leftMarginIndex, rightMargin := leftMarginIndex,
           count := 0 }

/-- `availableSpaceAfterTail`. -/
def availableSpaceAfterTail (q : ByteQueue) : Int :=
  if q.tail ≥ q.head then (q.capacity : Int) - q.tail
  else (q.head : Int) - q.tail - minimumEmptyBlobSize

/-- `availableSpaceBeforeHead`. -/
def availableSpaceBeforeHead (q : ByteQueue) : Int :=
  if q.tail ≥ q.head then (q.head : Int) - leftMarginIndex - minimumEmptyBlobSize
  else (q.head : Int) - q.tail - minimumEmptyBlobSize

/-- `q.copy(data, len)`: `q.tail += copy(q.array[q.tail:], data[:len])`. -/
def copy (q : ByteQueue) (data : List Byte) (len : Nat) : ByteQueue :=
  let r := copyAt q.array q.tail (data.take len)
  { q with array := r.1, tail := q.tail + r.2 }

/-- `q.push(data, len)`: header, payload, right margin, count. -/
def push (q : ByteQueue) (data : List Byte) (len : Nat) : ByteQueue :=
  let q1 := q.copy (putUint32 (len % 4294967296)) headerEntrySize
  let q2 := q1.copy data len
  let q3 := if q2.tail > q2.head then { q2 with rightMargin := q2.tail } else q2
  { q3 with count := q3.count + 1 }

/-- `q.allocate(minimum)`: grow the array, keep the offsets of the stored entries. -/
def allocate (q : ByteQueue) (minimum : Nat) : ByteQueue :=
  let c1 := if q.capacity < minimum then q.capacity + minimum else q.capacity
  let c2 := c1 * 2
  let c3 := if c2 > q.maxCapacity ∧ q.maxCapacity > 0 then q.maxCapacity else c2
  let oldArray := q.array
  let q1 := { q with capacity := c3, array := List.replicate c3 0 }
  if leftMarginIndex ≠ q1.rightMargin then
    let q2 := { q1 with array := (copyAt q1.array 0 (oldArray.take q1.rightMargin)).1 }
    if q2.tail < q2.head then
      let emptyBlobLen := q2.head - q2.tail - headerEntrySize
      let q3 := q2.push (List.replicate emptyBlobLen 0) emptyBlobLen
      { q3 with head := leftMarginIndex, tail := q3.rightMargin }
    else q2
  else q1

/-- `Push(data)`: the new queue and the index of the pushed entry, or `errFullQueue`. -/
def Push (q : ByteQueue) (data : List Byte) : ByteQueue × Except Err Nat :=
  let dataLen := data.length
  let totalLen := dataLen + headerEntrySize
  if q.availableSpaceAfterTail < (totalLen : Int) then
    if q.availableSpaceBeforeHead ≥ (totalLen : Int) then
      let q1 := { q with tail := leftMarginIndex }
      (q1.push data dataLen, .ok q1.tail)
    else if q.capacity + totalLen ≥ q.maxCapacity ∧ q.maxCapacity > 0 then
      (q, .error .errFullQueue)
    else
      let q1 := q.allocate totalLen
      (q1.push data dataLen, .ok q1.tail)
  else
    (q.push data dataLen, .ok q.tail)

/-- `peekCheckErr(index)`: `none` is Go's `nil`. -/
def peekCheckErr (q : ByteQueue) (index : Nat) : Option Err :=
  if q.count = 0 then some .errEmptyQueue
  else if index ≤ 0 then some .errInvalidIndex
  else if index + headerEntrySize ≥ q.array.length then some .errIndexOutOfBounds
  else none

/-- `getWithLength(index)`: the entry at `index` and its length. -/
def getWithLength (q : ByteQueue) (index : Nat) : Except Err (List Byte × Nat) :=
  match q.peekCheckErr index with
  | some err => .error err
  | none =>
    let margin := index + headerEntrySize
    let blockSize := getUint32 (slice q.array index headerEntrySize)
    .ok (slice q.array margin blockSize, blockSize)

/-- `Pop()`: the oldest entry; the head moves to the next one. -/
def Pop (q : ByteQueue) : ByteQueue × Except Err (List Byte) :=
  match q.getWithLength q.head with
  | .error err => (q, .error err)
  | .ok (data, size) =>
    let q1 := { q with head := q.head + headerEntrySize + size, count := q.count - 1 }
    let q2 :=
      if q1.head = q1.rightMargin then
        let q3 := { q1 with head := leftMarginIndex }
        let q4 := if q3.tail = q3.rightMargin then { q3 with tail := leftMarginIndex } else q3
        { q4 with rightMargin := q4.tail }
      else q1
    (q2, .ok data)

/-- `Get(index)`. -/
def Get (q : ByteQueue) (index : Nat) : Except Err (List Byte) :=
  match q.getWithLength index with
  | .error err => .error err
  | .ok (data, _) => .ok data

/-- `CheckGet(index)`. -/
def CheckGet (q : ByteQueue) (index : Nat) : Option Err := q.peekCheckErr index

/-- `Peek()`. -/
def Peek (q : ByteQueue) : Except Err (List Byte) :=
  match q.getWithLength q.head with
  | .error err => .error err
  | .ok (data, _) => .ok data

/-- `Capacity()`. -/
def Capacity (q : ByteQueue) : Nat := q.capacity

/-- `Len()`. -/
def Len (q : ByteQueue) : Nat := q.count

end ByteQueue

/-! ## byte_coder.go -/

/-- Number of bytes used for the timestamp. -/
abbrev timestampSizeInBytes : Nat := 8

/-- Number of bytes used for the 64-bit hash. -/
abbrev hashSizeInBytes : Nat := 8

/-- Number of bytes used for the CRC-32. -/
abbrev crc32SizeInBytes : Nat := 4

/-- Number of bytes used for all headers. -/
abbrev headersSizeInBytes : Nat := timestampSizeInBytes + hashSizeInBytes + crc32SizeInBytes

/-- `wrapEntry(timestamp, hash, crc32, entry, &buffer)`: the packed record and the new content
of the scratch buffer (`hash` is a `uint64` and `crc32` a `uint32`). -/
def wrapEntry (timestamp : Int) (hash crc32 : Nat) (entry buffer : List Byte) :
    List Byte × List Byte :=
  let blobLength := entry.length + headersSizeInBytes
  let blob0 := if blobLength > buffer.length then List.replicate blobLength 0 else buffer
  let blob1 := (copyAt blob0 0 (putUint64 (uint64OfInt timestamp))).1
  let blob2 := (copyAt blob1 timestampSizeInBytes (putUint64 (hash % 18446744073709551616))).1
  let blob3 := (copyAt blob2 (timestampSizeInBytes + hashSizeInBytes)
    (putUint32 (crc32 % 4294967296))).1
  let blob4 := (copyAt blob3 headersSizeInBytes entry).1
  (blob4.take blobLength, blob4)

/-- `readEntry(data)`: a copy of the payload (Go panics when `len(data) < 20`). -/
def readEntry (data : List Byte) : List Byte := data.drop headersSizeInBytes

/-- `readTimestampFromEntry(data)`. -/
def readTimestampFromEntry (data : List Byte) : Int := int64OfNat (getUint64 data)

/-- `readHashFromEntry(data)`. -/
def readHashFromEntry (data : List Byte) : Nat := getUint64 (data.drop timestampSizeInBytes)

/-- `readCRC32FromEntry(data)`. -/
def readCRC32FromEntry (data : List Byte) : Nat :=
  getUint32 (data.drop (timestampSizeInBytes + hashSizeInBytes))

/-- `resetKeyFromEntry(data)`: the content of `data` after the in-place write of eight zero
bytes at offset 8 (Go panics when `len(data) < 16`). -/
def resetKeyFromEntry (data : List Byte) : List Byte :=
  (copyAt data timestampSizeInBytes (putUint64 0)).1

/-! ## clock.go

The clock is `time.Now()`; the model passes its value, in nanoseconds since the Unix epoch, as
the argument `now`.  A `time.Duration` is a number of nanoseconds. -/

/-- `defaultClock.epoch()` when `time.Now()` is `now`: the Unix second of `now`. -/
def epoch (now : Int) : Int := now / 1000000000

/-- `defaultClock.exp(ttl)` when `time.Now()` is `now`. -/
def exp (now ttl : Int) : Int :=
  if ttl ≠ 0 then (now + ttl) / 1000000000 else 0

/-! ## hash_calculator.go and `hash/crc32` -/

/-- FNV-1a offset basis. -/
abbrev offset64 : Nat := 14695981039346656037

/-- FNV-1a prime. -/
abbrev prime64 : Nat := 1099511628211

/-- `fnv64.sum64(key)`: 64-bit FNV-1a. -/
def sum64 (key : List Byte) : Nat :=
  key.foldl (fun hash b => ((hash ^^^ b.val) * prime64) % 18446744073709551616) offset64

/-- One bit of the reflected CRC-32 division by the IEEE polynomial. -/
def crc32Bit (crc : Nat) : Nat :=
  if crc % 2 = 1 then (crc / 2) ^^^ 3988292384 else crc / 2

/-- One byte of the CRC-32 update. -/
def crc32Byte (crc : Nat) (b : Byte) : Nat :=
  crc32Bit (crc32Bit (crc32Bit (crc32Bit (crc32Bit (crc32Bit (crc32Bit (crc32Bit
    (crc ^^^ b.val))))))))

/-- The Go standard library function `crc32.ChecksumIEEE`: the CRC-32 of the IEEE polynomial,
initial value and final complement `0xFFFFFFFF`, a `uint32`. -/
def ChecksumIEEE (data : List Byte) : Nat :=
  ((data.foldl crc32Byte 4294967295) ^^^ 4294967295) % 4294967296

/-! ## config.go -/

/-- The struct `Config`.  Durations are nanoseconds. -/
structure Config where
  ShardSize : Int
  InitEntrySize : Int
  MaxCacheSize : Int
  CleanWindow : Int
  DefaultTTL : Int
  RedisAddr : String
  RedisPwd : String
  RedisMinIdle : Int
  RedisPoolSize : Int
  OnRemove : Bool
  deriving DecidableEq, Repr

/-- `DefaultCleanWindows`: 30 minutes. -/
abbrev DefaultCleanWindows : Int := 30 * 60 * 1000000000

/-- `DefaultShardSize`. -/
abbrev DefaultShardSize : Int := 1024

/-- `DefaultInitEntrySize`: 5 MB. -/
abbrev DefaultInitEntrySize : Int := 5 * (1024 * 1024)

/-- `DefaultConfig()`. -/
def DefaultConfig : Config :=
  { ShardSize := DefaultShardSize
    InitEntrySize := DefaultInitEntrySize
    MaxCacheSize := 0
    CleanWindow := DefaultCleanWindows
    DefaultTTL := 0
    RedisAddr := ""
    RedisPwd := ""
    RedisMinIdle := 0
    RedisPoolSize := 0
    OnRemove := true }

/-- Modelled from the spec: `isPowerOfTwo`, called by `implementConfig` and not defined in the
sources at hand.  The spec asks that the shard count "must be a power of two": `n = 2^k` for
some `k ≥ 0` (a 64-bit `int` holds the powers up to `2^62`). -/
def isPowerOfTwo (n : Int) : Bool :=
  (List.range 63).any fun k => n == 2 ^ k

/-- `implementConfig(&config)`: the error, if any, or the completed configuration. -/
def implementConfig (config : Config) : Except String Config :=
  if !isPowerOfTwo config.ShardSize then
    .error "shard's size must be the power of 2"
  else
    let c1 := if config.CleanWindow = 0 then { config with CleanWindow := DefaultCleanWindows }
      else config
    let c2 := if c1.ShardSize = 0 then { c1 with ShardSize := DefaultShardSize } else c1
    .ok c2

/-- `implementConfig(&config)` with the helper `isPowerOfTwo`, whose source is not at hand, left
open as the parameter `isPow`: the error, if any, or the completed configuration. -/
def implementConfigWith (isPow : Int → Bool) (config : Config) : Except String Config :=
  if !isPow config.ShardSize then
    .error "shard's size must be the power of 2"
  else
    let c1 := if config.CleanWindow = 0 then { config with CleanWindow := DefaultCleanWindows }
      else config
    let c2 := if c1.ShardSize = 0 then { c1 with ShardSize := DefaultShardSize } else c1
    .ok c2

/-- `Config.maximumShardSize()` (Go's `/` truncates, and panics on a zero `ShardSize`). -/
def Config.maximumShardSize (c : Config) : Int :=
  if c.MaxCacheSize > 0 then c.MaxCacheSize.tdiv c.ShardSize else 0

/-! ## stats.go -/

/-- The struct `Stats` (`int64` counters; no counter comes near `2^63`). -/
structure Stats where
  Hits : Nat
  HitsRedis : Nat
  Misses : Nat
  MissesRedis : Nat
  Collision : Nat
  Modify : Nat
  Sync : Nat
  deriving DecidableEq, Repr

/-- `NewStats()`. -/
def NewStats : Stats :=
  { Hits := 0, HitsRedis := 0, Misses := 0, MissesRedis := 0, Collision := 0, Modify := 0,
    Sync := 0 }

/-! ## redis_cache.go

The secondary store is an external service; the model keeps, per key, the value and the
time-to-live of the last `SET` (zero for none) and does not let entries expire. -/

/-- The content of the secondary store: key, value, and the `time.Duration` passed to `SET` as
the time-to-live (a number of nanoseconds; zero for no expiry). -/
structure redisCache where
  store : List (Nat × List Byte × Int)
  deriving DecidableEq, Repr

namespace redisCache

/-- `getKey(key)`: `none` stands for the error of a missing key. -/
def getKey (r : redisCache) (key : Nat) : Option (List Byte) :=
  (r.store.find? fun e => e.1 == key).map fun e => e.2.1

/-- `delKey(key)`. -/
def delKey (r : redisCache) (key : Nat) : redisCache :=
  { store := r.store.filter fun e => e.1 != key }

/-- `setKey(key, value, expiration)` when `time.Now().Unix()` is `nowUnix`. -/
def setKey (r : redisCache) (key : Nat) (value : List Byte) (expiration nowUnix : Int) :
    redisCache :=
  if expiration > 0 ∧ expiration > nowUnix then
    { store := (key, value, expiration - nowUnix) :: (r.delKey key).store }
  else if expiration = 0 then
    { store := (key, value, 0) :: (r.delKey key).store }
  else r

/-- `exist(key)`. -/
def exist (r : redisCache) (key : Nat) : Bool :=
  r.store.any fun e => e.1 == key

/-- `reset()`: every key of the store carries the prefix, so all are deleted. -/
def reset (_r : redisCache) : redisCache := { store := [] }

/-- `close()`: the connection is closed; the content of the store stays. -/
def close (r : redisCache) : redisCache := r

end redisCache

/-! ## shard.go -/

/-- The Go map `map[uint64]int` as an association list; a missing key reads as `0`. -/
abbrev Marker := List (Nat × Nat)

namespace Marker

/-- `m[hash]`. -/
def get (m : Marker) (hash : Nat) : Nat :=
  match m.find? fun e => e.1 == hash with
  | some e => e.2
  | none => 0

/-- `delete(m, hash)`. -/
def delete (m : Marker) (hash : Nat) : Marker := m.filter fun e => e.1 != hash

/-- `m[hash] = index`. -/
def put (m : Marker) (hash index : Nat) : Marker := (hash, index) :: m.delete hash

end Marker

/-- The struct `shard` without its lock.  The clock and the shuffler are arguments of the
operations that use them.  `redisCache` is the content of the process-wide secondary store as
this shard sees it. -/
structure shard where
  marker : Marker
  entries : ByteQueue
  buffer : List Byte
  redisCache : redisCache
  redisEnable : Bool
  onRemove : Bool
  InitEntrySize : Nat
  stats : Stats
  deriving DecidableEq, Repr

/-- `initShard(config)`; `redis` is the store `newRedisCache` connects to (a failed connection
panics).  A negative `InitEntrySize` panics in `make`. -/
def initShard (config : Config) (redis : redisCache) : shard :=
  { marker := []
    entries := NewByteQueue config.InitEntrySize.toNat config.maximumShardSize.toNat
    buffer := List.replicate config.InitEntrySize.toNat 0
    redisCache := redis
    redisEnable := config.OnRemove && config.RedisAddr != ""
    onRemove := config.OnRemove
    InitEntrySize := config.InitEntrySize.toNat
    stats := NewStats }

namespace shard

/-- `statsHit`. -/
def statsHit (s : shard) : shard := { s with stats := { s.stats with Hits := s.stats.Hits + 1 } }

/-- `statsMiss`. -/
def statsMiss (s : shard) : shard :=
  { s with stats := { s.stats with Misses := s.stats.Misses + 1 } }

/-- `statsHitRedis`. -/
def statsHitRedis (s : shard) : shard :=
  { s with stats := { s.stats with HitsRedis := s.stats.HitsRedis + 1 } }

/-- `statsMissRedis`. -/
def statsMissRedis (s : shard) : shard :=
  { s with stats := { s.stats with MissesRedis := s.stats.MissesRedis + 1 } }

/-- `statsCollision`. -/
def statsCollision (s : shard) : shard :=
  { s with stats := { s.stats with Collision := s.stats.Collision + 1 } }

/-- `statsModify`. -/
def statsModify (s : shard) : shard :=
  { s with stats := { s.stats with Modify := s.stats.Modify + 1 } }

/-- `statsSync`. -/
def statsSync (s : shard) : shard :=
  { s with stats := { s.stats with Sync := s.stats.Sync + 1 } }

/-- The effect on the ring of `resetKeyFromEntry(entry)` where `entry` is the slice returned
by `s.entries.Get(index)`: the slice starts at `index + headerEntrySize`. -/
def tombstone (s : shard) (index : Nat) (entry : List Byte) : shard :=
  { s with entries :=
      { s.entries with
        array := (copyAt s.entries.array (index + headerEntrySize) (resetKeyFromEntry entry)).1 } }

/-- `getWrappedEntry(hash)`.  The promotion `go s.sync(hash, bytes)` is started, not run. -/
def getWrappedEntry (s : shard) (hash : Nat) : shard × Except Err (List Byte) :=
  let itemIndex := s.marker.get hash
  if itemIndex = 0 then (s.statsMiss, .error .errKeyNotFound)
  else
    match s.entries.Get itemIndex with
    | .error err =>
      if s.redisEnable then
        match s.redisCache.getKey hash with
        | none => (s.statsMissRedis, .error .errKeyNotFound)
        | some bytes => (s.statsHitRedis, .ok bytes)
      else (s.statsMiss, .error err)
    | .ok wrappedEntry => (s, .ok wrappedEntry)

/-- `get(key, hash)` when the clock reads `now`.  The deletion `go s.del(hash)` of an expired
entry is started, not run. -/
def get (s : shard) (key : List Byte) (hash : Nat) (now : Int) :
    shard × Except Err (List Byte) :=
  match s.getWrappedEntry hash with
  | (s1, .error err) => (s1, .error err)
  | (s1, .ok wrappedEntry) =>
    if readCRC32FromEntry wrappedEntry ≠ ChecksumIEEE key then
      (s1.statsCollision, .error .errKeyNotFound)
    else
      let timeStamp := readTimestampFromEntry wrappedEntry
      if timeStamp ≠ 0 ∧ epoch now > timeStamp then (s1, .error .errEntryIsDead)
      else (s1.statsHit, .ok (readEntry wrappedEntry))

/-- `removeOldest()` when the clock reads `now`; `none` is Go's `nil`. -/
def removeOldest (s : shard) (now : Int) : shard × Option Err :=
  match s.entries.Pop with
  | (q, .ok oldest) =>
    let hash := readHashFromEntry oldest
    let s1 := { s with entries := q, marker := s.marker.delete hash }
    let s2 := if s1.redisEnable then
        { s1 with redisCache :=
            s1.redisCache.setKey hash oldest (readTimestampFromEntry oldest) (epoch now) }
      else s1
    (s2, none)
  | (_, .error err) => (s, some err)

/-- The loop of `set` with a bound on the number of iterations; `none` when the bound is
reached before the loop returns. -/
def setLoop : Nat → shard → Nat → List Byte → Int → Option (shard × Option Err)
  | 0, _, _, _, _ => none
  | fuel + 1, s, hash, w, now =>
    match s.entries.Push w with
    | (q, .ok index) =>
      some (({ s with entries := q, marker := s.marker.put hash index }).statsModify, none)
    | (_, .error _) =>
      if !s.onRemove then some (s, some .errMaxEntry)
      else
        match s.removeOldest now with
        | (_, some _) => some (s, some .errMaxEntry)
        | (s1, none) => setLoop fuel s1 hash w now

/-- The state after the first part of `set`: the previous record of `hash`, if it can be read,
is tombstoned, and the new record is packed into the scratch buffer. -/
def setPrepare (s : shard) (key : List Byte) (hash : Nat) (value : List Byte) (ttl now : Int) :
    shard × List Byte :=
  let previousIndex := s.marker.get hash
  let s1 :=
    if previousIndex ≠ 0 then
      match s.entries.Get previousIndex with
      | .ok previousEntry => s.tombstone previousIndex previousEntry
      | .error _ => s
    else s
  let r := wrapEntry (exp now ttl) hash (ChecksumIEEE key) value s1.buffer
  ({ s1 with buffer := r.2 }, r.1)

/-- `set(key, hash, value, ttl)` when the clock reads `now`; `none` is Go's `nil`.  Every
iteration of the loop that does not return pops an entry, so `count + 1` iterations are
enough (`setLoop_isSome`). -/
def set (s : shard) (key : List Byte) (hash : Nat) (value : List Byte) (ttl now : Int) :
    shard × Option Err :=
  let p := s.setPrepare key hash value ttl now
  match setLoop (p.1.entries.count + 1) p.1 hash p.2 now with
  | some r => r
  | none => (p.1, some .errMaxEntry)

/-- The loop of `sync` with a bound on the number of iterations. -/
def syncLoop : Nat → shard → Nat → List Byte → Int → Option shard
  | 0, _, _, _, _ => none
  | fuel + 1, s, hash, value, now =>
    match s.entries.Push value with
    | (q, .ok index) =>
      some (({ s with entries := q, marker := s.marker.put hash index,
                      redisCache := s.redisCache.delKey hash }).statsSync)
    | (_, .error _) =>
      if !s.onRemove then some s
      else
        match s.removeOldest now with
        | (_, some _) => some s
        | (s1, none) => syncLoop fuel s1 hash value now

/-- `sync(hash, value)` when the clock reads `now`. -/
def sync (s : shard) (hash : Nat) (value : List Byte) (now : Int) : shard :=
  if s.marker.get hash ≠ 0 then s
  else
    match syncLoop (s.entries.count + 1) s hash value now with
    | some r => r
    | none => s

/-- `del(hash)`; `none` is Go's `nil`. -/
def del (s : shard) (hash : Nat) : shard × Option Err :=
  let s0 := s.statsModify
  let itemIndex := s0.marker.get hash
  let pre : Option Err :=
    if itemIndex = 0 then
      if s0.redisEnable then
        if !s0.redisCache.exist hash then some .errKeyNotFound else none
      else some .errKeyNotFound
    else s0.entries.CheckGet itemIndex
  match pre with
  | some err => (s0, some err)
  | none =>
    if itemIndex = 0 then
      if s0.redisEnable && s0.redisCache.exist hash then
        ({ s0 with redisCache := s0.redisCache.delKey hash }, none)
      else (s0, some .errKeyNotFound)
    else
      match s0.entries.Get itemIndex with
      | .error err => (s0, some err)
      | .ok wrappedEntry =>
        (({ s0 with marker := s0.marker.delete hash }).tombstone itemIndex wrappedEntry, none)

/-- The loop of `removeOutdated` over the index entries in the order `order` of the map
iteration, with `r` entries still to examine. -/
def removeOutdatedLoop : List (Nat × Nat) → Nat → shard → Int → shard
  | [], _, s, _ => s
  | (k, v) :: rest, r, s, now =>
    if r = 0 then s
    else if v = 0 then removeOutdatedLoop rest r s now
    else
      match s.entries.Get v with
      | .error _ => removeOutdatedLoop rest r s now
      | .ok wrappedEntry =>
        let timeStamp := readTimestampFromEntry wrappedEntry
        let s1 :=
          if timeStamp ≠ 0 ∧ epoch now > timeStamp then
            ({ s with marker := s.marker.delete k }).tombstone v wrappedEntry
          else s
        removeOutdatedLoop rest (r - 1) s1 now

/-- `removeOutdated()` when the shuffler returns `r`, the map iteration visits the index entries
in the order `order`, and the clock reads `now`. -/
def removeOutdated (s : shard) (r : Nat) (order : List (Nat × Nat)) (now : Int) : shard :=
  removeOutdatedLoop order r s now

/-- `reset()`. -/
def reset (s : shard) : shard :=
  { s with marker := []
           buffer := List.replicate s.InitEntrySize 0
           stats := NewStats
           entries := s.entries.Reset
           redisCache := if s.redisEnable then s.redisCache.reset else s.redisCache }

/-- `close()`. -/
def close (s : shard) : shard :=
  if s.redisEnable then { s with redisCache := s.redisCache.close } else s

/-- `len()`. -/
def len (s : shard) : Nat := s.marker.length

/-- `cap()`. -/
def cap (s : shard) : Nat := s.entries.Capacity

/-- `getStats()`. -/
def getStats (s : shard) : Stats := s.stats

end shard

/-! ## shuffler.go

`defaultShuffler.shuffle(border)` is `s.r.Intn(border)` of `math/rand`: a number in
`[0, border)`, and a panic when `border <= 0`.  The random source is modelled by its outcome,
the argument `draw`.  (`newDefaultShuffle` leaves the field `r` unset; the model takes the
random source as given.) -/

/-- `shuffle(border)` when the random source yields `draw`; `none` is the panic of `rand.Intn`
for a bound that is not positive. -/
def shuffle (border : Int) (draw : Nat) : Option Nat :=
  if border ≤ 0 then none else some (draw % border.toNat)

/-! ## tiptop.go -/

/-- A Go channel on which nothing is ever sent: it is open or closed.  The nil channel is
`none : Option Chan`. -/
inductive Chan where
  | opened
  | closed
  deriving DecidableEq, Repr

/-- The builtin `close(ch)`: the channel afterwards, or the message of the run-time panic. -/
def closeChan : Option Chan → Except String (Option Chan)
  | none => .error "close of nil channel"
  | some .closed => .error "close of closed channel"
  | some .opened => .ok (some .closed)

/-- Whether a receive `<-ch` returns: nothing is sent, so it returns on a closed channel only;
on an open channel and on the nil channel it blocks. -/
def receives : Option Chan → Bool
  | some .closed => true
  | _ => false

/-- The struct `TipTop` without the janitor; `shardSize` is the mask `ShardSize - 1`, `close`
the shutdown channel (`none` is Go's `nil`, the value of a field that is not set). -/
structure TipTop where
  shards : List shard
  shardSize : Nat
  config : Config
  close : Option Chan := none
  deriving DecidableEq, Repr

/-- `NewTipTop(config)`; `redis` is the secondary store the shards connect to. -/
def NewTipTop (config : Config) (redis : redisCache) : Except String TipTop :=
  match implementConfig config with
  | .error err => .error err
  | .ok c =>
    .ok { shards := List.replicate c.ShardSize.toNat (initShard c redis)
          shardSize := uint64OfInt (c.ShardSize - 1)
          config := c
          close := none }

namespace TipTop

/-- The index `hash & t.shardSize` used by `getShard`. -/
def shardIndex (t : TipTop) (hash : Nat) : Nat := hash &&& t.shardSize

/-- `getShard(hash)` (Go panics when the index leaves the slice; the model then answers with
an empty shard). -/
def getShard (t : TipTop) (hash : Nat) : shard :=
  (t.shards[t.shardIndex hash]?).getD (initShard t.config { store := [] })

/-- The cache after the shard of `hash` became `s`. -/
def putShard (t : TipTop) (hash : Nat) (s : shard) : TipTop :=
  { t with shards := t.shards.set (t.shardIndex hash) s }

/-- `Get(key)` when the clock reads `now`. -/
def Get (t : TipTop) (key : List Byte) (now : Int) : TipTop × Except Err (List Byte) :=
  let hash := sum64 key
  let r := (t.getShard hash).get key hash now
  (t.putShard hash r.1, r.2)

/-- `SetWithTTL(key, value, ttl)` when the clock reads `now`. -/
def SetWithTTL (t : TipTop) (key value : List Byte) (ttl now : Int) : TipTop × Option Err :=
  let hash := sum64 key
  let r := (t.getShard hash).set key hash value ttl now
  (t.putShard hash r.1, r.2)

/-- `Set(key, value)` when the clock reads `now`. -/
def Set (t : TipTop) (key value : List Byte) (now : Int) : TipTop × Option Err :=
  t.SetWithTTL key value t.config.DefaultTTL now

/-- `Delete(key)`. -/
def Delete (t : TipTop) (key : List Byte) : TipTop × Option Err :=
  let hash := sum64 key
  let r := (t.getShard hash).del hash
  (t.putShard hash r.1, r.2)

/-- `Reset()`. -/
def Reset (t : TipTop) : TipTop := { t with shards := t.shards.map shard.reset }

/-- `Close()`: the cache afterwards and the error returned, always `nil`; or the message of
the run-time panic of `close(t.close)`. -/
def Close (t : TipTop) : Except String (TipTop × Option Err) :=
  match closeChan t.close with
  | .error msg => .error msg
  | .ok ch => .ok ({ t with close := ch, shards := t.shards.map shard.close }, none)

/-- Whether the janitor loop started by `tikTok` returns: its `select` leaves the loop on a
receive from `t.close`. -/
def janitorReturns (t : TipTop) : Bool := receives t.close

/-- The random outcomes that one iteration of the loop of `TipTop.removeOutdated` consumes:
the outcome `pick` of the random source in `t.shuffler.shuffle`, and, for the call of
`removeOutdated` on the chosen shard, the outcome `bound` of the source in
`s.shuffler.shuffle(len(s.marker))` and the order `order` of the map iteration. -/
structure SweepDraw where
  pick : Nat
  bound : Nat
  order : List (Nat × Nat)
  deriving DecidableEq, Repr

/-- The loop of `TipTop.removeOutdated` with `n` iterations left, the next one being number
`i`: the cache afterwards and the indices of the shards swept, in order; `none` is a panic (of
the shuffler, or of an index out of range). -/
def removeOutdatedLoop (draws : Nat → SweepDraw) (now : Int) :
    Nat → Nat → TipTop → Option (TipTop × List Nat)
  | 0, _, t => some (t, [])
  | n + 1, i, t =>
    match shuffle (t.shardSize : Int) (draws i).pick with
    | none => none
    | some j =>
      match t.shards[j]? with
      | none => none
      | some s =>
        match shuffle (s.marker.length : Int) (draws i).bound with
        | none => none
        | some r =>
          match removeOutdatedLoop draws now n (i + 1)
              { t with shards := t.shards.set j (s.removeOutdated r (draws i).order now) } with
          | none => none
          | some (t', swept) => some (t', j :: swept)

/-- `removeOutdated()`, one tick of the janitor, when the random source yields `first` for the
number of iterations and `draws i` in iteration `i`, and the clock reads `now`: the cache
afterwards and the indices of the shards swept; `none` is a panic. -/
def removeOutdated (t : TipTop) (first : Nat) (draws : Nat → SweepDraw) (now : Int) :
    Option (TipTop × List Nat) :=
  match shuffle (t.shardSize : Int) first with
  | none => none
  | some n => removeOutdatedLoop draws now n 0 t

/-- `Len()`. -/
def Len (t : TipTop) : Nat := (t.shards.map shard.len).sum

/-- `Cap()`. -/
def Cap (t : TipTop) : Nat := (t.shards.map shard.cap).sum

/-- `GetStats()`: six of the seven counters are summed. -/
def GetStats (t : TipTop) : Stats :=
  t.shards.foldl (fun s sh =>
    let tmp := sh.getStats
    { s with Hits := s.Hits + tmp.Hits
             Misses := s.Misses + tmp.Misses
             HitsRedis := s.HitsRedis + tmp.HitsRedis
             MissesRedis := s.MissesRedis + tmp.MissesRedis
             Modify := s.Modify + tmp.Modify
             Collision := s.Collision + tmp.Collision }) NewStats

end TipTop

/-! ## Specification: layouts, invariants, reachable states, scenarios -/

/-- The array `arr` with the bytes `src` written at offset `pos`. -/
def writeAt (arr : List Byte) (pos : Nat) (src : List Byte) : List Byte :=
  arr.take pos ++ src ++ arr.drop (pos + src.length)

/-- The entries `es` (offset of the header, payload) are stored back to back in `arr` from
offset `s` to offset `t`, each one as a 4-byte little-endian length and the payload. -/
def Seg (arr : List Byte) : Nat → Nat → List (Nat × List Byte) → Prop
  | s, t, [] => s = t
  | s, t, e :: es =>
    e.1 = s ∧ e.2.length < 4294967296 ∧
    slice arr s (headerEntrySize + e.2.length) = putUint32 e.2.length ++ e.2 ∧
    Seg arr (s + headerEntrySize + e.2.length) t es

/-- The queue is in its linear layout: the entries `es` lie from `head` to `tail`. -/
def QLin (q : ByteQueue) (es : List (Nat × List Byte)) : Prop :=
  q.array.length = q.capacity ∧ q.capacity ≤ 4294967296 ∧ q.count = es.length ∧ 1 ≤ q.head ∧
  q.head ≤ q.tail ∧ q.rightMargin = q.tail ∧ (q.tail ≤ q.capacity ∨ q.tail = 1) ∧
  (q.head = q.tail → q.head = 1) ∧ Seg q.array q.head q.tail es

/-- The queue is in its wrapped layout: the older entries `es1` lie from `head` to
`rightMargin`, the newer entries `es2` from the left margin to `tail`, and the gap between
`tail` and `head` can hold a filler blob. -/
def QWrap (q : ByteQueue) (es1 es2 : List (Nat × List Byte)) : Prop :=
  q.array.length = q.capacity ∧ q.capacity ≤ 4294967296 ∧ q.count = es1.length + es2.length ∧
  1 < q.tail ∧ q.tail + minimumEmptyBlobSize ≤ q.head ∧ q.head < q.rightMargin ∧
  q.rightMargin ≤ q.capacity ∧
  Seg q.array q.head q.rightMargin es1 ∧ Seg q.array leftMarginIndex q.tail es2

/-- The representation invariant of the queue: `es` lists the stored entries (offset of the
header, payload) in the order in which `Pop` returns them.  The ring is at most `2^32` bytes
long, so that every length fits its 4-byte header. -/
def QInv (q : ByteQueue) (es : List (Nat × List Byte)) : Prop :=
  QLin q es ∨ ∃ es1 es2, es = es1 ++ es2 ∧ QWrap q es1 es2

/-- The entries after a successful `Push`: the new entry comes last; when the push grew a
wrapped ring, the newer entries and a zero filler now precede the older ones. -/
def Pushed (es es' : List (Nat × List Byte)) (idx : Nat) (data : List Byte) : Prop :=
  es' = es ++ [(idx, data)] ∨
  ∃ es1 es2 i n, es = es1 ++ es2 ∧ es1 ≠ [] ∧ es2 ≠ [] ∧ 32 ≤ n ∧
    es' = es2 ++ (i, List.replicate n 0) :: es1 ++ [(idx, data)]

/-- The capacity chosen by `allocate(minimum)`. -/
def newCapacity (q : ByteQueue) (minimum : Nat) : Nat :=
  if (if q.capacity < minimum then q.capacity + minimum else q.capacity) * 2 > q.maxCapacity
      ∧ q.maxCapacity > 0 then q.maxCapacity
  else (if q.capacity < minimum then q.capacity + minimum else q.capacity) * 2

/-- The array after `allocate(minimum)` copied the used region. -/
def grown (q : ByteQueue) (minimum : Nat) : List Byte :=
  (copyAt (List.replicate (newCapacity q minimum) 0) 0 (q.array.take q.rightMargin)).1

/-- The entry `e` after the record stored at offset `i` was tombstoned. -/
def tomb (i : Nat) (e : Nat × List Byte) : Nat × List Byte :=
  if e.1 = i then (e.1, resetKeyFromEntry e.2) else e

/-- The keys of the index are pairwise different, as in a Go map. -/
def Marker.WF (m : Marker) : Prop := (m.map Prod.fst).Nodup

/-- The invariant of a shard whose index handles address records stored in the ring: `es`
lists the entries of the ring, each at least as long as a record header, and every non-zero
handle of the index is the offset of one of them. -/
def ShardInv (s : shard) (es : List (Nat × List Byte)) : Prop :=
  QInv s.entries es ∧ (∀ e ∈ es, 20 ≤ e.2.length) ∧
  (∀ h, s.marker.get h ≠ 0 → ∃ d, (s.marker.get h, d) ∈ es)

/-- The index after the eviction of the entries `popped`. -/
def evictAll (m : Marker) (popped : List (Nat × List Byte)) : Marker :=
  popped.foldl (fun m e => m.delete (readHashFromEntry e.2)) m

/-- One call on the queue: `Push(data)` or `Pop()`. -/
inductive QueueOp where
  | push (data : List Byte)
  | pop
  deriving DecidableEq, Repr

/-- The queue after the calls `ops`, made in order. -/
def ByteQueue.run (q : ByteQueue) : List QueueOp → ByteQueue
  | [] => q
  | .push data :: ops => ByteQueue.run (q.Push data).1 ops
  | .pop :: ops => ByteQueue.run q.Pop.1 ops

/-- Whether none of the calls `ops` is a `Pop` made while the head of the queue is the handle
`H`, that is, whether the entry at `H` is not popped. -/
def ByteQueue.keeps (q : ByteQueue) (H : Nat) : List QueueOp → Bool
  | [] => true
  | .push data :: ops => ByteQueue.keeps (q.Push data).1 H ops
  | .pop :: ops => q.head != H && ByteQueue.keeps q.Pop.1 H ops

/-- The entries that `n` successive calls of `Pop` return, each with the offset it was stored
at; the list ends at the first `Pop` that fails. -/
def ByteQueue.drain : Nat → ByteQueue → List (Nat × List Byte)
  | 0, _ => []
  | n + 1, q =>
    match q.Pop with
    | (q', .ok data) => (q.head, data) :: drain n q'
    | (_, .error _) => []

/-- The entries stored in the ring, oldest first, each with its handle. -/
def ByteQueue.stored (q : ByteQueue) : List (Nat × List Byte) := ByteQueue.drain q.count q

/-- The total size of the entries `es` in the ring: four header bytes and the payload each. -/
def ringSize (es : List (Nat × List Byte)) : Nat := (es.map fun e => 4 + e.2.length).sum

/-- A shard whose ring of 64 bytes, capped at 64 bytes, holds the one 40-byte record `d0`, of
fingerprint `h0`, and whose index holds its handle alone; eviction is allowed. -/
def Slot (s : shard) (h0 : Nat) (d0 : List Byte) : Prop :=
  ∃ i0, ShardInv s [(i0, d0)] ∧ s.marker = [(h0, i0)] ∧ readHashFromEntry d0 = h0
    ∧ d0.length = 40 ∧ s.entries.capacity = 64 ∧ s.entries.maxCapacity = 64
    ∧ s.onRemove = true

/-- The configuration of the scenarios "cap with eviction" and "cap without eviction": one
shard, a ring of 64 bytes capped at 64 bytes, no secondary store. -/
def capConfig (onRemove : Bool) : Config :=
  { DefaultConfig with ShardSize := 1, InitEntrySize := 64, MaxCacheSize := 64,
                       OnRemove := onRemove }

/-- The key `"k1"`. -/
def keyK1 : List Byte := [107, 49]

/-- The key `"k2"`. -/
def keyK2 : List Byte := [107, 50]

/-- The key `"k3"`. -/
def keyK3 : List Byte := [107, 51]

/-- The cache that `NewTipTop` builds from `capConfig`. -/
def capCache (onRemove : Bool) : TipTop :=
  { shards := [initShard (capConfig onRemove) { store := [] }]
    shardSize := 0
    config := capConfig onRemove }

/-- The states of a shard reachable from a fresh one by the operations of the shard;
`removeOutdated` iterates over the index in any order. -/
inductive Reach (config : Config) (redis : redisCache) : shard → Prop
  | init : Reach config redis (initShard config redis)
  | set (s : shard) (key : List Byte) (hash : Nat) (value : List Byte) (ttl now : Int) :
      Reach config redis s → Reach config redis (s.set key hash value ttl now).1
  | get (s : shard) (key : List Byte) (hash : Nat) (now : Int) :
      Reach config redis s → Reach config redis (s.get key hash now).1
  | del (s : shard) (hash : Nat) :
      Reach config redis s → Reach config redis (s.del hash).1
  | removeOutdated (s : shard) (r : Nat) (order : List (Nat × Nat)) (now : Int) :
      Reach config redis s → order.Perm s.marker →
      Reach config redis (s.removeOutdated r order now)
  | reset (s : shard) : Reach config redis s → Reach config redis s.reset

/-- The part of a shard that no operation changes: the cap of the ring and the two flags. -/
def sameSetup (s s' : shard) : Prop :=
  s'.entries.maxCapacity = s.entries.maxCapacity ∧ s'.onRemove = s.onRemove
    ∧ s'.redisEnable = s.redisEnable

/-- Whether the handle `v` is the offset of a stored entry. -/
def Stored (es : List (Nat × List Byte)) (v : Nat) : Prop := ∃ d, (v, d) ∈ es

/-- The invariant of a shard that never evicts: the index handles address stored records, the
keys of the index are pairwise different and the ring is at most `bound` bytes long. -/
def NoEvictInv (bound : Nat) (s : shard) : Prop :=
  ∃ es, ShardInv s es ∧ s.marker.WF ∧ s.entries.capacity ≤ bound

/-- The key `"alpha"`. -/
def keyAlpha : List Byte := [97, 108, 112, 104, 97]

/-- An 8-byte key whose FNV-1a fingerprint is `0`. -/
def keyZero : List Byte := [213, 107, 185, 83, 66, 135, 8, 54]

/-- A cache of two shards with rings of 128 bytes and no cap. -/
def smallConfig : Config := { DefaultConfig with ShardSize := 2, InitEntrySize := 128 }

/-- The payload of `n` bytes `b`. -/
def fill (n : Nat) (b : Byte) : List Byte := List.replicate n b

/-- The queue of the FIFO scenario: pushes of 40 and 10 bytes, a pop, a push of 4 bytes that
wraps to the left margin, and a push of 10 bytes that grows the array. -/
def fifoQueue : ByteQueue :=
  (((((NewByteQueue 64 0).Push (fill 40 1)).1.Push (fill 10 2)).1.Pop.1.Push (fill 4 3)).1.Push
    (fill 10 4)).1

/-- The cache that `NewTipTop` builds from `smallConfig`. -/
def smallCache : TipTop :=
  { shards := [initShard smallConfig { store := [] }, initShard smallConfig { store := [] }]
    shardSize := 1
    config := smallConfig }

/-- The shard of the scenario "cap without eviction" after `set("k1", ..)` succeeded and
`set("k2", ..)` failed. -/
def capShard : shard :=
  (((initShard (capConfig false) { store := [] }).set keyK1 (sum64 keyK1) (fill 20 1) 0 0).1.set
    keyK2 (sum64 keyK2) (fill 20 2) 0 0).1

/-- The queue of the scenario "full below the cap": a ring of 64 bytes with a cap of 100 bytes
that holds one entry of 40 bytes. -/
def fullQueue : ByteQueue := ((NewByteQueue 64 100).Push (fill 40 1)).1

/-- One call on the queue among `Push`, `Pop`, `Get` and `Reset`. -/
inductive QueueCall where
  | push (data : List Byte)
  | pop
  | get (index : Nat)
  | reset
  deriving DecidableEq, Repr

/-- The queue after one call (`Get` does not change it). -/
def ByteQueue.call (q : ByteQueue) : QueueCall → ByteQueue
  | .push data => (q.Push data).1
  | .pop => q.Pop.1
  | .get _ => q
  | .reset => q.Reset

/-- The queue after the calls `cs`, made in order. -/
def ByteQueue.calls (q : ByteQueue) (cs : List QueueCall) : ByteQueue :=
  cs.foldl ByteQueue.call q

/-- The shard of the scenario "failed overwrite with eviction": one shard with a 64-byte ring
capped at 64 bytes and eviction allowed, after `set("k1", 20 bytes)` succeeded and
`set("k1", 100 bytes)` returned `errMaxEntry`. -/
def danglingShard : shard :=
  (((initShard (capConfig true) { store := [] }).set keyK1 (sum64 keyK1) (fill 20 1) 0 0).1.set
    keyK1 (sum64 keyK1) (fill 100 2) 0 0).1

/-- The shard of the scenario "failed overwrite without eviction": one shard with a 64-byte
ring capped at 64 bytes and eviction disabled, after `set("k1", 20 bytes)` succeeded and a
second `set("k1", 20 bytes)` returned `errMaxEntry`. -/
def tombstonedShard : shard :=
  (((initShard (capConfig false) { store := [] }).set keyK1 (sum64 keyK1) (fill 20 1) 0 0).1.set
    keyK1 (sum64 keyK1) (fill 20 2) 0 0).1

/-- A configuration of two shards with a total cap of one byte. -/
def tinyCapConfig : Config := { DefaultConfig with ShardSize := 2, MaxCacheSize := 1 }

/-- A configuration with a secondary store: one shard with a 64-byte ring. -/
def redisConfig : Config :=
  { DefaultConfig with ShardSize := 1, InitEntrySize := 64, RedisAddr := "localhost:6379" }

/-- A cache of one shard, with a secondary store, whose shard promoted one record from the
secondary store by `sync`. -/
def syncedCache : TipTop :=
  { shards := [(initShard redisConfig { store := [] }).sync (sum64 keyK1)
      (wrapEntry 0 (sum64 keyK1) (ChecksumIEEE keyK1) (fill 20 1) []).1 0]
    shardSize := 0
    config := redisConfig }

/-- The configuration that sets no shard count. -/
def zeroShardConfig : Config := { DefaultConfig with ShardSize := 0 }

/-- The calls of the scenario "growth within the cap": two pushes of 40 bytes, the second of
which grows the array, a pop, a read, a reset and a push of 100 bytes. -/
def growthCalls : List QueueCall :=
  [.push (fill 40 1), .push (fill 40 2), .pop, .get 1, .reset, .push (fill 100 3)]

/-- A configuration of four shards with a total cap of ten bytes. -/
def fourShardConfig : Config := { DefaultConfig with ShardSize := 4, MaxCacheSize := 10 }

/-- `time.Second`, as a `time.Duration`: the number of nanoseconds of one second. -/
def Second : Int := 1000000000

/-- A configuration with a secondary store and a cap: one shard with a 64-byte ring capped
at 64 bytes, eviction allowed. -/
def redisCapConfig : Config :=
  { DefaultConfig with ShardSize := 1, InitEntrySize := 64, MaxCacheSize := 64,
                       RedisAddr := "localhost:6379" }

/-- The shard of the scenario "eviction to the secondary store": at the clock `1000 s`,
`set("k1", 20 bytes)` with a time-to-live of 60 seconds, then `set("k2", 20 bytes)`, which
evicts the record of `"k1"` to the secondary store. -/
def evictedShard : shard :=
  (((initShard redisCapConfig { store := [] }).set keyK1 (sum64 keyK1) (fill 20 1)
    (60 * Second) (1000 * Second)).1.set keyK2 (sum64 keyK2) (fill 20 2) 0 (1000 * Second)).1

/-- The outcomes of the random source that are all `0`, with an empty iteration order. -/
def zeroDraws : Nat → TipTop.SweepDraw := fun _ => { pick := 0, bound := 0, order := [] }

/-- The entries `es'` hold, at the offset of each entry of `es`, an entry that reads the same:
same checksum, same expiration, same payload. -/
def SameReads (es es' : List (Nat × List Byte)) : Prop :=
  ∀ i d, (i, d) ∈ es → ∃ d', (i, d') ∈ es'
    ∧ readCRC32FromEntry d' = readCRC32FromEntry d
    ∧ readTimestampFromEntry d' = readTimestampFromEntry d
    ∧ readEntry d' = readEntry d

/-- Two entries of the ring occupy disjoint ranges of bytes. -/
def Apart (a b : Nat × List Byte) : Prop :=
  a.1 + 4 + a.2.length ≤ b.1 ∨ b.1 + 4 + b.2.length ≤ a.1

/-- The shard of the scenario "sweep": a fresh shard after `set("alpha", "1")` with a
time-to-live of one second at the clock `0`. -/
def expiringShard : shard :=
  ((initShard (capConfig true) { store := [] }).set keyAlpha (sum64 keyAlpha) [49] Second 0).1

/-- A payload of `2^32` zero bytes. -/
def hugePayload : List Byte := List.replicate 4294967296 0

/-- A cache of one shard with a ring of 128 bytes and no cap. -/
def plainConfig : Config := { DefaultConfig with ShardSize := 1, InitEntrySize := 128 }

/-- The cache that `NewTipTop` builds from `plainConfig`. -/
def plainCache : TipTop :=
  { shards := [initShard plainConfig { store := [] }]
    shardSize := 0
    config := plainConfig }

/-- The configuration that sets no cleaning window. -/
def zeroWindowConfig : Config := { DefaultConfig with CleanWindow := 0 }

/-! ## Theorems -/

/-! ### Bytes, slices and writes -/

theorem leBytes_length (n v : Nat) : (leBytes n v).length = n := by
  induction n generalizing v with
  | zero => rfl
  | succ n ih => simp [leBytes, ih]

theorem leNat_leBytes (n v : Nat) : leNat (leBytes n v) = v % 256 ^ n := by
  induction n generalizing v with
  | zero => simp [leBytes, leNat, Nat.mod_one]
  | succ n ih =>
    simp only [leBytes, leNat, byteOf, ih]
    rw [pow_succ, Nat.mul_comm (256 ^ n) 256, Nat.mod_mul]

theorem putUint32_length (v : Nat) : (putUint32 v).length = 4 := leBytes_length 4 v

theorem putUint64_length (v : Nat) : (putUint64 v).length = 8 := leBytes_length 8 v

theorem getUint32_putUint32_append (v : Nat) (rest : List Byte) :
    getUint32 (putUint32 v ++ rest) = v % 4294967296 := by
  unfold getUint32
  rw [List.take_append_of_le_length (by rw [putUint32_length])]
  rw [List.take_of_length_le (by rw [putUint32_length])]
  exact leNat_leBytes 4 v

theorem getUint64_putUint64_append (v : Nat) (rest : List Byte) :
    getUint64 (putUint64 v ++ rest) = v % 18446744073709551616 := by
  unfold getUint64
  rw [List.take_append_of_le_length (by rw [putUint64_length])]
  rw [List.take_of_length_le (by rw [putUint64_length])]
  exact leNat_leBytes 8 v

theorem int64OfNat_uint64OfInt (x : Int) (h1 : -9223372036854775808 ≤ x)
    (h2 : x < 9223372036854775808) : int64OfNat (uint64OfInt x) = x := by
  unfold int64OfNat uint64OfInt
  have hm : (x % 18446744073709551616).toNat % 18446744073709551616
      = (x % 18446744073709551616).toNat := by
    apply Nat.mod_eq_of_lt
    omega
  rw [hm]
  split <;> omega

theorem slice_length (a : List Byte) (lo n : Nat) (h : lo + n ≤ a.length) :
    (slice a lo n).length = n := by
  simp [slice]; omega

theorem getElem?_slice (a : List Byte) (lo n i : Nat) :
    (slice a lo n)[i]? = if i < n then a[lo + i]? else none := by
  simp [slice, List.getElem?_take, List.getElem?_drop]

theorem writeAt_length (arr : List Byte) (pos : Nat) (src : List Byte)
    (h : pos + src.length ≤ arr.length) : (writeAt arr pos src).length = arr.length := by
  simp [writeAt]; omega

theorem getElem?_writeAt (arr : List Byte) (pos : Nat) (src : List Byte) (i : Nat)
    (h : pos + src.length ≤ arr.length) :
    (writeAt arr pos src)[i]? =
      if pos ≤ i ∧ i < pos + src.length then src[i - pos]? else arr[i]? := by
  unfold writeAt
  have hlen : (List.take pos arr).length = pos := by
    rw [List.length_take]; omega
  by_cases h1 : i < pos
  · rw [List.append_assoc, List.getElem?_append_left (by omega)]
    have h3 : ¬ (pos ≤ i ∧ i < pos + src.length) := by omega
    rw [if_neg h3, List.getElem?_take, if_pos h1]
  · by_cases h2 : i < pos + src.length
    · rw [List.append_assoc, List.getElem?_append_right (by omega)]
      rw [List.getElem?_append_left (by omega)]
      rw [if_pos ⟨by omega, h2⟩, hlen]
    · rw [List.getElem?_append_right (by rw [List.length_append]; omega)]
      rw [List.length_append, hlen, List.getElem?_drop]
      have : pos + src.length + (i - (pos + src.length)) = i := by omega
      rw [this, if_neg (by omega)]

theorem copyAt_fst (dst : List Byte) (pos : Nat) (src : List Byte)
    (h : pos + src.length ≤ dst.length) : (copyAt dst pos src).1 = writeAt dst pos src := by
  unfold copyAt writeAt
  have : min (dst.length - pos) src.length = src.length := by omega
  simp [this]

theorem copyAt_snd (dst : List Byte) (pos : Nat) (src : List Byte)
    (h : pos + src.length ≤ dst.length) : (copyAt dst pos src).2 = src.length := by
  unfold copyAt
  simp; omega

theorem copyAt_length (dst : List Byte) (pos : Nat) (src : List Byte) :
    (copyAt dst pos src).1.length = dst.length := by
  unfold copyAt
  simp
  omega

theorem slice_writeAt_same (arr : List Byte) (pos : Nat) (src : List Byte)
    (h : pos + src.length ≤ arr.length) : slice (writeAt arr pos src) pos src.length = src := by
  apply List.ext_getElem?
  intro i
  rw [getElem?_slice, getElem?_writeAt _ _ _ _ h]
  by_cases hi : i < src.length
  · have : pos ≤ pos + i ∧ pos + i < pos + src.length := by omega
    simp [hi, this]
  · simp [hi]
    omega

theorem slice_congr (a b : List Byte) (lo n : Nat)
    (h : ∀ i, lo ≤ i → i < lo + n → a[i]? = b[i]?) : slice a lo n = slice b lo n := by
  apply List.ext_getElem?
  intro i
  rw [getElem?_slice, getElem?_slice]
  by_cases hi : i < n
  · simp [hi]; exact h _ (by omega) (by omega)
  · simp [hi]

theorem slice_append_split (a : List Byte) (lo n m : Nat) (x y : List Byte)
    (h : slice a lo (n + m) = x ++ y) (hx : x.length = n) :
    slice a lo n = x ∧ slice a (lo + n) m = y := by
  have h1 : slice a lo n = (slice a lo (n + m)).take n := by
    simp [slice, List.take_take]
  have h2 : slice a (lo + n) m = (slice a lo (n + m)).drop n := by
    simp only [slice]
    rw [List.drop_take, List.drop_drop]
    simp
  rw [h1, h2, h]
  constructor
  · rw [List.take_append_of_le_length (by omega), List.take_of_length_le (by omega)]
  · rw [List.drop_append_of_le_length (by omega), List.drop_of_length_le (by omega)]
    simp

theorem slice_full_length (a : List Byte) (lo n : Nat) (x : List Byte)
    (h : slice a lo n = x) (hx : x.length = n) (hn : 0 < n) : lo + n ≤ a.length := by
  have := congrArg List.length h
  simp [slice] at this
  omega

/-! ### Laid-out segments -/

theorem writeAt_writeAt_append (arr : List Byte) (pos : Nat) (x y : List Byte)
    (h : pos + x.length + y.length ≤ arr.length) :
    writeAt (writeAt arr pos x) (pos + x.length) y = writeAt arr pos (x ++ y) := by
  apply List.ext_getElem?
  intro i
  have h1 : pos + x.length ≤ arr.length := by omega
  rw [getElem?_writeAt _ _ _ _ (by rw [writeAt_length _ _ _ h1]; omega),
    getElem?_writeAt _ _ _ _ h1, getElem?_writeAt _ _ _ _ (by rw [List.length_append]; omega)]
  rw [List.length_append]
  by_cases c1 : i < pos
  · rw [if_neg (by omega), if_neg (by omega), if_neg (by omega)]
  · by_cases c2 : i < pos + x.length
    · rw [if_neg (by omega), if_pos (by omega), if_pos (by omega),
        List.getElem?_append_left (by omega)]
    · by_cases c3 : i < pos + x.length + y.length
      · rw [if_pos (by omega), if_pos (by omega), List.getElem?_append_right (by omega)]
        congr 1; omega
      · rw [if_neg (by omega), if_neg (by omega), if_neg (by omega)]

theorem push_eq (q : ByteQueue) (data : List Byte)
    (h : q.tail + 4 + data.length ≤ q.array.length) (hl : data.length < 4294967296) :
    q.push data data.length =
      { q with array := writeAt q.array q.tail (putUint32 data.length ++ data)
               tail := q.tail + 4 + data.length
               rightMargin := if q.tail + 4 + data.length > q.head then q.tail + 4 + data.length
                 else q.rightMargin
               count := q.count + 1 } := by
  have e1 : copyAt q.array q.tail (putUint32 data.length) =
      (writeAt q.array q.tail (putUint32 data.length), 4) := by
    apply Prod.ext
    · exact copyAt_fst _ _ _ (by rw [putUint32_length]; omega)
    · rw [copyAt_snd _ _ _ (by rw [putUint32_length]; omega), putUint32_length]
  have hw : (writeAt q.array q.tail (putUint32 data.length)).length = q.array.length :=
    writeAt_length _ _ _ (by rw [putUint32_length]; omega)
  have e2 : copyAt (writeAt q.array q.tail (putUint32 data.length)) (q.tail + 4) data =
      (writeAt q.array q.tail (putUint32 data.length ++ data), data.length) := by
    apply Prod.ext
    · rw [copyAt_fst _ _ _ (by rw [hw]; omega)]
      have := writeAt_writeAt_append q.array q.tail (putUint32 data.length) data
        (by rw [putUint32_length]; omega)
      rw [putUint32_length] at this
      exact this
    · exact copyAt_snd _ _ _ (by rw [hw]; omega)
  unfold ByteQueue.push ByteQueue.copy
  simp only [headerEntrySize, Nat.mod_eq_of_lt hl, List.take_of_length_le (Nat.le_refl _),
    List.take_of_length_le (Nat.le_of_eq (putUint32_length data.length)), e1, e2]
  by_cases c : q.tail + 4 + data.length > q.head
  · simp [c]
  · simp [c]

theorem Seg_le {arr : List Byte} {es : List (Nat × List Byte)} {s t : Nat}
    (h : Seg arr s t es) : s ≤ t := by
  induction es generalizing s with
  | nil => exact Nat.le_of_eq h
  | cons e es ih =>
    obtain ⟨_, _, _, h4⟩ := h
    have := ih h4
    omega

theorem Seg_lt {arr : List Byte} {e : Nat × List Byte} {es : List (Nat × List Byte)} {s t : Nat}
    (h : Seg arr s t (e :: es)) : s + 4 + e.2.length ≤ t := by
  obtain ⟨_, _, _, h4⟩ := h
  exact Seg_le h4

theorem Seg_eq_nil {arr : List Byte} {es : List (Nat × List Byte)} {s : Nat}
    (h : Seg arr s s es) : es = [] := by
  cases es with
  | nil => rfl
  | cons e es => have := Seg_lt h; omega

theorem Seg_bound {arr : List Byte} {es : List (Nat × List Byte)} {s t : Nat}
    (h : Seg arr s t es) (hne : es ≠ []) : t ≤ arr.length := by
  induction es generalizing s with
  | nil => exact absurd rfl hne
  | cons e es ih =>
    obtain ⟨_, _, h3, h4⟩ := h
    cases es with
    | nil =>
      have h5 : s + headerEntrySize + e.2.length = t := h4
      have := slice_full_length _ _ _ _ h3 (by simp [putUint32_length]) (by simp)
      simp only [headerEntrySize] at this h5
      omega
    | cons e2 es => exact ih h4 (by simp)

theorem Seg_congr {arr arr2 : List Byte} {es : List (Nat × List Byte)} {s t : Nat}
    (h : Seg arr s t es) (hc : ∀ i, s ≤ i → i < t → arr2[i]? = arr[i]?) : Seg arr2 s t es := by
  induction es generalizing s with
  | nil => exact h
  | cons e es ih =>
    have hlt := Seg_lt h
    obtain ⟨h1, h2, h3, h4⟩ := h
    refine ⟨h1, h2, ?_, ?_⟩
    · rw [← h3]
      apply slice_congr
      intro i hi1 hi2
      simp only [headerEntrySize] at hi2
      exact hc i hi1 (by omega)
    · apply ih h4
      intro i hi1 hi2
      exact hc i (by omega) hi2

theorem Seg_append {arr : List Byte} {es1 es2 : List (Nat × List Byte)} {s m t : Nat}
    (h1 : Seg arr s m es1) (h2 : Seg arr m t es2) : Seg arr s t (es1 ++ es2) := by
  induction es1 generalizing s with
  | nil =>
    have : s = m := h1
    subst this
    exact h2
  | cons e es ih =>
    obtain ⟨a, b, c, d⟩ := h1
    exact ⟨a, b, c, ih d⟩

theorem Seg_single (arr : List Byte) (s : Nat) (d : List Byte) (hl : d.length < 4294967296)
    (hs : slice arr s (4 + d.length) = putUint32 d.length ++ d) :
    Seg arr s (s + 4 + d.length) [(s, d)] :=
  ⟨rfl, hl, hs, rfl⟩

theorem Seg_mem {arr : List Byte} {es : List (Nat × List Byte)} {s t : Nat}
    (h : Seg arr s t es) {e : Nat × List Byte} (he : e ∈ es) :
    s ≤ e.1 ∧ e.1 + 4 + e.2.length ≤ t ∧ e.2.length < 4294967296 ∧
      slice arr e.1 (4 + e.2.length) = putUint32 e.2.length ++ e.2 := by
  induction es generalizing s with
  | nil => cases he
  | cons e0 es ih =>
    have hlt := Seg_lt h
    obtain ⟨h1, h2, h3, h4⟩ := h
    rcases List.mem_cons.1 he with rfl | he
    · rw [h1]
      exact ⟨Nat.le_refl _, hlt, h2, h3⟩
    · have := ih h4 he
      simp only [headerEntrySize] at this
      exact ⟨by omega, this.2⟩

/-- Reading the entry stored at offset `i`. -/
theorem read_entry {arr : List Byte} {i : Nat} {d : List Byte} (hl : d.length < 4294967296)
    (hs : slice arr i (4 + d.length) = putUint32 d.length ++ d) :
    getUint32 (slice arr i 4) = d.length ∧ slice arr (i + 4) d.length = d := by
  obtain ⟨a, b⟩ := slice_append_split arr i 4 d.length _ _ hs (putUint32_length _)
  refine ⟨?_, b⟩
  rw [a]
  have := getUint32_putUint32_append d.length []
  rw [List.append_nil] at this
  rw [this, Nat.mod_eq_of_lt hl]

theorem Seg_unique {arr : List Byte} {es : List (Nat × List Byte)} {s t : Nat}
    (h : Seg arr s t es) {i : Nat} {d1 d2 : List Byte} (h1 : (i, d1) ∈ es) (h2 : (i, d2) ∈ es) :
    d1 = d2 := by
  obtain ⟨_, _, l1, s1⟩ := Seg_mem h h1
  obtain ⟨_, _, l2, s2⟩ := Seg_mem h h2
  obtain ⟨a1, b1⟩ := read_entry l1 s1
  obtain ⟨a2, b2⟩ := read_entry l2 s2
  simp only at a1 a2 b1 b2
  have : d1.length = d2.length := by rw [← a1, ← a2]
  rw [← b1, ← b2, this]

/-! ### The invariant of the queue: `push` -/

theorem Seg_writeAt_disjoint {arr : List Byte} {es : List (Nat × List Byte)} {s t : Nat}
    (h : Seg arr s t es) (pos : Nat) (src : List Byte) (hfit : pos + src.length ≤ arr.length)
    (hd : t ≤ pos ∨ pos + src.length ≤ s) : Seg (writeAt arr pos src) s t es := by
  apply Seg_congr h
  intro i h1 h2
  rw [getElem?_writeAt _ _ _ _ hfit, if_neg (by omega)]

theorem Seg_writeAt_new (arr : List Byte) (pos : Nat) (d : List Byte)
    (hl : d.length < 4294967296) (hfit : pos + 4 + d.length ≤ arr.length) :
    Seg (writeAt arr pos (putUint32 d.length ++ d)) pos (pos + 4 + d.length) [(pos, d)] := by
  apply Seg_single _ _ _ hl
  have hlen : (putUint32 d.length ++ d).length = 4 + d.length := by
    rw [List.length_append, putUint32_length]
  have := slice_writeAt_same arr pos (putUint32 d.length ++ d) (by rw [hlen]; omega)
  rw [hlen] at this
  exact this

theorem QInv_NewByteQueue (initialCapacity maxCapacity : Nat) (h : initialCapacity ≤ 4294967296) :
    QInv (NewByteQueue initialCapacity maxCapacity) [] := by
  left
  refine ⟨by simp [NewByteQueue], h, rfl, Nat.le_refl _, Nat.le_refl _, rfl, Or.inr rfl,
    fun _ => rfl, rfl⟩

theorem QInv_Reset {q : ByteQueue} {es : List (Nat × List Byte)} (h : QInv q es) :
    QInv q.Reset [] := by
  have h12 : q.array.length = q.capacity ∧ q.capacity ≤ 4294967296 := by
    rcases h with h | ⟨_, _, _, h⟩
    · exact ⟨h.1, h.2.1⟩
    · exact ⟨h.1, h.2.1⟩
  left
  exact ⟨h12.1, h12.2, rfl, Nat.le_refl _, Nat.le_refl _, rfl, Or.inr rfl, fun _ => rfl, rfl⟩

/-- Appending at the tail of a linear queue. -/
theorem push_linear {q : ByteQueue} {es : List (Nat × List Byte)} (data : List Byte)
    (hq : QLin q es) (hfit : q.tail + 4 + data.length ≤ q.capacity) :
    QLin (q.push data data.length) (es ++ [(q.tail, data)]) := by
  obtain ⟨h1, h2, h3, h4, h5, h6, h7, h8, h9⟩ := hq
  have hl : data.length < 4294967296 := by omega
  rw [push_eq q data (by omega) hl]
  have hlen : (putUint32 data.length ++ data).length = 4 + data.length := by
    rw [List.length_append, putUint32_length]
  have hgt : q.tail + 4 + data.length > q.head := by omega
  refine ⟨?_, h2, ?_, h4, ?_, ?_, ?_, ?_, ?_⟩
  · show (writeAt _ _ _).length = _
    rw [writeAt_length _ _ _ (by rw [hlen]; omega)]; exact h1
  · show q.count + 1 = _
    rw [List.length_append, h3]; rfl
  · show q.head ≤ q.tail + 4 + data.length
    omega
  · show (if q.tail + 4 + data.length > q.head then q.tail + 4 + data.length else q.rightMargin)
      = q.tail + 4 + data.length
    rw [if_pos hgt]
  · left; exact hfit
  · intro hc
    have : q.head = q.tail + 4 + data.length := hc
    omega
  · show Seg (writeAt q.array q.tail (putUint32 data.length ++ data)) q.head
      (q.tail + 4 + data.length) (es ++ [(q.tail, data)])
    apply @Seg_append _ _ _ _ q.tail _
    · exact Seg_writeAt_disjoint h9 _ _ (by rw [hlen]; omega) (Or.inl (Nat.le_refl _))
    · exact Seg_writeAt_new _ _ _ hl (by omega)

/-- Appending at the tail of a wrapped queue. -/
theorem push_wrapped {q : ByteQueue} {es1 es2 : List (Nat × List Byte)} (data : List Byte)
    (hq : QWrap q es1 es2) (hfit : q.tail + 4 + data.length + minimumEmptyBlobSize ≤ q.head) :
    QWrap (q.push data data.length) es1 (es2 ++ [(q.tail, data)]) := by
  obtain ⟨h1, h2, h3, h4, h5, h6, h7, h8, h9⟩ := hq
  simp only [minimumEmptyBlobSize, headerEntrySize] at hfit h5
  have hl : data.length < 4294967296 := by omega
  rw [push_eq q data (by omega) hl]
  have hlen : (putUint32 data.length ++ data).length = 4 + data.length := by
    rw [List.length_append, putUint32_length]
  have hgt : ¬ q.tail + 4 + data.length > q.head := by omega
  refine ⟨?_, h2, ?_, ?_, ?_, ?_, ?_, ?_, ?_⟩
  · show (writeAt _ _ _).length = _
    rw [writeAt_length _ _ _ (by rw [hlen]; omega)]; exact h1
  · show q.count + 1 = _
    rw [List.length_append, h3]; simp; omega
  · show 1 < q.tail + 4 + data.length
    omega
  · show q.tail + 4 + data.length + minimumEmptyBlobSize ≤ q.head
    simp only [minimumEmptyBlobSize, headerEntrySize]; omega
  · show q.head < (if q.tail + 4 + data.length > q.head then q.tail + 4 + data.length
      else q.rightMargin)
    rw [if_neg hgt]; exact h6
  · show (if q.tail + 4 + data.length > q.head then q.tail + 4 + data.length
      else q.rightMargin) ≤ q.capacity
    rw [if_neg hgt]; exact h7
  · show Seg (writeAt q.array q.tail (putUint32 data.length ++ data)) q.head
      (if q.tail + 4 + data.length > q.head then q.tail + 4 + data.length else q.rightMargin) es1
    rw [if_neg hgt]
    exact Seg_writeAt_disjoint h8 _ _ (by rw [hlen]; omega) (Or.inr (by rw [hlen]; omega))
  · show Seg (writeAt q.array q.tail (putUint32 data.length ++ data)) leftMarginIndex
      (q.tail + 4 + data.length) (es2 ++ [(q.tail, data)])
    apply @Seg_append _ _ _ _ q.tail _
    · exact Seg_writeAt_disjoint h9 _ _ (by rw [hlen]; omega) (Or.inl (Nat.le_refl _))
    · exact Seg_writeAt_new _ _ _ hl (by omega)

/-- Wrapping: the tail of a linear queue moves to the left margin. -/
theorem push_wrap {q : ByteQueue} {es : List (Nat × List Byte)} (data : List Byte)
    (hq : QLin q es) (hfit : leftMarginIndex + 4 + data.length + minimumEmptyBlobSize ≤ q.head) :
    QWrap (({ q with tail := leftMarginIndex } : ByteQueue).push data data.length) es
      [(leftMarginIndex, data)] := by
  obtain ⟨h1, h2, h3, h4, h5, h6, h7, h8, h9⟩ := hq
  simp only [minimumEmptyBlobSize, headerEntrySize, leftMarginIndex] at hfit
  have hne : q.head ≠ q.tail := fun hc => by have := h8 hc; omega
  have hcap : q.tail ≤ q.capacity := by
    rcases h7 with h7 | h7
    · exact h7
    · omega
  have hl : data.length < 4294967296 := by omega
  rw [push_eq _ data (by show 1 + 4 + data.length ≤ q.array.length; omega) hl]
  dsimp only [leftMarginIndex]
  have hlen : (putUint32 data.length ++ data).length = 4 + data.length := by
    rw [List.length_append, putUint32_length]
  have hgt : ¬ 1 + 4 + data.length > q.head := by omega
  refine ⟨?_, h2, ?_, ?_, ?_, ?_, ?_, ?_, ?_⟩
  · show (writeAt _ _ _).length = _
    rw [writeAt_length _ _ _ (by rw [hlen]; show 1 + _ ≤ _; omega)]; exact h1
  · show q.count + 1 = _
    rw [h3]; rfl
  · show 1 < 1 + 4 + data.length
    omega
  · show 1 + 4 + data.length + minimumEmptyBlobSize ≤ q.head
    simp only [minimumEmptyBlobSize, headerEntrySize]; omega
  · show q.head < (if 1 + 4 + data.length > q.head then 1 + 4 + data.length else q.rightMargin)
    rw [if_neg hgt, h6]; omega
  · show (if 1 + 4 + data.length > q.head then 1 + 4 + data.length else q.rightMargin)
      ≤ q.capacity
    rw [if_neg hgt, h6]; exact hcap
  · show Seg (writeAt q.array 1 (putUint32 data.length ++ data)) q.head
      (if 1 + 4 + data.length > q.head then 1 + 4 + data.length else q.rightMargin) es
    rw [if_neg hgt, h6]
    exact Seg_writeAt_disjoint h9 _ _ (by rw [hlen]; omega) (Or.inr (by rw [hlen]; omega))
  · show Seg (writeAt q.array 1 (putUint32 data.length ++ data)) 1 (1 + 4 + data.length)
      [(1, data)]
    exact Seg_writeAt_new _ _ _ hl (by omega)

/-! ### The invariant of the queue: `allocate` -/

theorem newCapacity_ge (q : ByteQueue) (minimum : Nat)
    (h : ¬ (q.capacity + minimum ≥ q.maxCapacity ∧ q.maxCapacity > 0)) :
    q.capacity + minimum ≤ newCapacity q minimum := by
  unfold newCapacity
  split <;> split <;> omega

theorem allocate_def (q : ByteQueue) (minimum : Nat) :
    q.allocate minimum =
      if leftMarginIndex ≠ q.rightMargin then
        if q.tail < q.head then
          { (({ q with capacity := newCapacity q minimum, array := grown q minimum } :
                ByteQueue).push (List.replicate (q.head - q.tail - headerEntrySize) 0)
                (q.head - q.tail - headerEntrySize)) with
            head := leftMarginIndex
            tail := (({ q with capacity := newCapacity q minimum, array := grown q minimum } :
                ByteQueue).push (List.replicate (q.head - q.tail - headerEntrySize) 0)
                (q.head - q.tail - headerEntrySize)).rightMargin }
        else { q with capacity := newCapacity q minimum, array := grown q minimum }
      else { q with capacity := newCapacity q minimum
                    array := List.replicate (newCapacity q minimum) 0 } := rfl

theorem grown_length (q : ByteQueue) (minimum : Nat) :
    (grown q minimum).length = newCapacity q minimum := by
  unfold grown
  rw [copyAt_length, List.length_replicate]

theorem grown_agree (q : ByteQueue) (minimum : Nat) (h1 : q.rightMargin ≤ q.array.length)
    (h2 : q.rightMargin ≤ newCapacity q minimum) (i : Nat) (hi : i < q.rightMargin) :
    (grown q minimum)[i]? = q.array[i]? := by
  unfold grown
  have hl : (q.array.take q.rightMargin).length = q.rightMargin := by
    rw [List.length_take]; omega
  rw [copyAt_fst _ _ _ (by rw [hl, List.length_replicate]; omega),
    getElem?_writeAt _ _ _ _ (by rw [hl, List.length_replicate]; omega), hl,
    if_pos (by omega), List.getElem?_take, if_pos (by omega)]
  rfl

/-- The filler entry written over the gap of a wrapped queue when it grows. -/
theorem allocate_wrapped_eq (q : ByteQueue) (minimum : Nat) (h1 : 1 ≠ q.rightMargin)
    (h2 : q.tail + 4 ≤ q.head) (h3 : q.head ≤ newCapacity q minimum)
    (h4 : q.head ≤ 4294967296) :
    q.allocate minimum =
      { q with capacity := newCapacity q minimum
               array := writeAt (grown q minimum) q.tail (putUint32 (q.head - q.tail - 4)
                 ++ List.replicate (q.head - q.tail - 4) 0)
               head := 1
               tail := q.rightMargin
               count := q.count + 1 } := by
  rw [allocate_def, if_pos h1, if_pos (by omega)]
  have hpe := push_eq
    ({ q with capacity := newCapacity q minimum, array := grown q minimum } : ByteQueue)
    (List.replicate (q.head - q.tail - headerEntrySize) 0)
    (by dsimp only; rw [grown_length, List.length_replicate]; simp only [headerEntrySize]; omega)
    (by rw [List.length_replicate]; simp only [headerEntrySize]; omega)
  rw [List.length_replicate] at hpe
  rw [hpe]
  dsimp only
  rw [if_neg (by simp only [headerEntrySize]; omega)]

theorem allocate_linear_eq (q : ByteQueue) (minimum : Nat) (h1 : 1 ≠ q.rightMargin)
    (h2 : ¬ q.tail < q.head) :
    q.allocate minimum = { q with capacity := newCapacity q minimum, array := grown q minimum } := by
  rw [allocate_def, if_pos h1, if_neg h2]

theorem allocate_empty_eq (q : ByteQueue) (minimum : Nat) (h1 : 1 = q.rightMargin) :
    q.allocate minimum = { q with capacity := newCapacity q minimum
                                  array := List.replicate (newCapacity q minimum) 0 } := by
  rw [allocate_def, if_neg (by simp only [leftMarginIndex]; omega)]

/-- Growing a linear queue keeps it linear, with the same entries and cursors. -/
theorem allocate_linear {q : ByteQueue} {es : List (Nat × List Byte)} (minimum : Nat)
    (hq : QLin q es) (hge : q.capacity ≤ newCapacity q minimum)
    (hle : newCapacity q minimum ≤ 4294967296) :
    QLin (q.allocate minimum) es ∧ (q.allocate minimum).tail = q.tail
      ∧ (q.allocate minimum).head = q.head
      ∧ (q.allocate minimum).capacity = newCapacity q minimum
      ∧ (q.allocate minimum).maxCapacity = q.maxCapacity := by
  obtain ⟨h1, h2, h3, h4, h5, h6, h7, h8, h9⟩ := hq
  by_cases c1 : 1 ≠ q.rightMargin
  · rw [allocate_linear_eq q minimum c1 (by omega)]
    have ht : q.tail ≤ q.capacity := by
      rcases h7 with h7 | h7
      · exact h7
      · omega
    refine ⟨⟨?_, hle, h3, h4, h5, h6, ?_, h8, ?_⟩, rfl, rfl, rfl, rfl⟩
    · exact grown_length _ _
    · left; show q.tail ≤ newCapacity q minimum; omega
    · show Seg (grown q minimum) q.head q.tail es
      apply Seg_congr h9
      intro i hi1 hi2
      exact grown_agree _ _ (by omega) (by omega) i (by omega)
  · have c3 : q.rightMargin = 1 := by omega
    rw [allocate_empty_eq q minimum c3.symm]
    have c4 : q.head = q.tail := by omega
    have c5 : es = [] := by rw [c4] at h9; exact Seg_eq_nil h9
    subst c5
    refine ⟨⟨?_, hle, h3, h4, h5, h6, ?_, h8, h9⟩, rfl, rfl, rfl, rfl⟩
    · show (List.replicate _ _).length = _
      rw [List.length_replicate]
    · right; show q.tail = 1; omega

/-- Growing a wrapped queue makes it linear: the newer entries, then a zero filler over the
gap, then the older entries. -/
theorem allocate_wrapped {q : ByteQueue} {es1 es2 : List (Nat × List Byte)} (minimum : Nat)
    (hq : QWrap q es1 es2) (hge : q.capacity ≤ newCapacity q minimum)
    (hle : newCapacity q minimum ≤ 4294967296) :
    QLin (q.allocate minimum)
        (es2 ++ (q.tail, List.replicate (q.head - q.tail - 4) 0) :: es1)
      ∧ (q.allocate minimum).tail = q.rightMargin
      ∧ q.rightMargin ≤ q.capacity
      ∧ (q.allocate minimum).capacity = newCapacity q minimum
      ∧ (q.allocate minimum).maxCapacity = q.maxCapacity := by
  obtain ⟨h1, h2, h3, h4, h5, h6, h7, h8, h9⟩ := hq
  simp only [minimumEmptyBlobSize, headerEntrySize] at h5
  rw [allocate_wrapped_eq q minimum (by omega) (by omega) (by omega) (by omega)]
  have hsum : q.tail + 4 + (q.head - q.tail - 4) = q.head := by omega
  have hlen : (putUint32 (q.head - q.tail - 4)
      ++ List.replicate (q.head - q.tail - 4) (0 : Byte)).length = 4 + (q.head - q.tail - 4) := by
    rw [List.length_append, putUint32_length, List.length_replicate]
  refine ⟨⟨?_, hle, ?_, Nat.le_refl _, ?_, rfl, ?_, ?_, ?_⟩, rfl, h7, rfl, rfl⟩
  · show (writeAt _ _ _).length = _
    rw [writeAt_length _ _ _ (by rw [grown_length, hlen]; omega), grown_length]
  · show q.count + 1 = _
    rw [h3]; simp; omega
  · show 1 ≤ q.rightMargin
    omega
  · left; show q.rightMargin ≤ newCapacity q minimum; omega
  · intro hc
    have : 1 = q.rightMargin := hc
    omega
  · show Seg (writeAt (grown q minimum) q.tail (putUint32 (q.head - q.tail - 4)
          ++ List.replicate (q.head - q.tail - 4) 0)) 1 q.rightMargin
        (es2 ++ (q.tail, List.replicate (q.head - q.tail - 4) 0) :: es1)
    have hg : Seg (grown q minimum) 1 q.tail es2 := by
      apply Seg_congr h9
      intro i hi1 hi2
      exact grown_agree _ _ (by omega) (by omega) i (by omega)
    have hg1 : Seg (grown q minimum) q.head q.rightMargin es1 := by
      apply Seg_congr h8
      intro i hi1 hi2
      exact grown_agree _ _ (by omega) (by omega) i (by omega)
    apply @Seg_append _ _ _ _ q.tail _
    · exact Seg_writeAt_disjoint hg _ _ (by rw [grown_length, hlen]; omega)
        (Or.inl (Nat.le_refl _))
    · have hnew := Seg_writeAt_new (grown q minimum) q.tail
        (List.replicate (q.head - q.tail - 4) 0)
        (by rw [List.length_replicate]; omega)
        (by rw [grown_length, List.length_replicate]; omega)
      rw [List.length_replicate, hsum] at hnew
      have hrest := Seg_writeAt_disjoint hg1 q.tail (putUint32 (q.head - q.tail - 4)
        ++ List.replicate (q.head - q.tail - 4) (0 : Byte)) (by rw [grown_length, hlen]; omega)
        (Or.inr (by rw [hlen]; omega))
      exact Seg_append hnew hrest

/-! ### The invariant of the queue: `Push` -/

theorem push_capacity (q : ByteQueue) (data : List Byte) (n : Nat) :
    (q.push data n).capacity = q.capacity ∧ (q.push data n).maxCapacity = q.maxCapacity := by
  unfold ByteQueue.push ByteQueue.copy
  dsimp only
  split <;> exact ⟨rfl, rfl⟩

theorem allocate_capacity (q : ByteQueue) (minimum : Nat) :
    (q.allocate minimum).capacity = newCapacity q minimum
      ∧ (q.allocate minimum).maxCapacity = q.maxCapacity := by
  rw [allocate_def]
  split
  · split
    · exact ⟨(push_capacity _ _ _).1, (push_capacity _ _ _).2⟩
    · exact ⟨rfl, rfl⟩
  · exact ⟨rfl, rfl⟩

theorem newCapacity_gt (q : ByteQueue) (minimum : Nat)
    (h : ¬ (q.capacity + minimum ≥ q.maxCapacity ∧ q.maxCapacity > 0)) (hm : 0 < minimum) :
    q.capacity = 0 → minimum + 1 ≤ newCapacity q minimum := by
  unfold newCapacity
  split <;> split <;> omega

theorem QInv_capacity {q : ByteQueue} {es : List (Nat × List Byte)} (h : QInv q es) :
    q.array.length = q.capacity ∧ q.capacity ≤ 4294967296 ∧ q.count = es.length := by
  rcases h with h | ⟨es1, es2, rfl, h⟩
  · exact ⟨h.1, h.2.1, h.2.2.1⟩
  · exact ⟨h.1, h.2.1, by rw [h.2.2.1, List.length_append]⟩

/-- A failed `Push` leaves the queue as it was; it fails only with `errFullQueue`, on a queue
with a cap. -/
theorem Push_error {q q' : ByteQueue} {data : List Byte} {e : Err}
    (h : q.Push data = (q', .error e)) :
    q' = q ∧ e = .errFullQueue ∧ 0 < q.maxCapacity := by
  unfold ByteQueue.Push at h
  dsimp only at h
  split at h
  · split at h
    · cases h
    · split at h
      · rename_i hfull
        cases h
        exact ⟨rfl, rfl, hfull.2⟩
      · cases h
  · cases h

/-- A successful `Push` keeps the invariant: the new entry is stored at the returned index. -/
theorem Push_ok {q q' : ByteQueue} {es : List (Nat × List Byte)} {data : List Byte} {idx : Nat}
    (hq : QInv q es) (h : q.Push data = (q', .ok idx)) (hcap : q'.capacity ≤ 4294967296) :
    ∃ es', QInv q' es' ∧ Pushed es es' idx data ∧ q'.maxCapacity = q.maxCapacity
      ∧ q.capacity ≤ q'.capacity := by
  unfold ByteQueue.Push at h
  dsimp only at h
  split at h
  · rename_i hafter
    simp only [ByteQueue.availableSpaceAfterTail, minimumEmptyBlobSize, headerEntrySize] at hafter
    split at h
    · -- the tail wraps to the left margin
      rename_i hbefore
      simp only [ByteQueue.availableSpaceBeforeHead, minimumEmptyBlobSize, headerEntrySize,
        leftMarginIndex] at hbefore
      injection h with h1 h2
      injection h2 with h2
      subst h1; subst h2
      rcases hq with hq | ⟨es1, es2, rfl, hq⟩
      · have hh : q.tail ≥ q.head := hq.2.2.2.2.1
        rw [if_pos hh] at hafter hbefore
        have := push_wrap data hq
          (by simp only [minimumEmptyBlobSize, headerEntrySize, leftMarginIndex]; omega)
        have hpc := push_capacity ({ q with tail := 1 } : ByteQueue) data data.length
        exact ⟨es ++ [(1, data)], Or.inr ⟨es, [(1, data)], rfl, this⟩, Or.inl rfl,
          hpc.2, Nat.le_of_eq hpc.1.symm⟩
      · have hh : ¬ q.tail ≥ q.head := by
          have := hq.2.2.2.2.1
          simp only [minimumEmptyBlobSize, headerEntrySize] at this
          omega
        rw [if_neg hh] at hafter hbefore
        omega
    · split at h
      · cases h
      · -- the array grows
        rename_i hbefore hfull
        simp only [headerEntrySize] at hfull h
        injection h with h1 h2
        injection h2 with h2
        subst h1
        have hc0 := (push_capacity (q.allocate (data.length + 4)) data data.length).2
        have hc1 := (push_capacity (q.allocate (data.length + 4)) data data.length).1
        have hc2 := allocate_capacity q (data.length + 4)
        have hge := newCapacity_ge q (data.length + 4) hfull
        rw [hc1, hc2.1] at hcap
        rcases hq with hq | ⟨es1, es2, rfl, hq⟩
        · obtain ⟨a1, a2, a3, a4, a5⟩ := allocate_linear (data.length + 4) hq (by omega) hcap
          have hfit : (q.allocate (data.length + 4)).tail + 4 + data.length
              ≤ (q.allocate (data.length + 4)).capacity := by
            rw [a2, a4]
            have := hq.2.2.2.2.2.2.1
            have := hq.2.2.2.1
            have := hq.2.2.2.2.1
            have hgt := newCapacity_gt q (data.length + 4) hfull (by omega)
            rcases hq.2.2.2.2.2.2.1 with h7 | h7
            · omega
            · omega
          have := push_linear data a1 hfit
          rw [h2] at this
          exact ⟨_, Or.inl this, Or.inl rfl, by rw [hc0, a5],
            by rw [hc1, hc2.1]; omega⟩
        · obtain ⟨a1, a2, a3, a4, a5⟩ := allocate_wrapped (data.length + 4) hq (by omega) hcap
          have hfit : (q.allocate (data.length + 4)).tail + 4 + data.length
              ≤ (q.allocate (data.length + 4)).capacity := by
            rw [a2, a4]; omega
          have := push_linear data a1 hfit
          rw [h2] at this
          have hgap := hq.2.2.2.2.1
          simp only [minimumEmptyBlobSize, headerEntrySize] at hgap
          have hne1 : es1 ≠ [] := by
            intro hn; rw [hn] at hq
            have h8 : q.head = q.rightMargin := hq.2.2.2.2.2.2.2.1
            have := hq.2.2.2.2.2.1
            omega
          have hne2 : es2 ≠ [] := by
            intro hn; rw [hn] at hq
            have h9 : leftMarginIndex = q.tail := hq.2.2.2.2.2.2.2.2
            have := hq.2.2.2.1
            simp only [leftMarginIndex] at h9
            omega
          refine ⟨_, Or.inl this, Or.inr ⟨es1, es2, q.tail, q.head - q.tail - 4, rfl, hne1, hne2,
            by omega, ?_⟩, by rw [hc0, a5], by rw [hc1, hc2.1]; omega⟩
          rw [List.append_assoc]
  · -- the entry fits after the tail
    rename_i hafter
    simp only [ByteQueue.availableSpaceAfterTail, minimumEmptyBlobSize, headerEntrySize] at hafter
    injection h with h1 h2
    injection h2 with h2
    subst h1; subst h2
    rcases hq with hq | ⟨es1, es2, rfl, hq⟩
    · have hh : q.tail ≥ q.head := hq.2.2.2.2.1
      rw [if_pos hh] at hafter
      have := push_linear data hq (by omega)
      have hpc := push_capacity q data data.length
      exact ⟨_, Or.inl this, Or.inl rfl, hpc.2, Nat.le_of_eq hpc.1.symm⟩
    · have hgap := hq.2.2.2.2.1
      simp only [minimumEmptyBlobSize, headerEntrySize] at hgap
      have hh : ¬ q.tail ≥ q.head := by omega
      rw [if_neg hh] at hafter
      have := push_wrapped data hq
        (by simp only [minimumEmptyBlobSize, headerEntrySize]; omega)
      have hpc := push_capacity q data data.length
      refine ⟨_, Or.inr ⟨es1, es2 ++ [(q.tail, data)], ?_, this⟩, Or.inl rfl,
        hpc.2, Nat.le_of_eq hpc.1.symm⟩
      rw [List.append_assoc]

/-! ### The invariant of the queue: `Get` and `Pop` -/

theorem QInv_mem {q : ByteQueue} {es : List (Nat × List Byte)} (hq : QInv q es)
    {e : Nat × List Byte} (he : e ∈ es) :
    1 ≤ e.1 ∧ e.1 + 4 + e.2.length ≤ q.array.length ∧ e.2.length < 4294967296 ∧
      slice q.array e.1 (4 + e.2.length) = putUint32 e.2.length ++ e.2 := by
  rcases hq with hq | ⟨es1, es2, rfl, hq⟩
  · obtain ⟨h1, h2, h3, h4, h5, h6, h7, h8, h9⟩ := hq
    obtain ⟨a, b, c, d⟩ := Seg_mem h9 he
    have := Seg_bound h9 (List.ne_nil_of_mem he)
    exact ⟨by omega, by omega, c, d⟩
  · obtain ⟨h1, h2, h3, h4, h5, h6, h7, h8, h9⟩ := hq
    rcases List.mem_append.1 he with he | he
    · obtain ⟨a, b, c, d⟩ := Seg_mem h8 he
      have := Seg_bound h8 (List.ne_nil_of_mem he)
      simp only [minimumEmptyBlobSize, headerEntrySize] at h5
      exact ⟨by omega, by omega, c, d⟩
    · obtain ⟨a, b, c, d⟩ := Seg_mem h9 he
      have := Seg_bound h9 (List.ne_nil_of_mem he)
      simp only [leftMarginIndex] at a
      exact ⟨a, by omega, c, d⟩

theorem QInv_unique {q : ByteQueue} {es : List (Nat × List Byte)} (hq : QInv q es)
    {i : Nat} {d1 d2 : List Byte} (h1 : (i, d1) ∈ es) (h2 : (i, d2) ∈ es) : d1 = d2 := by
  obtain ⟨_, _, l1, s1⟩ := QInv_mem hq h1
  obtain ⟨_, _, l2, s2⟩ := QInv_mem hq h2
  obtain ⟨a1, b1⟩ := read_entry l1 s1
  obtain ⟨a2, b2⟩ := read_entry l2 s2
  simp only at a1 a2 b1 b2
  have : d1.length = d2.length := by rw [← a1, ← a2]
  rw [← b1, ← b2, this]

theorem getWithLength_ok {q : ByteQueue} {i : Nat} {r : List Byte × Nat}
    (h : q.getWithLength i = .ok r) : q.count ≠ 0 ∧ 1 ≤ i ∧ i + 4 < q.array.length := by
  unfold ByteQueue.getWithLength ByteQueue.peekCheckErr at h
  simp only [headerEntrySize] at h
  split at h
  · cases h
  · rename_i hp
    split at hp
    · cases hp
    · split at hp
      · cases hp
      · split at hp
        · cases hp
        · exact ⟨by assumption, by omega, by omega⟩

theorem getWithLength_eq {q : ByteQueue} {es : List (Nat × List Byte)} (hq : QInv q es)
    {i : Nat} {d : List Byte} (he : (i, d) ∈ es) (hb : i + 4 < q.array.length) :
    q.getWithLength i = .ok (d, d.length) := by
  obtain ⟨a, b, c, e⟩ := QInv_mem hq he
  obtain ⟨r1, r2⟩ := read_entry c e
  have hc : q.count ≠ 0 := by
    rw [(QInv_capacity hq).2.2]
    intro h0
    rw [List.length_eq_zero] at h0
    rw [h0] at he
    cases he
  simp only at a r1 r2
  unfold ByteQueue.getWithLength ByteQueue.peekCheckErr
  simp only [headerEntrySize]
  rw [if_neg hc, if_neg (by omega), if_neg (by omega)]
  simp only [r1, r2]

/-- `Get` returns the payload of every stored entry that is not an empty payload flush with
the end of the array. -/
theorem Get_eq {q : ByteQueue} {es : List (Nat × List Byte)} (hq : QInv q es)
    {i : Nat} {d : List Byte} (he : (i, d) ∈ es) (hb : i + 4 < q.array.length) :
    q.Get i = .ok d := by
  unfold ByteQueue.Get
  rw [getWithLength_eq hq he hb]

theorem Get_eq_of_ne_nil {q : ByteQueue} {es : List (Nat × List Byte)} (hq : QInv q es)
    {i : Nat} {d : List Byte} (he : (i, d) ∈ es) (hd : d ≠ []) : q.Get i = .ok d := by
  apply Get_eq hq he
  obtain ⟨a, b, c, e⟩ := QInv_mem hq he
  have : 0 < d.length := List.length_pos.2 hd
  simp only at b
  omega

theorem CheckGet_of_ne_nil {q : ByteQueue} {es : List (Nat × List Byte)} (hq : QInv q es)
    {i : Nat} {d : List Byte} (he : (i, d) ∈ es) (hd : d ≠ []) : q.CheckGet i = none := by
  obtain ⟨a, b, c, e⟩ := QInv_mem hq he
  have : 0 < d.length := List.length_pos.2 hd
  have hc : q.count ≠ 0 := by
    rw [(QInv_capacity hq).2.2]
    intro h0
    rw [List.length_eq_zero] at h0
    rw [h0] at he
    cases he
  simp only at a b
  unfold ByteQueue.CheckGet ByteQueue.peekCheckErr
  simp only [headerEntrySize]
  rw [if_neg hc, if_neg (by omega), if_neg (by omega)]

/-- A failed `Pop` leaves the queue as it was. -/
theorem Pop_error {q q' : ByteQueue} {e : Err} (h : q.Pop = (q', .error e)) : q' = q := by
  unfold ByteQueue.Pop at h
  split at h
  · cases h; rfl
  · cases h

/-- The first entry of a queue that holds one lies at `head`. -/
theorem QInv_head {q : ByteQueue} {es : List (Nat × List Byte)} (hq : QInv q es)
    (hc : q.count ≠ 0) : ∃ d es', es = (q.head, d) :: es' := by
  rcases hq with hq | ⟨es1, es2, rfl, hq⟩
  · obtain ⟨h1, h2, h3, h4, h5, h6, h7, h8, h9⟩ := hq
    cases es with
    | nil => exact absurd h3 hc
    | cons e es' =>
      refine ⟨e.2, es', ?_⟩
      have : e.1 = q.head := h9.1
      rw [← this]
  · obtain ⟨h1, h2, h3, h4, h5, h6, h7, h8, h9⟩ := hq
    cases es1 with
    | nil =>
      have : q.head = q.rightMargin := h8
      omega
    | cons e es' =>
      refine ⟨e.2, es' ++ es2, ?_⟩
      have : e.1 = q.head := h8.1
      rw [← this]; rfl

/-- A successful `Pop` returns the first entry and keeps the invariant for the others. -/
theorem Pop_ok {q q' : ByteQueue} {es : List (Nat × List Byte)} {d : List Byte}
    (hq : QInv q es) (h : q.Pop = (q', .ok d)) :
    ∃ es', es = (q.head, d) :: es' ∧ QInv q' es' ∧ q'.capacity = q.capacity
      ∧ q'.maxCapacity = q.maxCapacity := by
  unfold ByteQueue.Pop at h
  split at h
  · cases h
  · rename_i data size hg
    obtain ⟨g1, g2, g3⟩ := getWithLength_ok hg
    obtain ⟨d0, es', rfl⟩ := QInv_head hq g1
    rw [getWithLength_eq hq (List.mem_cons_self _ _) g3] at hg
    injection hg with hg
    injection hg with hd hs
    subst hd; subst hs
    injection h with h1 h2
    injection h2 with h2
    subst h2
    refine ⟨es', rfl, ?_, ?_⟩
    · rcases hq with hq | ⟨es1, es2, he, hq⟩
      · obtain ⟨h1', h2', h3, h4, h5, h6, h7, h8, h9⟩ := hq
        have hlt := Seg_lt h9
        obtain ⟨_, _, _, hrest⟩ := h9
        simp only [headerEntrySize] at hrest h1
        simp only at hlt hrest
        by_cases c : q.head + 4 + d0.length = q.rightMargin
        · rw [if_pos c] at h1
          simp only [h6, if_true] at h1
          rw [h6] at c
          rw [c] at hrest
          have hnil := Seg_eq_nil hrest
          subst hnil
          subst h1
          left
          exact ⟨h1', h2', by simp only; rw [h3]; rfl, Nat.le_refl _, Nat.le_refl _, rfl,
            Or.inr rfl, fun _ => rfl, rfl⟩
        · rw [if_neg c] at h1
          subst h1
          left
          refine ⟨h1', h2', by simp only; rw [h3]; rfl, by simp only; omega,
            by simp only; omega, h6, ?_, ?_, hrest⟩
          · left
            have := Seg_bound hrest (by
              intro hn; rw [hn] at hrest
              have : q.head + 4 + d0.length = q.tail := hrest
              omega)
            show q.tail ≤ q.capacity
            omega
          · intro hc
            have : q.head + 4 + d0.length = q.tail := hc
            omega
      · obtain ⟨h1', h2', h3, h4, h5, h6, h7, h8, h9⟩ := hq
        simp only [minimumEmptyBlobSize, headerEntrySize, leftMarginIndex] at h5 h9
        cases es1 with
        | nil =>
          have : q.head = q.rightMargin := h8
          omega
        | cons e0 es1' =>
          injection he with he1 he2
          subst he1
          have hlt := Seg_lt h8
          obtain ⟨_, _, _, hrest⟩ := h8
          simp only [headerEntrySize] at hrest h1
          simp only at hlt hrest
          by_cases c : q.head + 4 + d0.length = q.rightMargin
          · rw [if_pos c] at h1
            have hne : ¬ (q.tail = q.rightMargin) := by omega
            simp only [hne, if_false] at h1
            rw [c] at hrest
            have hnil := Seg_eq_nil hrest
            subst hnil
            subst h1
            left
            refine ⟨h1', h2', ?_, Nat.le_refl _, Nat.le_of_lt h4, rfl, Or.inl (by simp only; omega),
              fun hc => rfl, ?_⟩
            · simp only; rw [h3, he2]; simp
            · rw [he2]; exact h9
          · rw [if_neg c] at h1
            subst h1
            right
            refine ⟨es1', es2, he2, h1', h2', ?_, h4, ?_, ?_, h7, hrest, h9⟩
            · simp only; rw [h3]; simp
            · simp only [minimumEmptyBlobSize, headerEntrySize]; omega
            · simp only; omega
    · simp only [headerEntrySize] at h1
      split at h1
      · split at h1 <;> (subst h1; exact ⟨rfl, rfl⟩)
      · subst h1; exact ⟨rfl, rfl⟩

/-- `Pop` succeeds on a queue whose first entry is not an empty payload flush with the end of
the array. -/
theorem Pop_succeeds {q : ByteQueue} {e : Nat × List Byte} {es : List (Nat × List Byte)}
    (hq : QInv q (e :: es)) (hd : e.2 ≠ []) : ∃ q', q.Pop = (q', .ok e.2) := by
  have hc : q.count ≠ 0 := by rw [(QInv_capacity hq).2.2]; simp
  obtain ⟨d, es', he⟩ := QInv_head hq hc
  injection he with he1 he2
  subst he1
  obtain ⟨a, b, c, f⟩ := QInv_mem hq (List.mem_cons_self _ _)
  have : 0 < d.length := List.length_pos.2 hd
  simp only at b
  have := getWithLength_eq hq (List.mem_cons_self _ _) (show q.head + 4 < q.array.length by omega)
  unfold ByteQueue.Pop
  rw [this]
  exact ⟨_, rfl⟩

/-! ### The record codec -/

theorem wrapEntry_fst (ts : Int) (h c : Nat) (entry buf : List Byte) :
    (wrapEntry ts h c entry buf).1 =
      putUint64 (uint64OfInt ts) ++ (putUint64 (h % 18446744073709551616) ++
        (putUint32 (c % 4294967296) ++ entry)) := by
  unfold wrapEntry
  simp only [headersSizeInBytes, timestampSizeInBytes, hashSizeInBytes, crc32SizeInBytes]
  generalize hb : (if entry.length + (8 + 8 + 4) > buf.length then
    List.replicate (entry.length + (8 + 8 + 4)) (0 : Byte) else buf) = blob0
  have hA := putUint64_length (uint64OfInt ts)
  have hB := putUint64_length (h % 18446744073709551616)
  have hC := putUint32_length (c % 4294967296)
  generalize putUint64 (uint64OfInt ts) = A at *
  generalize putUint64 (h % 18446744073709551616) = B at *
  generalize putUint32 (c % 4294967296) = C at *
  have hl : entry.length + 20 ≤ blob0.length := by
    rw [← hb]
    split
    · rw [List.length_replicate]
    · omega
  have e1 : (copyAt blob0 0 A).1 = writeAt blob0 0 A :=
    copyAt_fst _ _ _ (by omega)
  have l1 : (writeAt blob0 0 A).length = blob0.length :=
    writeAt_length _ _ _ (by omega)
  have e2 : (copyAt (writeAt blob0 0 A) 8 B).1 = writeAt blob0 0 (A ++ B) := by
    rw [copyAt_fst _ _ _ (by omega)]
    have w1 := writeAt_writeAt_append blob0 0 A B (by omega)
    rw [hA] at w1
    exact w1
  have l2 : (A ++ B).length = 16 := by rw [List.length_append]; omega
  have l2' : (writeAt blob0 0 (A ++ B)).length = blob0.length :=
    writeAt_length _ _ _ (by omega)
  have e3 : (copyAt (writeAt blob0 0 (A ++ B)) (8 + 8) C).1 = writeAt blob0 0 (A ++ B ++ C) := by
    rw [copyAt_fst _ _ _ (by omega)]
    have w2 := writeAt_writeAt_append blob0 0 (A ++ B) C (by omega)
    rw [l2] at w2
    exact w2
  have l3 : (A ++ B ++ C).length = 20 := by rw [List.length_append]; omega
  have l3' : (writeAt blob0 0 (A ++ B ++ C)).length = blob0.length :=
    writeAt_length _ _ _ (by omega)
  have e4 : (copyAt (writeAt blob0 0 (A ++ B ++ C)) (8 + 8 + 4) entry).1
      = writeAt blob0 0 (A ++ B ++ C ++ entry) := by
    rw [copyAt_fst _ _ _ (by omega)]
    have w3 := writeAt_writeAt_append blob0 0 (A ++ B ++ C) entry (by omega)
    rw [l3] at w3
    exact w3
  rw [e1, e2, e3, e4]
  have l4 : (A ++ B ++ C ++ entry).length = entry.length + (8 + 8 + 4) := by
    rw [List.length_append, l3]; omega
  unfold writeAt
  rw [List.take_zero, List.nil_append, ← l4, List.take_append_of_le_length (Nat.le_refl _),
    List.take_of_length_le (Nat.le_refl _)]
  simp only [List.append_assoc]

theorem wrapEntry_length (ts : Int) (h c : Nat) (entry buf : List Byte) :
    (wrapEntry ts h c entry buf).1.length = entry.length + 20 := by
  rw [wrapEntry_fst]
  simp only [List.length_append, putUint64_length, putUint32_length]
  omega

theorem readEntry_wrapEntry (ts : Int) (h c : Nat) (entry buf : List Byte) :
    readEntry (wrapEntry ts h c entry buf).1 = entry := by
  rw [wrapEntry_fst]
  unfold readEntry
  simp only [headersSizeInBytes, timestampSizeInBytes, hashSizeInBytes, crc32SizeInBytes]
  rw [← List.append_assoc, ← List.append_assoc]
  rw [List.drop_append_of_le_length (by
    simp only [List.length_append, putUint64_length, putUint32_length]; omega)]
  rw [List.drop_of_length_le (by
    simp only [List.length_append, putUint64_length, putUint32_length]; omega)]
  rfl

theorem readCRC32_wrapEntry (ts : Int) (h c : Nat) (entry buf : List Byte) :
    readCRC32FromEntry (wrapEntry ts h c entry buf).1 = c % 4294967296 := by
  rw [wrapEntry_fst]
  unfold readCRC32FromEntry
  simp only [timestampSizeInBytes, hashSizeInBytes]
  rw [← List.append_assoc]
  rw [List.drop_append_of_le_length (by
    simp only [List.length_append, putUint64_length]; omega)]
  rw [List.drop_of_length_le (by
    simp only [List.length_append, putUint64_length]; omega)]
  rw [List.nil_append, getUint32_putUint32_append]
  exact Nat.mod_mod _ _

theorem readHash_wrapEntry (ts : Int) (h c : Nat) (entry buf : List Byte) :
    readHashFromEntry (wrapEntry ts h c entry buf).1 = h % 18446744073709551616 := by
  rw [wrapEntry_fst]
  unfold readHashFromEntry
  simp only [timestampSizeInBytes]
  rw [List.drop_append_of_le_length (by rw [putUint64_length])]
  rw [List.drop_of_length_le (by rw [putUint64_length])]
  rw [List.nil_append, getUint64_putUint64_append]
  exact Nat.mod_mod _ _

theorem uint64OfInt_lt (x : Int) : uint64OfInt x < 18446744073709551616 := by
  unfold uint64OfInt
  omega

theorem readTimestamp_wrapEntry (ts : Int) (h c : Nat) (entry buf : List Byte)
    (h1 : -9223372036854775808 ≤ ts) (h2 : ts < 9223372036854775808) :
    readTimestampFromEntry (wrapEntry ts h c entry buf).1 = ts := by
  rw [wrapEntry_fst]
  unfold readTimestampFromEntry
  rw [getUint64_putUint64_append, Nat.mod_eq_of_lt (uint64OfInt_lt ts)]
  exact int64OfNat_uint64OfInt ts h1 h2

theorem ChecksumIEEE_lt (key : List Byte) : ChecksumIEEE key < 4294967296 := by
  unfold ChecksumIEEE
  exact Nat.mod_lt _ (by decide)

theorem resetKeyFromEntry_eq (d : List Byte) (h : 16 ≤ d.length) :
    resetKeyFromEntry d = d.take 8 ++ (putUint64 0 ++ d.drop 16) := by
  unfold resetKeyFromEntry
  simp only [timestampSizeInBytes]
  rw [copyAt_fst _ _ _ (by rw [putUint64_length]; omega)]
  unfold writeAt
  rw [putUint64_length, List.append_assoc]

theorem resetKeyFromEntry_length (d : List Byte) : (resetKeyFromEntry d).length = d.length := by
  unfold resetKeyFromEntry
  exact copyAt_length _ _ _

theorem readEntry_resetKey (d : List Byte) (h : 16 ≤ d.length) :
    readEntry (resetKeyFromEntry d) = readEntry d := by
  rw [resetKeyFromEntry_eq d h]
  unfold readEntry
  simp only [headersSizeInBytes, timestampSizeInBytes, hashSizeInBytes, crc32SizeInBytes]
  have l8 : (d.take 8).length = 8 := by rw [List.length_take]; omega
  rw [← List.append_assoc, List.drop_append_eq_append_drop]
  rw [List.drop_of_length_le (by rw [List.length_append, l8, putUint64_length]; omega)]
  rw [List.length_append, l8, putUint64_length, List.drop_drop, List.nil_append]

theorem readCRC32_resetKey (d : List Byte) (h : 16 ≤ d.length) :
    readCRC32FromEntry (resetKeyFromEntry d) = readCRC32FromEntry d := by
  rw [resetKeyFromEntry_eq d h]
  unfold readCRC32FromEntry
  simp only [timestampSizeInBytes, hashSizeInBytes]
  have l8 : (d.take 8).length = 8 := by rw [List.length_take]; omega
  rw [← List.append_assoc]
  rw [List.drop_append_of_le_length (by rw [List.length_append, l8, putUint64_length])]
  rw [List.drop_of_length_le (by rw [List.length_append, l8, putUint64_length])]
  rfl

theorem readTimestamp_resetKey (d : List Byte) (h : 16 ≤ d.length) :
    readTimestampFromEntry (resetKeyFromEntry d) = readTimestampFromEntry d := by
  rw [resetKeyFromEntry_eq d h]
  unfold readTimestampFromEntry getUint64
  have l8 : (d.take 8).length = 8 := by rw [List.length_take]; omega
  rw [List.take_append_of_le_length (by omega), List.take_take]
  rfl

theorem readHash_resetKey (d : List Byte) (h : 16 ≤ d.length) :
    readHashFromEntry (resetKeyFromEntry d) = 0 := by
  rw [resetKeyFromEntry_eq d h]
  unfold readHashFromEntry
  simp only [timestampSizeInBytes]
  have l8 : (d.take 8).length = 8 := by rw [List.length_take]; omega
  rw [List.drop_append_of_le_length (by omega), List.drop_of_length_le (by omega),
    List.nil_append, getUint64_putUint64_append]

/-! ### Tombstones and the index -/

theorem slice_add (a : List Byte) (lo n m : Nat) :
    slice a lo (n + m) = slice a lo n ++ slice a (lo + n) m := by
  unfold slice
  rw [List.take_add, List.drop_drop]

theorem Seg_map_tomb_id {arr : List Byte} {es : List (Nat × List Byte)} {s t : Nat}
    (h : Seg arr s t es) (i : Nat) (hi : i < s ∨ t ≤ i) : es.map (tomb i) = es := by
  induction es generalizing s with
  | nil => rfl
  | cons e es ih =>
    have hlt := Seg_lt h
    obtain ⟨h1, h2, h3, h4⟩ := h
    rw [List.map_cons, ih h4 (by simp only [headerEntrySize]; omega)]
    have : tomb i e = e := by
      unfold tomb
      rw [if_neg (by omega)]
    rw [this]

theorem Seg_tomb {arr : List Byte} {es : List (Nat × List Byte)} {s t : Nat}
    (h : Seg arr s t es) {i : Nat} {d : List Byte} (he : (i, d) ∈ es) :
    Seg (writeAt arr (i + 4) (resetKeyFromEntry d)) s t (es.map (tomb i)) := by
  induction es generalizing s with
  | nil => cases he
  | cons e es ih =>
    have hb := Seg_bound h (by simp)
    have hlt := Seg_lt h
    obtain ⟨h1, h2, h3, h4⟩ := h
    simp only [headerEntrySize] at h3 h4
    rcases List.mem_cons.1 he with he | he
    · subst he
      simp only at h1 h2 h3 h4 hlt
      subst h1
      have hfit : i + 4 + (resetKeyFromEntry d).length ≤ arr.length := by
        rw [resetKeyFromEntry_length]; omega
      rw [List.map_cons, Seg_map_tomb_id h4 i (Or.inl (by omega))]
      have ht : tomb i (i, d) = (i, resetKeyFromEntry d) := by
        unfold tomb; rw [if_pos rfl]
      rw [ht]
      refine ⟨rfl, by simp only; rw [resetKeyFromEntry_length]; exact h2, ?_, ?_⟩
      · simp only [headerEntrySize, resetKeyFromEntry_length]
        rw [slice_add]
        have hs := slice_writeAt_same arr (i + 4) (resetKeyFromEntry d) hfit
        rw [resetKeyFromEntry_length] at hs
        rw [hs]
        congr 1
        obtain ⟨a, _⟩ := slice_append_split arr i 4 d.length _ _ h3 (putUint32_length _)
        rw [← a]
        apply slice_congr
        intro j hj1 hj2
        rw [getElem?_writeAt _ _ _ _ hfit, if_neg (by omega)]
      · simp only [headerEntrySize, resetKeyFromEntry_length]
        exact Seg_writeAt_disjoint h4 _ _ hfit (Or.inr (by rw [resetKeyFromEntry_length]))
    · obtain ⟨m1, m2, m3, m4⟩ := Seg_mem h4 he
      simp only at m1 m2 m3 m4
      have hfit : i + 4 + (resetKeyFromEntry d).length ≤ arr.length := by
        rw [resetKeyFromEntry_length]; omega
      rw [List.map_cons]
      have ht : tomb i e = e := by
        unfold tomb; rw [if_neg (by omega)]
      rw [ht]
      refine ⟨h1, h2, ?_, ih h4 he⟩
      rw [← h3]
      simp only [headerEntrySize]
      apply slice_congr
      intro j hj1 hj2
      rw [getElem?_writeAt _ _ _ _ hfit, if_neg (by omega)]

theorem length_map_tomb (i : Nat) (es : List (Nat × List Byte)) :
    (es.map (tomb i)).length = es.length := List.length_map _ _

theorem tomb_length (i : Nat) (e : Nat × List Byte) : (tomb i e).2.length = e.2.length := by
  unfold tomb
  split
  · exact resetKeyFromEntry_length _
  · rfl

theorem tomb_fst (i : Nat) (e : Nat × List Byte) : (tomb i e).1 = e.1 := by
  unfold tomb
  split <;> rfl

/-- Tombstoning a stored record keeps the queue invariant; only that record changes. -/
theorem QInv_tomb {q : ByteQueue} {es : List (Nat × List Byte)} (hq : QInv q es)
    {i : Nat} {d : List Byte} (he : (i, d) ∈ es) :
    QInv { q with array := (copyAt q.array (i + 4) (resetKeyFromEntry d)).1 }
      (es.map (tomb i)) := by
  obtain ⟨m1, m2, m3, m4⟩ := QInv_mem hq he
  simp only at m1 m2 m3 m4
  have hfit : i + 4 + (resetKeyFromEntry d).length ≤ q.array.length := by
    rw [resetKeyFromEntry_length]; omega
  rw [copyAt_fst _ _ _ hfit]
  rcases hq with hq | ⟨es1, es2, rfl, hq⟩
  · obtain ⟨h1, h2, h3, h4, h5, h6, h7, h8, h9⟩ := hq
    left
    exact ⟨by show (writeAt _ _ _).length = _; rw [writeAt_length _ _ _ hfit]; exact h1, h2,
      by show q.count = _; rw [length_map_tomb]; exact h3, h4, h5, h6, h7, h8, Seg_tomb h9 he⟩
  · obtain ⟨h1, h2, h3, h4, h5, h6, h7, h8, h9⟩ := hq
    simp only [minimumEmptyBlobSize, headerEntrySize, leftMarginIndex] at h5 h9
    right
    rcases List.mem_append.1 he with he | he
    · obtain ⟨n1, n2, _, _⟩ := Seg_mem h8 he
      simp only at n1 n2
      refine ⟨es1.map (tomb i), es2, ?_, ?_, h2, ?_, h4, h5, h6, h7, Seg_tomb h8 he, ?_⟩
      · rw [List.map_append, Seg_map_tomb_id h9 i (Or.inr (by omega))]
      · show (writeAt _ _ _).length = _; rw [writeAt_length _ _ _ hfit]; exact h1
      · show q.count = _; rw [length_map_tomb]; exact h3
      · exact Seg_writeAt_disjoint h9 _ _ hfit (Or.inl (by omega))
    · obtain ⟨n1, n2, _, _⟩ := Seg_mem h9 he
      simp only at n1 n2
      refine ⟨es1, es2.map (tomb i), ?_, ?_, h2, ?_, h4, h5, h6, h7, ?_, Seg_tomb h9 he⟩
      · rw [List.map_append, Seg_map_tomb_id h8 i (Or.inl (by omega))]
      · show (writeAt _ _ _).length = _; rw [writeAt_length _ _ _ hfit]; exact h1
      · show q.count = _; rw [length_map_tomb]; exact h3
      · exact Seg_writeAt_disjoint h8 _ _ hfit
          (Or.inr (by rw [resetKeyFromEntry_length]; omega))

theorem mem_map_tomb_self {es : List (Nat × List Byte)} {i : Nat} {d : List Byte}
    (he : (i, d) ∈ es) : (i, resetKeyFromEntry d) ∈ es.map (tomb i) := by
  have := List.mem_map_of_mem (tomb i) he
  unfold tomb at this
  rw [if_pos rfl] at this
  exact this

theorem mem_map_tomb_other {es : List (Nat × List Byte)} {i j : Nat} {d : List Byte}
    (he : (j, d) ∈ es) (hij : j ≠ i) : (j, d) ∈ es.map (tomb i) := by
  have := List.mem_map_of_mem (tomb i) he
  unfold tomb at this
  rw [if_neg hij] at this
  exact this

theorem Marker.get_cons (e : Nat × Nat) (m : Marker) (h : Nat) :
    Marker.get (e :: m) h = if e.1 = h then e.2 else Marker.get m h := by
  unfold Marker.get
  rw [List.find?_cons]
  by_cases c : e.1 = h
  · have hb : (e.1 == h) = true := by simp [c]
    rw [hb, if_pos c]
  · have hb : (e.1 == h) = false := by simp [c]
    rw [hb, if_neg c]

theorem Marker.get_delete_self (m : Marker) (h : Nat) : (m.delete h).get h = 0 := by
  induction m with
  | nil => rfl
  | cons e m ih =>
    unfold Marker.delete at ih ⊢
    rw [List.filter_cons]
    by_cases c : e.1 = h
    · simp only [c, bne_self_eq_false, Bool.false_eq_true, if_false]
      exact ih
    · have : (e.1 != h) = true := by simp [c]
      rw [if_pos this, Marker.get_cons, if_neg c]
      exact ih

theorem Marker.get_delete_ne (m : Marker) {h h' : Nat} (hne : h' ≠ h) :
    (m.delete h).get h' = m.get h' := by
  induction m with
  | nil => rfl
  | cons e m ih =>
    unfold Marker.delete at ih ⊢
    rw [List.filter_cons]
    by_cases c : e.1 = h
    · simp only [c, bne_self_eq_false, Bool.false_eq_true, if_false]
      rw [ih, Marker.get_cons, if_neg (by omega)]
    · have : (e.1 != h) = true := by simp [c]
      rw [if_pos this, Marker.get_cons, Marker.get_cons, ih]

theorem Marker.get_put_self (m : Marker) (h i : Nat) : (m.put h i).get h = i := by
  unfold Marker.put
  rw [Marker.get_cons, if_pos rfl]

theorem Marker.get_put_ne (m : Marker) {h h' : Nat} (i : Nat) (hne : h' ≠ h) :
    (m.put h i).get h' = m.get h' := by
  unfold Marker.put
  rw [Marker.get_cons, if_neg (by simp only; omega), Marker.get_delete_ne m hne]

theorem Marker.delete_of_not_mem (m : Marker) (h : Nat) (hn : h ∉ m.map Prod.fst) :
    m.delete h = m := by
  unfold Marker.delete
  rw [List.filter_eq_self]
  intro e he
  have : e.1 ≠ h := fun c => hn (c ▸ List.mem_map_of_mem Prod.fst he)
  simp [this]

theorem Marker.mem_keys_of_get_ne_zero (m : Marker) (h : Nat) (hg : m.get h ≠ 0) :
    h ∈ m.map Prod.fst := by
  induction m with
  | nil => exact absurd rfl hg
  | cons e m ih =>
    rw [Marker.get_cons] at hg
    by_cases c : e.1 = h
    · rw [List.map_cons, c]; exact List.mem_cons_self _ _
    · rw [if_neg c] at hg
      exact List.mem_cons_of_mem _ (ih hg)

/-- Deleting a key that is present removes exactly one entry of a well-formed index. -/
theorem Marker.length_delete (m : Marker) (h : Nat) (hw : m.WF) (hm : h ∈ m.map Prod.fst) :
    (m.delete h).length + 1 = m.length := by
  induction m with
  | nil => cases hm
  | cons e m ih =>
    have hnd : e.1 ∉ m.map Prod.fst ∧ (m.map Prod.fst).Nodup := List.nodup_cons.1 hw
    by_cases c : e.1 = h
    · have h1 : Marker.delete (e :: m) h = Marker.delete m h := by
        unfold Marker.delete
        rw [List.filter_cons]
        simp [c]
      rw [h1, Marker.delete_of_not_mem m h (c ▸ hnd.1)]
      rfl
    · have h1 : Marker.delete (e :: m) h = e :: Marker.delete m h := by
        unfold Marker.delete
        rw [List.filter_cons]
        simp [c]
      rw [h1]
      have hm' : h ∈ m.map Prod.fst := by
        rcases List.mem_cons.1 hm with hm | hm
        · exact absurd hm.symm c
        · exact hm
      have := ih hnd.2 hm'
      simp only [List.length_cons]
      omega

theorem Marker.WF_delete (m : Marker) (h : Nat) (hw : m.WF) : (m.delete h).WF := by
  unfold Marker.WF Marker.delete at *
  exact List.Nodup.sublist (List.Sublist.map _ (List.filter_sublist _)) hw

theorem Marker.not_mem_keys_delete (m : Marker) (h : Nat) : h ∉ (m.delete h).map Prod.fst := by
  intro hc
  obtain ⟨e, he, rfl⟩ := List.mem_map.1 hc
  unfold Marker.delete at he
  have := (List.mem_filter.1 he).2
  simp at this

theorem Marker.WF_put (m : Marker) (h i : Nat) (hw : m.WF) : (m.put h i).WF := by
  unfold Marker.put Marker.WF
  rw [List.map_cons]
  exact List.nodup_cons.2 ⟨Marker.not_mem_keys_delete m h, Marker.WF_delete m h hw⟩

/-! ### The shard: `set` and `get` -/

theorem map_tomb_zero {q : ByteQueue} {es : List (Nat × List Byte)} (hq : QInv q es) :
    es.map (tomb 0) = es := by
  have : es.map (tomb 0) = es.map id := by
    apply List.map_congr_left
    intro e he
    have := (QInv_mem hq he).1
    unfold tomb
    rw [if_neg (by omega)]
    rfl
  rw [this, List.map_id]

/-- The first part of `set`: the previous record of the fingerprint is tombstoned in place
and the new record is packed. -/
theorem setPrepare_spec {s : shard} {es : List (Nat × List Byte)} (hs : ShardInv s es)
    (key : List Byte) (hash : Nat) (value : List Byte) (ttl now : Int) :
    QInv (s.setPrepare key hash value ttl now).1.entries (es.map (tomb (s.marker.get hash)))
    ∧ (s.setPrepare key hash value ttl now).2
        = (wrapEntry (exp now ttl) hash (ChecksumIEEE key) value s.buffer).1
    ∧ (s.setPrepare key hash value ttl now).1.marker = s.marker
    ∧ (s.setPrepare key hash value ttl now).1.stats = s.stats
    ∧ (s.setPrepare key hash value ttl now).1.onRemove = s.onRemove
    ∧ (s.setPrepare key hash value ttl now).1.redisEnable = s.redisEnable
    ∧ (s.setPrepare key hash value ttl now).1.entries.capacity = s.entries.capacity
    ∧ (s.setPrepare key hash value ttl now).1.entries.maxCapacity = s.entries.maxCapacity
    ∧ (s.setPrepare key hash value ttl now).1.entries.count = s.entries.count := by
  obtain ⟨hq, hlen, hmk⟩ := hs
  unfold shard.setPrepare
  by_cases c : s.marker.get hash ≠ 0
  · obtain ⟨d, hd⟩ := hmk hash c
    have hne : d ≠ [] := by
      intro hn
      have := hlen _ hd
      rw [hn] at this
      simp at this
    have hg := Get_eq_of_ne_nil hq hd hne
    simp only [if_pos c, hg, shard.tombstone, headerEntrySize, and_self, and_true]
    exact QInv_tomb hq hd
  · have c0 : s.marker.get hash = 0 := by omega
    simp only [if_neg c, and_self, and_true]
    rw [c0, map_tomb_zero hq]
    exact hq

theorem Pop_count {q q' : ByteQueue} {d : List Byte} (h : q.Pop = (q', .ok d)) :
    q.count ≠ 0 ∧ q'.count = q.count - 1 := by
  unfold ByteQueue.Pop at h
  split at h
  · cases h
  · rename_i data size hg
    have := (getWithLength_ok hg).1
    injection h with h1 h2
    refine ⟨this, ?_⟩
    simp only [headerEntrySize] at h1
    split at h1
    · split at h1 <;> (subst h1; rfl)
    · subst h1; rfl

/-- A successful `removeOldest` pops the oldest entry and deletes its fingerprint from the
index. -/
theorem removeOldest_ok {s s1 : shard} {now : Int} (h : s.removeOldest now = (s1, none)) :
    ∃ oldest, s.entries.Pop = (s1.entries, .ok oldest)
      ∧ s1.marker = s.marker.delete (readHashFromEntry oldest)
      ∧ s1.stats = s.stats ∧ s1.onRemove = s.onRemove ∧ s1.redisEnable = s.redisEnable
      ∧ s1.buffer = s.buffer ∧ s1.InitEntrySize = s.InitEntrySize := by
  unfold shard.removeOldest at h
  split at h
  · rename_i q oldest hp
    injection h with h _
    dsimp only at h
    refine ⟨oldest, ?_⟩
    rw [hp]
    split at h <;> (subst h; exact ⟨rfl, rfl, rfl, rfl, rfl, rfl, rfl⟩)
  · cases h

/-- The loop of `set` returns within `count + 1` iterations. -/
theorem setLoop_isSome (fuel : Nat) (s : shard) (hash : Nat) (w : List Byte) (now : Int)
    (h : s.entries.count < fuel) : (shard.setLoop fuel s hash w now).isSome = true := by
  induction fuel generalizing s with
  | zero => omega
  | succ n ih =>
    unfold shard.setLoop
    split
    · rfl
    · split
      · rfl
      · split
        · rfl
        · rename_i s1 hro
          obtain ⟨oldest, hp, _⟩ := removeOldest_ok hro
          have := Pop_count hp
          exact ih s1 (by omega)

theorem evictAll_cons (m : Marker) (e : Nat × List Byte) (popped : List (Nat × List Byte)) :
    evictAll m (e :: popped) = evictAll (m.delete (readHashFromEntry e.2)) popped := rfl

/-- A successful `set` loop: some oldest entries were popped and their fingerprints deleted
from the index, then the record was pushed and its handle recorded. -/
theorem setLoop_ok (fuel : Nat) (s s' : shard) (es : List (Nat × List Byte)) (hash : Nat)
    (w : List Byte) (now : Int) (hq : QInv s.entries es)
    (h : shard.setLoop fuel s hash w now = some (s', none))
    (hcap : s'.entries.capacity ≤ 4294967296) :
    ∃ popped rest es' idx, es = popped ++ rest ∧ QInv s'.entries es' ∧ Pushed rest es' idx w
      ∧ s'.marker = (evictAll s.marker popped).put hash idx
      ∧ s'.stats = { s.stats with Modify := s.stats.Modify + 1 }
      ∧ (popped ≠ [] → s.onRemove = true)
      ∧ s'.onRemove = s.onRemove ∧ s'.redisEnable = s.redisEnable
      ∧ s'.entries.maxCapacity = s.entries.maxCapacity
      ∧ s.entries.capacity ≤ s'.entries.capacity := by
  induction fuel generalizing s es with
  | zero => cases h
  | succ n ih =>
    unfold shard.setLoop at h
    split at h
    · rename_i q index hp
      injection h with h
      injection h with h1 h2
      subst h1
      obtain ⟨es', a, b, c, d⟩ := Push_ok hq hp hcap
      exact ⟨[], es, es', index, rfl, a, b, rfl, rfl, fun hc => absurd rfl hc, rfl, rfl, c, d⟩
    · rename_i q e hp
      split at h
      · cases h
      · rename_i hrem
        have hrem' : s.onRemove = true := by
          cases hc : s.onRemove
          · rw [hc] at hrem; exact absurd rfl hrem
          · rfl
        split at h
        · cases h
        · rename_i s1 hro
          obtain ⟨oldest, hpop, t2, t3, t4, t5, _, _⟩ := removeOldest_ok hro
          obtain ⟨esr, p1, p2, p3, p4⟩ := Pop_ok hq hpop
          obtain ⟨popped, rest, es', idx, r1, r2, r3, r4, r5, r6, r7, r8, r9, r10⟩ :=
            ih s1 esr p2 h
          refine ⟨(s.entries.head, oldest) :: popped, rest, es', idx, ?_, r2, r3, ?_, ?_,
            fun _ => hrem', ?_, ?_, ?_, ?_⟩
          · rw [p1, r1]; rfl
          · rw [r4, t2, evictAll_cons]
          · rw [r5, t3]
          · rw [r7, t4]
          · rw [r8, t5]
          · rw [r9, p4]
          · rw [← p3]; exact r10

/-- Without eviction a failed `set` loop changes nothing, and the ring has a cap. -/
theorem setLoop_fail_noRemove (fuel : Nat) (s s' : shard) (hash : Nat) (w : List Byte)
    (now : Int) (e : Err) (hr : s.onRemove = false)
    (h : shard.setLoop fuel s hash w now = some (s', some e)) :
    s' = s ∧ e = .errMaxEntry ∧ 0 < s.entries.maxCapacity := by
  cases fuel with
  | zero => cases h
  | succ n =>
    unfold shard.setLoop at h
    split at h
    · cases h
    · rename_i q e' hp
      rw [hr] at h
      simp only [Bool.not_false, if_true] at h
      injection h with h
      injection h with h1 h2
      injection h2 with h2
      exact ⟨h1.symm, h2.symm, (Push_error hp).2.2⟩

/-- Reading through the index: the wrapped entry of a handle that addresses a stored record. -/
theorem getWrappedEntry_eq {s : shard} {es : List (Nat × List Byte)} (hq : QInv s.entries es)
    {hash : Nat} {d : List Byte} (he : (s.marker.get hash, d) ∈ es) (hd : d ≠ []) :
    s.getWrappedEntry hash = (s, .ok d) := by
  have h1 := (QInv_mem hq he).1
  simp only at h1
  unfold shard.getWrappedEntry
  simp only [if_neg (show ¬ s.marker.get hash = 0 by omega), Get_eq_of_ne_nil hq he hd]

theorem get_eq {s : shard} {es : List (Nat × List Byte)} (hq : QInv s.entries es)
    {hash : Nat} {d : List Byte} (he : (s.marker.get hash, d) ∈ es) (hd : d ≠ [])
    (key : List Byte) (now : Int) :
    s.get key hash now =
      if readCRC32FromEntry d ≠ ChecksumIEEE key then (s.statsCollision, .error .errKeyNotFound)
      else if readTimestampFromEntry d ≠ 0 ∧ epoch now > readTimestampFromEntry d then
        (s, .error .errEntryIsDead)
      else (s.statsHit, .ok (readEntry d)) := by
  unfold shard.get
  rw [getWrappedEntry_eq hq he hd]

theorem get_of_zero (s : shard) (hash : Nat) (key : List Byte) (now : Int)
    (h : s.marker.get hash = 0) :
    s.get key hash now = (s.statsMiss, .error .errKeyNotFound) := by
  unfold shard.get shard.getWrappedEntry
  simp only [h, if_true]

theorem Pushed_mem {es es' : List (Nat × List Byte)} {idx : Nat} {w : List Byte}
    (h : Pushed es es' idx w) : (idx, w) ∈ es' := by
  rcases h with h | ⟨es1, es2, i, n, _, _, _, _, h⟩
  · rw [h]; simp
  · rw [h]; simp

theorem Pushed_mem_old {es es' : List (Nat × List Byte)} {idx : Nat} {w : List Byte}
    (h : Pushed es es' idx w) {e : Nat × List Byte} (he : e ∈ es) : e ∈ es' := by
  rcases h with h | ⟨es1, es2, i, n, h0, _, _, _, h⟩
  · rw [h]; exact List.mem_append_left _ he
  · rw [h]
    rw [h0] at he
    rcases List.mem_append.1 he with he | he
    · simp [he]
    · simp [he]

theorem Pushed_mem_inv {es es' : List (Nat × List Byte)} {idx : Nat} {w : List Byte}
    (h : Pushed es es' idx w) {e : Nat × List Byte} (he : e ∈ es') :
    e ∈ es ∨ e = (idx, w) ∨ ∃ i n, 32 ≤ n ∧ e = (i, List.replicate n 0) := by
  rcases h with h | ⟨es1, es2, i, n, h0, _, _, hn, h⟩
  · rw [h] at he
    rcases List.mem_append.1 he with he | he
    · exact Or.inl he
    · right; left; simpa using he
  · rw [h] at he
    rw [h0]
    simp only [List.mem_append, List.mem_cons, List.mem_singleton, List.not_mem_nil,
      or_false] at he ⊢
    rcases he with (he | he | he) | he
    · exact Or.inl (Or.inr he)
    · exact Or.inr (Or.inr ⟨i, n, hn, he⟩)
    · exact Or.inl (Or.inl he)
    · exact Or.inr (Or.inl he)

/-! ### Capacity and configuration -/

theorem newCapacity_le_max (q : ByteQueue) (minimum : Nat) (h : 0 < q.maxCapacity) :
    newCapacity q minimum ≤ q.maxCapacity := by
  unfold newCapacity
  split <;> split <;> omega

theorem Push_capacity {q q' : ByteQueue} {data : List Byte} {r : Except Err Nat}
    (h : q.Push data = (q', r)) :
    q.capacity ≤ q'.capacity ∧ q'.maxCapacity = q.maxCapacity
      ∧ (0 < q.maxCapacity → q'.capacity ≤ max q.capacity q.maxCapacity) := by
  unfold ByteQueue.Push at h
  dsimp only at h
  split at h
  · split at h
    · injection h with h1 h2
      subst h1
      have := push_capacity ({ q with tail := leftMarginIndex } : ByteQueue) data data.length
      rw [this.1, this.2]
      exact ⟨Nat.le_refl _, rfl, fun _ => Nat.le_max_left _ _⟩
    · split at h
      · injection h with h1 h2
        subst h1
        exact ⟨Nat.le_refl _, rfl, fun _ => Nat.le_max_left _ _⟩
      · rename_i hfull
        injection h with h1 h2
        subst h1
        have h1 := push_capacity (q.allocate (data.length + headerEntrySize)) data data.length
        have h2 := allocate_capacity q (data.length + headerEntrySize)
        have h3 := newCapacity_ge q (data.length + headerEntrySize) hfull
        rw [h1.1, h1.2, h2.1, h2.2]
        refine ⟨by omega, rfl, fun hm => ?_⟩
        have := newCapacity_le_max q (data.length + headerEntrySize) hm
        exact Nat.le_trans this (Nat.le_max_right _ _)
  · injection h with h1 h2
    subst h1
    have := push_capacity q data data.length
    rw [this.1, this.2]
    exact ⟨Nat.le_refl _, rfl, fun _ => Nat.le_max_left _ _⟩

theorem Pop_capacity {q q' : ByteQueue} {r : Except Err (List Byte)} (h : q.Pop = (q', r)) :
    q'.capacity = q.capacity ∧ q'.maxCapacity = q.maxCapacity := by
  unfold ByteQueue.Pop at h
  split at h
  · injection h with h1 _
    subst h1
    exact ⟨rfl, rfl⟩
  · injection h with h1 _
    simp only [headerEntrySize] at h1
    split at h1
    · split at h1 <;> (subst h1; exact ⟨rfl, rfl⟩)
    · subst h1; exact ⟨rfl, rfl⟩

theorem setPrepare_fields (s : shard) (key : List Byte) (hash : Nat) (value : List Byte)
    (ttl now : Int) :
    (s.setPrepare key hash value ttl now).1.entries.capacity = s.entries.capacity
    ∧ (s.setPrepare key hash value ttl now).1.entries.maxCapacity = s.entries.maxCapacity
    ∧ (s.setPrepare key hash value ttl now).1.onRemove = s.onRemove
    ∧ (s.setPrepare key hash value ttl now).1.redisEnable = s.redisEnable
    ∧ (s.setPrepare key hash value ttl now).1.marker = s.marker
    ∧ (s.setPrepare key hash value ttl now).1.InitEntrySize = s.InitEntrySize := by
  unfold shard.setPrepare
  dsimp only
  split
  · split
    · exact ⟨rfl, rfl, rfl, rfl, rfl, rfl⟩
    · exact ⟨rfl, rfl, rfl, rfl, rfl, rfl⟩
  · exact ⟨rfl, rfl, rfl, rfl, rfl, rfl⟩

theorem removeOldest_fields {s s1 : shard} {now : Int} {r : Option Err}
    (h : s.removeOldest now = (s1, r)) :
    s1.entries.capacity = s.entries.capacity ∧ s1.entries.maxCapacity = s.entries.maxCapacity
      ∧ s1.onRemove = s.onRemove ∧ s1.redisEnable = s.redisEnable
      ∧ s1.InitEntrySize = s.InitEntrySize := by
  unfold shard.removeOldest at h
  split at h
  · rename_i q oldest hp
    have hc := Pop_capacity hp
    injection h with h _
    dsimp only at h
    split at h <;> (subst h; exact ⟨hc.1, hc.2, rfl, rfl, rfl⟩)
  · injection h with h _
    subst h
    exact ⟨rfl, rfl, rfl, rfl, rfl⟩

theorem setLoop_fields (fuel : Nat) (s s' : shard) (hash : Nat) (w : List Byte) (now : Int)
    (r : Option Err) (h : shard.setLoop fuel s hash w now = some (s', r)) :
    s.entries.capacity ≤ s'.entries.capacity ∧ s'.entries.maxCapacity = s.entries.maxCapacity
      ∧ s'.onRemove = s.onRemove ∧ s'.redisEnable = s.redisEnable
      ∧ s'.InitEntrySize = s.InitEntrySize
      ∧ (0 < s.entries.maxCapacity →
          s'.entries.capacity ≤ max s.entries.capacity s.entries.maxCapacity) := by
  induction fuel generalizing s with
  | zero => cases h
  | succ n ih =>
    unfold shard.setLoop at h
    split at h
    · rename_i q index hp
      injection h with h
      injection h with h1 h2
      subst h1
      have := Push_capacity hp
      exact ⟨this.1, this.2.1, rfl, rfl, rfl, this.2.2⟩
    · split at h
      · injection h with h
        injection h with h1 h2
        subst h1
        exact ⟨Nat.le_refl _, rfl, rfl, rfl, rfl, fun _ => Nat.le_max_left _ _⟩
      · split at h
        · injection h with h
          injection h with h1 h2
          subst h1
          exact ⟨Nat.le_refl _, rfl, rfl, rfl, rfl, fun _ => Nat.le_max_left _ _⟩
        · rename_i s1 hro
          obtain ⟨a1, a2, a3, a4, a5⟩ := removeOldest_fields hro
          obtain ⟨b1, b2, b3, b4, b5, b6⟩ := ih s1 h
          rw [a1] at b1
          rw [a2] at b2 b6
          rw [a1] at b6
          exact ⟨b1, b2, by rw [b3, a3], by rw [b4, a4], by rw [b5, a5], b6⟩

theorem set_eq_setLoop (s : shard) (key : List Byte) (hash : Nat) (value : List Byte)
    (ttl now : Int) :
    shard.setLoop ((s.setPrepare key hash value ttl now).1.entries.count + 1)
        (s.setPrepare key hash value ttl now).1 hash (s.setPrepare key hash value ttl now).2 now
      = some (s.set key hash value ttl now) := by
  have h := setLoop_isSome ((s.setPrepare key hash value ttl now).1.entries.count + 1)
    (s.setPrepare key hash value ttl now).1 hash (s.setPrepare key hash value ttl now).2 now
    (Nat.lt_succ_self _)
  unfold shard.set
  dsimp only
  cases hc : shard.setLoop ((s.setPrepare key hash value ttl now).1.entries.count + 1)
      (s.setPrepare key hash value ttl now).1 hash (s.setPrepare key hash value ttl now).2 now with
  | none => rw [hc] at h; cases h
  | some r => rfl

/-- `set` never shrinks the ring, never changes its cap or the flags of the shard, and does
not let a capped ring grow beyond its cap. -/
theorem set_fields {s s' : shard} {key : List Byte} {hash : Nat} {value : List Byte}
    {ttl now : Int} {r : Option Err} (h : s.set key hash value ttl now = (s', r)) :
    s.entries.capacity ≤ s'.entries.capacity ∧ s'.entries.maxCapacity = s.entries.maxCapacity
      ∧ s'.onRemove = s.onRemove ∧ s'.redisEnable = s.redisEnable
      ∧ s'.InitEntrySize = s.InitEntrySize
      ∧ (0 < s.entries.maxCapacity →
          s'.entries.capacity ≤ max s.entries.capacity s.entries.maxCapacity) := by
  have hl := set_eq_setLoop s key hash value ttl now
  rw [h] at hl
  obtain ⟨a1, a2, a3, a4, a5, a6⟩ := setLoop_fields _ _ _ _ _ _ _ hl
  obtain ⟨p1, p2, p3, p4, _, p6⟩ := setPrepare_fields s key hash value ttl now
  rw [p1] at a1 a6
  rw [p2] at a2 a6
  exact ⟨a1, a2, by rw [a3, p3], by rw [a4, p4], by rw [a5, p6], a6⟩

/-! ### The router -/

theorem isPowerOfTwo_eq (n : Int) (h : isPowerOfTwo n = true) : ∃ k, k < 63 ∧ n = 2 ^ k := by
  unfold isPowerOfTwo at h
  rw [List.any_eq_true] at h
  obtain ⟨k, hk, he⟩ := h
  exact ⟨k, List.mem_range.1 hk, by simpa using he⟩

theorem implementConfig_ok {config c : Config} (h : implementConfig config = .ok c) :
    (∃ k, k < 63 ∧ c.ShardSize = 2 ^ k) ∧ c.InitEntrySize = config.InitEntrySize
      ∧ c.MaxCacheSize = config.MaxCacheSize ∧ c.DefaultTTL = config.DefaultTTL
      ∧ c.OnRemove = config.OnRemove ∧ c.RedisAddr = config.RedisAddr := by
  unfold implementConfig at h
  split at h
  · cases h
  · rename_i hp
    have hp' : isPowerOfTwo config.ShardSize = true := by
      cases hc : isPowerOfTwo config.ShardSize
      · rw [hc] at hp; exact absurd rfl hp
      · rfl
    obtain ⟨k, hk, he⟩ := isPowerOfTwo_eq _ hp'
    have hpos : (0 : Int) < 2 ^ k := by positivity
    injection h with h
    by_cases hcw : config.CleanWindow = 0
    · simp only [if_pos hcw] at h
      rw [if_neg (by omega)] at h
      subst h
      exact ⟨⟨k, hk, he⟩, rfl, rfl, rfl, rfl, rfl⟩
    · simp only [if_neg hcw] at h
      rw [if_neg (by omega)] at h
      subst h
      exact ⟨⟨k, hk, he⟩, rfl, rfl, rfl, rfl, rfl⟩

/-- A constructed cache has `2^k` fresh shards and the mask `2^k - 1`. -/
theorem NewTipTop_ok {config : Config} {redis : redisCache} {t : TipTop}
    (h : NewTipTop config redis = .ok t) :
    ∃ c k, implementConfig config = .ok c ∧ k < 63
      ∧ t.shards = List.replicate (2 ^ k) (initShard c redis)
      ∧ t.shardSize = 2 ^ k - 1 ∧ t.config = c := by
  unfold NewTipTop at h
  split at h
  · cases h
  · rename_i c hc
    obtain ⟨⟨k, hk, he⟩, _⟩ := implementConfig_ok hc
    injection h with h
    subst h
    refine ⟨c, k, hc, hk, ?_, ?_, rfl⟩
    · show List.replicate c.ShardSize.toNat _ = _
      rw [he]
      congr 1
      have : ((2 : Int) ^ k) = ((2 ^ k : Nat) : Int) := by push_cast; rfl
      rw [this, Int.toNat_ofNat]
    · show uint64OfInt (c.ShardSize - 1) = _
      rw [he]
      unfold uint64OfInt
      have h1 : (1 : Nat) ≤ 2 ^ k := Nat.one_le_two_pow
      have h2 : (2 : Nat) ^ k < 2 ^ 63 := Nat.pow_lt_pow_right (by decide) hk
      have h3 : ((2 : Int) ^ k) = ((2 ^ k : Nat) : Int) := by push_cast; rfl
      rw [h3]
      have h4 : (2 : Nat) ^ 63 = 9223372036854775808 := by decide
      omega

theorem shardIndex_lt {t : TipTop} {k : Nat} (hl : t.shards.length = 2 ^ k)
    (hm : t.shardSize = 2 ^ k - 1) (hash : Nat) : t.shardIndex hash < t.shards.length := by
  unfold TipTop.shardIndex
  rw [hm, Nat.and_pow_two_sub_one_eq_mod, hl]
  exact Nat.mod_lt _ (by positivity)

theorem getShard_putShard (t : TipTop) (hash : Nat) (s : shard)
    (h : t.shardIndex hash < t.shards.length) : (t.putShard hash s).getShard hash = s := by
  unfold TipTop.getShard TipTop.putShard TipTop.shardIndex
  dsimp only
  unfold TipTop.shardIndex at h
  rw [List.getElem?_set_self h]
  rfl

theorem getShard_replicate (t : TipTop) (hash n : Nat) (s : shard)
    (hs : t.shards = List.replicate n s) (h : t.shardIndex hash < t.shards.length) :
    t.getShard hash = s := by
  unfold TipTop.getShard
  rw [hs, List.getElem?_replicate, if_pos (by rw [hs, List.length_replicate] at h; exact h)]
  rfl

theorem sum_map_set (l : List shard) (f : shard → Nat) (i : Nat) (s : shard)
    (h : i < l.length) (hz : ∀ x ∈ l, f x = 0) : ((l.set i s).map f).sum = f s := by
  induction l generalizing i with
  | nil => cases h
  | cons a l ih =>
    have hz' : ∀ x ∈ l, f x = 0 := fun x hx => hz x (List.mem_cons_of_mem _ hx)
    cases i with
    | zero =>
      rw [List.set_cons_zero, List.map_cons, List.sum_cons]
      have : (l.map f).sum = 0 := by
        apply List.sum_eq_zero
        intro x hx
        obtain ⟨y, hy, rfl⟩ := List.mem_map.1 hx
        exact hz' y hy
      rw [this]; rfl
    | succ i =>
      rw [List.set_cons_succ, List.map_cons, List.sum_cons, hz a (List.mem_cons_self _ _),
        ih i (by simpa using h) hz', Nat.zero_add]

/-- The number of entries of a cache whose shards are all empty but one. -/
theorem Len_putShard (t : TipTop) (hash : Nat) (s : shard)
    (h : t.shardIndex hash < t.shards.length) (hz : ∀ x ∈ t.shards, x.len = 0) :
    (t.putShard hash s).Len = s.len := by
  unfold TipTop.Len TipTop.putShard
  exact sum_map_set _ _ _ _ h hz

theorem putShard_putShard (t : TipTop) (hash : Nat) (s1 s2 : shard) :
    (t.putShard hash s1).putShard hash s2 = t.putShard hash s2 := by
  unfold TipTop.putShard TipTop.shardIndex
  dsimp only
  rw [List.set_set]

/-! ### Handle stability of the queue -/

theorem run_capacity (ops : List QueueOp) (q : ByteQueue) :
    q.capacity ≤ (q.run ops).capacity := by
  induction ops generalizing q with
  | nil => exact Nat.le_refl _
  | cons op ops ih =>
    cases op with
    | push data =>
      exact Nat.le_trans (Push_capacity (Prod.ext rfl rfl : q.Push data = (_, _))).1 (ih _)
    | pop =>
      have h := (Pop_capacity (Prod.ext rfl rfl : q.Pop = (_, _))).1
      exact Nat.le_trans (Nat.le_of_eq h.symm) (ih _)

/-- A stored entry with a non-empty payload is read back by `Get` at its offset after any
calls of `Push` and `Pop` that do not pop it, across wraps of the tail and growths of the
array (within `2^32` bytes). -/
theorem Get_stable (ops : List QueueOp) {q : ByteQueue} {es : List (Nat × List Byte)}
    (hq : QInv q es) {H : Nat} {d : List Byte} (he : (H, d) ∈ es) (hd : d ≠ [])
    (hk : q.keeps H ops = true) (hcap : (q.run ops).capacity ≤ 4294967296) :
    (q.run ops).Get H = .ok d := by
  induction ops generalizing q es with
  | nil => exact Get_eq_of_ne_nil hq he hd
  | cons op ops ih =>
    cases op with
    | push data =>
      have hk' : (q.Push data).1.keeps H ops = true := hk
      have hcap' : ((q.Push data).1.run ops).capacity ≤ 4294967296 := hcap
      show ((q.Push data).1.run ops).Get H = .ok d
      rcases hp : q.Push data with ⟨q', r⟩
      rw [hp] at hk' hcap'
      cases r with
      | error e =>
        obtain ⟨rfl, _⟩ := Push_error hp
        exact ih hq he hk' hcap'
      | ok idx =>
        obtain ⟨es', hq', hpu, _⟩ :=
          Push_ok hq hp (Nat.le_trans (run_capacity ops q') hcap')
        exact ih hq' (Pushed_mem_old hpu he) hk' hcap'
    | pop =>
      have hk0 : (q.head != H && q.Pop.1.keeps H ops) = true := hk
      rw [Bool.and_eq_true] at hk0
      obtain ⟨hne, hk'⟩ := hk0
      have hcap' : (q.Pop.1.run ops).capacity ≤ 4294967296 := hcap
      show (q.Pop.1.run ops).Get H = .ok d
      rcases hp : q.Pop with ⟨q', r⟩
      rw [hp] at hk' hcap'
      cases r with
      | error e =>
        have := Pop_error hp
        subst this
        exact ih hq he hk' hcap'
      | ok y =>
        obtain ⟨es', hes, hq', _⟩ := Pop_ok hq hp
        rw [hes] at he
        rcases List.mem_cons.1 he with h0 | h0
        · injection h0 with h1 _
          rw [h1] at hne
          simp at hne
        · exact ih hq' h0 hk' hcap'

/-- Handle stability for non-empty payloads: the handle returned by a successful `Push` of a
non-empty payload reads back the payload after any further calls of `Push` and `Pop` that do
not pop the entry. -/
theorem Push_handle_stable {q q' : ByteQueue} {es : List (Nat × List Byte)} {d : List Byte}
    {H : Nat} (hq : QInv q es) (hp : q.Push d = (q', .ok H)) (hd : d ≠ [])
    (ops : List QueueOp) (hk : q'.keeps H ops = true)
    (hcap : (q'.run ops).capacity ≤ 4294967296) :
    (q'.run ops).Get H = .ok d := by
  obtain ⟨es', hq', hpu, _⟩ := Push_ok hq hp (Nat.le_trans (run_capacity ops q') hcap)
  exact Get_stable ops hq' (Pushed_mem hpu) hd hk hcap

/-! ### Round trip -/

/-- The result of a successful `set`: the record is stored at the handle of the fingerprint. -/
theorem set_ok {s s' : shard} {es : List (Nat × List Byte)} {key : List Byte} {hash : Nat}
    {value : List Byte} {ttl now : Int} (hs : ShardInv s es)
    (h : s.set key hash value ttl now = (s', none))
    (hcap : s'.entries.capacity ≤ 4294967296) :
    ∃ popped rest es', (es.map (tomb (s.marker.get hash))) = popped ++ rest
      ∧ QInv s'.entries es'
      ∧ Pushed rest es' (s'.marker.get hash)
          (wrapEntry (exp now ttl) hash (ChecksumIEEE key) value s.buffer).1
      ∧ s'.marker = (evictAll s.marker popped).put hash (s'.marker.get hash)
      ∧ s'.stats = { s.stats with Modify := s.stats.Modify + 1 }
      ∧ (popped ≠ [] → s.onRemove = true)
      ∧ s'.onRemove = s.onRemove ∧ s'.redisEnable = s.redisEnable
      ∧ s'.entries.maxCapacity = s.entries.maxCapacity
      ∧ s.entries.capacity ≤ s'.entries.capacity := by
  have hl := set_eq_setLoop s key hash value ttl now
  rw [h] at hl
  obtain ⟨p1, p2, p3, p4, p5, p6, p7, p8, p9⟩ := setPrepare_spec hs key hash value ttl now
  obtain ⟨popped, rest, es', idx, r1, r2, r3, r4, r5, r6, r7, r8, r9, r10⟩ :=
    setLoop_ok _ _ s' _ hash _ now p1 hl hcap
  have hidx : s'.marker.get hash = idx := by rw [r4, Marker.get_put_self]
  rw [p2] at r3
  rw [p3] at r4
  rw [p4] at r5
  rw [p5] at r6 r7
  rw [p6] at r8
  rw [p8] at r9
  rw [p7] at r10
  rw [← hidx] at r3 r4
  exact ⟨popped, rest, es', r1, r2, r3, r4, r5, r6, r7, r8, r9, r10⟩

theorem wrapEntry_ne_nil (ts : Int) (h c : Nat) (entry buf : List Byte) :
    (wrapEntry ts h c entry buf).1 ≠ [] := by
  intro hc
  have := wrapEntry_length ts h c entry buf
  rw [hc] at this
  simp at this

/-- Reading a key right after its `set`: which of the three outcomes `get` takes is decided
by the expiration of the new record alone. -/
theorem get_after_set {s s' : shard} {es : List (Nat × List Byte)} {key : List Byte}
    {hash : Nat} {value : List Byte} {ttl now : Int} (hs : ShardInv s es)
    (h : s.set key hash value ttl now = (s', none))
    (hcap : s'.entries.capacity ≤ 4294967296)
    (hr1 : -9223372036854775808 ≤ exp now ttl) (hr2 : exp now ttl < 9223372036854775808)
    (key' : List Byte) (now' : Int) :
    s'.get key' hash now' =
      if ChecksumIEEE key ≠ ChecksumIEEE key' then
        (s'.statsCollision, .error .errKeyNotFound)
      else if exp now ttl ≠ 0 ∧ epoch now' > exp now ttl then (s', .error .errEntryIsDead)
      else (s'.statsHit, .ok value) := by
  obtain ⟨popped, rest, es', _, r2, r3, _⟩ := set_ok hs h hcap
  have hm := Pushed_mem r3
  rw [get_eq r2 hm (wrapEntry_ne_nil _ _ _ _ _) key' now', readCRC32_wrapEntry,
    readTimestamp_wrapEntry _ _ _ _ _ hr1 hr2, readEntry_wrapEntry,
    Nat.mod_eq_of_lt (ChecksumIEEE_lt key)]

theorem exp_zero (now : Int) : exp now 0 = 0 := by
  unfold exp
  simp

/-- C1 (as the code has it). Round trip on a shard whose ring stays within `2^32` bytes, the
size that a 4-byte length header can describe: in every shard state whose index handles
address records stored in the ring, if `set(k, h, v, ttl = 0)` returns no error and the ring
is at most `2^32` bytes long after it, the following `get(k, h)` returns exactly `v`, at
every clock value. -/
theorem C1_set_get_round_trip (s s' : shard) (es : List (Nat × List Byte)) (key : List Byte)
    (hash : Nat) (value : List Byte) (now now' : Int) (hs : ShardInv s es)
    (hset : s.set key hash value 0 now = (s', none))
    (hcap : s'.entries.capacity ≤ 4294967296) :
    (s'.get key hash now').2 = .ok value := by
  rw [get_after_set hs hset hcap (by rw [exp_zero]; decide) (by rw [exp_zero]; decide) key now',
    exp_zero]
  simp

/-! ### Delete, collision, expiration -/

theorem del_of_handle {s : shard} {es : List (Nat × List Byte)} (hs : ShardInv s es)
    {hash : Nat} (hne : s.marker.get hash ≠ 0) :
    ∃ d, (s.marker.get hash, d) ∈ es ∧
      s.del hash = (({ s.statsModify with marker := s.marker.delete hash }).tombstone
        (s.marker.get hash) d, none) := by
  obtain ⟨hq, hlen, hmk⟩ := hs
  obtain ⟨d, hd⟩ := hmk hash hne
  have hnil : d ≠ [] := by
    intro hn
    have := hlen _ hd
    rw [hn] at this
    simp at this
  refine ⟨d, hd, ?_⟩
  have hq' : QInv s.statsModify.entries es := hq
  have hd' : (s.statsModify.marker.get hash, d) ∈ es := hd
  have hne' : ¬ s.statsModify.marker.get hash = 0 := hne
  unfold shard.del
  simp only [if_neg hne', CheckGet_of_ne_nil hq' hd' hnil, Get_eq_of_ne_nil hq' hd' hnil]
  rfl

theorem del_of_zero {s : shard} {hash : Nat} (hz : s.marker.get hash = 0)
    (hr : s.redisEnable = false) : s.del hash = (s.statsModify, some .errKeyNotFound) := by
  have hz' : s.statsModify.marker.get hash = 0 := hz
  have hr' : s.statsModify.redisEnable = false := hr
  unfold shard.del
  simp only [hz', hr', if_true, Bool.false_eq_true, if_false]

/-- C3. Delete on a shard without a secondary store.  When the index holds a handle for the
fingerprint, addressing a stored record, `del` returns no error, removes the fingerprint from
the index, `len` decreases by exactly one and a following `get` returns `errKeyNotFound`.
When the index holds no handle, `del` returns `errKeyNotFound` and leaves the index and the
ring unchanged. -/
theorem C3_del (s : shard) (es : List (Nat × List Byte)) (hash : Nat) (hs : ShardInv s es)
    (hw : s.marker.WF) (hr : s.redisEnable = false) :
    (s.marker.get hash ≠ 0 →
      (s.del hash).2 = none ∧ (s.del hash).1.marker.get hash = 0
        ∧ (s.del hash).1.len + 1 = s.len
        ∧ ∀ key now, ((s.del hash).1.get key hash now).2 = .error .errKeyNotFound)
    ∧ (s.marker.get hash = 0 →
      (s.del hash).2 = some .errKeyNotFound ∧ (s.del hash).1.marker = s.marker
        ∧ (s.del hash).1.entries = s.entries) := by
  constructor
  · intro hne
    obtain ⟨d, _, hdel⟩ := del_of_handle hs hne
    rw [hdel]
    have hz : (({ s.statsModify with marker := s.marker.delete hash }).tombstone
        (s.marker.get hash) d).marker.get hash = 0 := Marker.get_delete_self _ _
    refine ⟨rfl, hz, ?_, ?_⟩
    · exact Marker.length_delete s.marker hash hw (Marker.mem_keys_of_get_ne_zero _ _ hne)
    · intro key now
      rw [get_of_zero _ _ _ _ hz]
  · intro hz
    rw [del_of_zero hz hr]
    exact ⟨rfl, rfl, rfl⟩

/-- A shard with an empty ring and an empty index satisfies the invariant. -/
theorem ShardInv_initShard (config : Config) (redis : redisCache)
    (h : config.InitEntrySize.toNat ≤ 4294967296) : ShardInv (initShard config redis) [] := by
  refine ⟨QInv_NewByteQueue _ _ h, by simp, ?_⟩
  intro hash hh
  exact absurd rfl hh

/-- The first successful `set` on a shard with an empty ring: the ring holds the new record
alone and the index holds its handle alone. -/
theorem set_on_empty {s s' : shard} {key : List Byte} {hash : Nat} {value : List Byte}
    {ttl now : Int} (hs : ShardInv s []) (hm : s.marker = [])
    (h : s.set key hash value ttl now = (s', none))
    (hcap : s'.entries.capacity ≤ 4294967296) :
    ShardInv s' [(s'.marker.get hash,
        (wrapEntry (exp now ttl) hash (ChecksumIEEE key) value s.buffer).1)]
      ∧ s'.marker = [(hash, s'.marker.get hash)] := by
  obtain ⟨popped, rest, es', r1, r2, r3, r4, _⟩ := set_ok hs h hcap
  have hp : popped = [] ∧ rest = [] := by
    simp only [List.map_nil] at r1
    exact List.append_eq_nil.1 r1.symm
  obtain ⟨hp1, hp2⟩ := hp
  subst hp1; subst hp2
  have hes : es' = [(s'.marker.get hash,
      (wrapEntry (exp now ttl) hash (ChecksumIEEE key) value s.buffer).1)] := by
    rcases r3 with r3 | ⟨es1, es2, i, n, h0, h1, _⟩
    · exact r3
    · have := (List.append_eq_nil.1 h0.symm).1
      exact absurd this h1
  subst hes
  have hmk : s'.marker = [(hash, s'.marker.get hash)] := by
    rw [hm] at r4
    exact r4
  refine ⟨⟨r2, ?_, ?_⟩, hmk⟩
  · intro e he
    rw [List.mem_singleton] at he
    rw [he]
    simp only
    rw [wrapEntry_length]
    omega
  · intro h' hh'
    by_cases c : h' = hash
    · subst c
      exact ⟨_, List.mem_singleton.2 rfl⟩
    · rw [hmk, Marker.get_cons, if_neg (by simp only; omega)] at hh'
      exact absurd rfl hh'

/-- C4 (as the code has it). Collision handling on a fresh shard whose ring stays within
`2^32` bytes: after `set(k1, h, v1)` and `set(k2, h, v2)` succeed for two keys with the same
fingerprint and different CRC-32 checksums, `get(k1, h)` returns `errKeyNotFound`, never `v2`,
and counts one collision, while `get(k2, h)` returns `v2` as long as the second record has
not expired, and `errEntryIsDead` once it has. -/
theorem C4_collision (config : Config) (redis : redisCache) (k1 k2 : List Byte) (hash : Nat)
    (v1 v2 : List Byte) (ttl1 ttl2 t1 t2 now : Int) (s1 s2 : shard)
    (hinit : config.InitEntrySize.toNat ≤ 4294967296)
    (hcrc : ChecksumIEEE k1 ≠ ChecksumIEEE k2)
    (hset1 : (initShard config redis).set k1 hash v1 ttl1 t1 = (s1, none))
    (hset2 : s1.set k2 hash v2 ttl2 t2 = (s2, none))
    (hcap : s2.entries.capacity ≤ 4294967296)
    (hr1 : -9223372036854775808 ≤ exp t2 ttl2) (hr2 : exp t2 ttl2 < 9223372036854775808) :
    (s2.get k1 hash now).2 = .error .errKeyNotFound
      ∧ (s2.get k1 hash now).1.stats.Collision = s2.stats.Collision + 1
      ∧ (s2.get k1 hash now).1.stats = { s2.stats with Collision := s2.stats.Collision + 1 }
      ∧ ((exp t2 ttl2 = 0 ∨ epoch now ≤ exp t2 ttl2) → (s2.get k2 hash now).2 = .ok v2)
      ∧ (exp t2 ttl2 ≠ 0 ∧ epoch now > exp t2 ttl2 →
          (s2.get k2 hash now).2 = .error .errEntryIsDead) := by
  have hs0 := ShardInv_initShard config redis hinit
  have hcap1 : s1.entries.capacity ≤ 4294967296 := Nat.le_trans (set_fields hset2).1 hcap
  have hs1 := (set_on_empty hs0 rfl hset1 hcap1).1
  have hg1 := get_after_set hs1 hset2 hcap hr1 hr2 k1 now
  have hg2 := get_after_set hs1 hset2 hcap hr1 hr2 k2 now
  rw [if_pos (Ne.symm hcrc)] at hg1
  have hnx : (exp t2 ttl2 = 0 ∨ epoch now ≤ exp t2 ttl2) →
      ¬ (exp t2 ttl2 ≠ 0 ∧ epoch now > exp t2 ttl2) := by
    rintro hlive ⟨a, b⟩
    rcases hlive with hl | hl
    · exact a hl
    · omega
  rw [if_neg (fun hc => hc rfl)] at hg2
  rw [hg1, hg2]
  exact ⟨rfl, rfl, rfl, fun hlive => by rw [if_neg (hnx hlive)],
    fun hdead => by rw [if_pos hdead]⟩

/-- C5 (as the code has it). Expiration has the granularity of the Unix second and the
expiration second `0` means "never": in every shard state whose index handles address records
stored in the ring, after `set(k, h, v, ttl)` succeeded at clock `t0` with the ring within
`2^32` bytes and the expiration second within the range of an `int64`, a
`get(k, h)` at clock `t1` returns `errEntryIsDead` exactly when the stored expiration
`exp t0 ttl` is non-zero and the Unix second of `t1` is greater than it, and returns the
payload otherwise.  In particular it returns `errEntryIsDead` when `ttl > 0`, the expiration
`t0 + ttl` is at least one second after the epoch and `t1 - t0 >= ttl + 1 s`. -/
theorem C5_expiration (s s' : shard) (es : List (Nat × List Byte)) (key : List Byte)
    (hash : Nat) (value : List Byte) (ttl t0 t1 : Int) (hs : ShardInv s es)
    (hset : s.set key hash value ttl t0 = (s', none))
    (hcap : s'.entries.capacity ≤ 4294967296)
    (hr1 : -9223372036854775808 ≤ exp t0 ttl) (hr2 : exp t0 ttl < 9223372036854775808) :
    (exp t0 ttl ≠ 0 ∧ epoch t1 > exp t0 ttl → (s'.get key hash t1).2 = .error .errEntryIsDead)
    ∧ (¬ (exp t0 ttl ≠ 0 ∧ epoch t1 > exp t0 ttl) → (s'.get key hash t1).2 = .ok value)
    ∧ (0 < ttl → 1000000000 ≤ t0 + ttl → t0 + ttl + 1000000000 ≤ t1 →
        (s'.get key hash t1).2 = .error .errEntryIsDead) := by
  have hg := get_after_set hs hset hcap hr1 hr2 key t1
  rw [if_neg (fun hc => hc rfl)] at hg
  refine ⟨?_, ?_, ?_⟩
  · intro hx
    rw [hg, if_pos hx]
  · intro hx
    rw [hg, if_neg hx]
  · intro h1 h2 h3
    have hx : exp t0 ttl ≠ 0 ∧ epoch t1 > exp t0 ttl := by
      unfold exp epoch
      rw [if_pos (by omega)]
      omega
    rw [hg, if_pos hx]

/-! ### Stored entries; zero time-to-live -/

theorem drain_eq {q : ByteQueue} {es : List (Nat × List Byte)} (hq : QInv q es)
    (hne : ∀ e ∈ es, e.2 ≠ []) : ByteQueue.drain es.length q = es := by
  induction es generalizing q with
  | nil => rfl
  | cons e es ih =>
    obtain ⟨q', hp⟩ := Pop_succeeds hq (hne e (List.mem_cons_self _ _))
    obtain ⟨es', h1, h2, _⟩ := Pop_ok hq hp
    injection h1 with h1 h3
    subst h3
    rw [List.length_cons, ByteQueue.drain, hp]
    dsimp only
    rw [ih h2 (fun x hx => hne x (List.mem_cons_of_mem _ hx))]
    rw [← h1]

theorem stored_eq {q : ByteQueue} {es : List (Nat × List Byte)} (hq : QInv q es)
    (hne : ∀ e ∈ es, e.2 ≠ []) : q.stored = es := by
  unfold ByteQueue.stored
  rw [(QInv_capacity hq).2.2]
  exact drain_eq hq hne

theorem sum64_lt (key : List Byte) : sum64 key < 18446744073709551616 := by
  unfold sum64
  generalize hoff : offset64 = a
  have ha : a < 18446744073709551616 := by rw [← hoff]; decide
  clear hoff
  induction key generalizing a with
  | nil => exact ha
  | cons b bs ih =>
    rw [List.foldl_cons]
    exact ih _ (Nat.mod_lt _ (by decide))

/-- `Set` is `set` on the shard of the key, with the default time-to-live. -/
theorem Set_eq (t : TipTop) (key value : List Byte) (now : Int) :
    t.Set key value now =
      (t.putShard (sum64 key)
          ((t.getShard (sum64 key)).set key (sum64 key) value t.config.DefaultTTL now).1,
        ((t.getShard (sum64 key)).set key (sum64 key) value t.config.DefaultTTL now).2) := rfl

theorem Get_eq_get (t : TipTop) (key : List Byte) (now : Int) :
    (t.Get key now).2 = ((t.getShard (sum64 key)).get key (sum64 key) now).2 := rfl

/-- C6 (as the code has it). A time-to-live of zero means no expiration.  In every shard
state whose index handles address records stored in the ring, after `set(k, h, v, ttl = 0)`
succeeded with the ring within `2^32` bytes, the expiration field of the stored record is `0`
and `get(k, h)` returns `v` at every clock value; the same holds for `Set` on a cache whose
`DefaultTTL` is `0`, for a key whose shard is in such a state. -/
theorem C6_zero_ttl_never_expires :
    (∀ (s s' : shard) (es : List (Nat × List Byte)) (key : List Byte) (hash : Nat)
        (value : List Byte) (now : Int),
        ShardInv s es → s.set key hash value 0 now = (s', none) →
        s'.entries.capacity ≤ 4294967296 →
        (∃ w, s'.entries.Get (s'.marker.get hash) = .ok w ∧ readTimestampFromEntry w = 0)
          ∧ ∀ now', (s'.get key hash now').2 = .ok value)
    ∧ (∀ (t t' : TipTop) (es : List (Nat × List Byte)) (key value : List Byte) (now : Int),
        t.config.DefaultTTL = 0 → t.shardIndex (sum64 key) < t.shards.length →
        ShardInv (t.getShard (sum64 key)) es → t.Set key value now = (t', none) →
        (t'.getShard (sum64 key)).entries.capacity ≤ 4294967296 →
        (∃ w, (t'.getShard (sum64 key)).entries.Get
              ((t'.getShard (sum64 key)).marker.get (sum64 key)) = .ok w
            ∧ readTimestampFromEntry w = 0)
          ∧ ∀ now', (t'.Get key now').2 = .ok value) := by
  have main : ∀ (s s' : shard) (es : List (Nat × List Byte)) (key : List Byte) (hash : Nat)
      (value : List Byte) (now : Int),
      ShardInv s es → s.set key hash value 0 now = (s', none) →
      s'.entries.capacity ≤ 4294967296 →
      (∃ w, s'.entries.Get (s'.marker.get hash) = .ok w ∧ readTimestampFromEntry w = 0)
        ∧ ∀ now', (s'.get key hash now').2 = .ok value := by
    intro s s' es key hash value now hs hset hcap
    constructor
    · obtain ⟨popped, rest, es', _, r2, r3, _⟩ := set_ok hs hset hcap
      refine ⟨_, Get_eq_of_ne_nil r2 (Pushed_mem r3) (wrapEntry_ne_nil _ _ _ _ _), ?_⟩
      rw [readTimestamp_wrapEntry _ _ _ _ _ (by rw [exp_zero]; decide)
        (by rw [exp_zero]; decide), exp_zero]
    · intro now'
      rw [get_after_set hs hset hcap (by rw [exp_zero]; decide) (by rw [exp_zero]; decide)
        key now', exp_zero]
      simp
  refine ⟨main, ?_⟩
  intro t t' es key value now httl hidx hs hset hcap
  rw [Set_eq, httl] at hset
  injection hset with h1 h2
  subst h1
  rw [getShard_putShard _ _ _ hidx] at hcap ⊢
  have := main _ _ es key (sum64 key) value now hs (Prod.ext rfl h2) hcap
  refine ⟨this.1, fun now' => ?_⟩
  rw [Get_eq_get, getShard_putShard _ _ _ hidx]
  exact this.2 now'

/-! ### Overwrite -/

theorem Marker.delete_keys (m : Marker) (h x : Nat) (hk : ∀ e ∈ m, e.1 = h) :
    ∀ e ∈ m.delete x, e.1 = h := by
  intro e he
  unfold Marker.delete at he
  exact hk e (List.mem_filter.1 he).1

theorem evictAll_keys (m : Marker) (h : Nat) (popped : List (Nat × List Byte))
    (hk : ∀ e ∈ m, e.1 = h) : ∀ e ∈ evictAll m popped, e.1 = h := by
  induction popped generalizing m with
  | nil => exact hk
  | cons p ps ih =>
    rw [evictAll_cons]
    exact ih _ (Marker.delete_keys m h _ hk)

theorem Marker.delete_all (m : Marker) (h : Nat) (hk : ∀ e ∈ m, e.1 = h) : m.delete h = [] := by
  unfold Marker.delete
  rw [List.filter_eq_nil_iff]
  intro e he
  simp [hk e he]

/-- Two successful `set`s of one fingerprint on a shard that starts empty: the index holds the
second handle alone, and the ring holds the second record, preceded by the tombstoned first
record unless that one was evicted. -/
theorem set_twice_on_empty {s0 s1 s2 : shard} {k1 k2 : List Byte} {hash : Nat}
    {v1 v2 : List Byte} {ttl1 ttl2 t1 t2 : Int} (hs : ShardInv s0 []) (hm : s0.marker = [])
    (h1 : s0.set k1 hash v1 ttl1 t1 = (s1, none)) (h2 : s1.set k2 hash v2 ttl2 t2 = (s2, none))
    (hcap : s2.entries.capacity ≤ 4294967296) :
    ∃ es, QInv s2.entries es ∧ s2.marker = [(hash, s2.marker.get hash)]
      ∧ (es = [(s2.marker.get hash,
            (wrapEntry (exp t2 ttl2) hash (ChecksumIEEE k2) v2 s1.buffer).1)]
        ∨ es = [(s1.marker.get hash, resetKeyFromEntry
              (wrapEntry (exp t1 ttl1) hash (ChecksumIEEE k1) v1 s0.buffer).1),
            (s2.marker.get hash,
              (wrapEntry (exp t2 ttl2) hash (ChecksumIEEE k2) v2 s1.buffer).1)]) := by
  have hcap1 : s1.entries.capacity ≤ 4294967296 := Nat.le_trans (set_fields h2).1 hcap
  obtain ⟨hs1, hm1⟩ := set_on_empty hs hm h1 hcap1
  obtain ⟨popped, rest, es', r1, r2, r3, r4, _⟩ := set_ok hs1 h2 hcap
  have ht : tomb (s1.marker.get hash) (s1.marker.get hash,
      (wrapEntry (exp t1 ttl1) hash (ChecksumIEEE k1) v1 s0.buffer).1)
      = (s1.marker.get hash, resetKeyFromEntry
        (wrapEntry (exp t1 ttl1) hash (ChecksumIEEE k1) v1 s0.buffer).1) := by
    unfold tomb
    rw [if_pos rfl]
  rw [List.map_cons, List.map_nil, ht] at r1
  have hkeys : ∀ e ∈ s1.marker, e.1 = hash := by
    intro e he
    rw [hm1, List.mem_singleton] at he
    rw [he]
  have hmk : s2.marker = [(hash, s2.marker.get hash)] := by
    rw [r4]
    unfold Marker.put
    rw [Marker.delete_all _ hash (evictAll_keys _ hash popped hkeys), Marker.get_cons,
      if_pos rfl]
  refine ⟨es', r2, hmk, ?_⟩
  cases popped with
  | nil =>
    rw [List.nil_append] at r1
    subst r1
    right
    rcases r3 with r3 | ⟨es1, es2, i, n, h0, hn1, hn2, _⟩
    · exact r3
    · exfalso
      have hl := congrArg List.length h0
      rw [List.length_append, List.length_cons, List.length_nil] at hl
      have := List.length_pos.2 hn1
      have := List.length_pos.2 hn2
      omega
  | cons p ps =>
    have hl := congrArg List.length r1
    rw [List.length_append, List.length_cons, List.length_cons, List.length_nil] at hl
    have hrest : rest = [] := List.length_eq_zero.1 (by omega)
    subst hrest
    left
    rcases r3 with r3 | ⟨es1, es2, i, n, h0, hn1, _⟩
    · exact r3
    · exact absurd (List.append_eq_nil.1 h0.symm).1 hn1

theorem initShard_len (config : Config) (redis : redisCache) :
    (initShard config redis).len = 0 := rfl

/-- C2 (as the code has it). Overwrite on a fresh cache whose rings stay within `2^32` bytes:
after `Set(k, v1)` and `Set(k, v2)` both succeed, `Get(k)` returns `v2` as long as the second
record has not expired, `Len()` is `1`, the index of the shard holds the handle of the second
record alone, and every other record stored in the ring has its fingerprint field reset to
`0`; when the fingerprint of `k` is not `0`, exactly one stored record carries it. -/
theorem C2_overwrite (config : Config) (redis : redisCache) (t0 t1 t2 : TipTop)
    (key v1 v2 : List Byte) (now1 now2 now3 : Int)
    (hnew : NewTipTop config redis = .ok t0)
    (hinit : config.InitEntrySize.toNat ≤ 4294967296)
    (hset1 : t0.Set key v1 now1 = (t1, none)) (hset2 : t1.Set key v2 now2 = (t2, none))
    (hcap : (t2.getShard (sum64 key)).entries.capacity ≤ 4294967296)
    (hr1 : -9223372036854775808 ≤ exp now2 t0.config.DefaultTTL)
    (hr2 : exp now2 t0.config.DefaultTTL < 9223372036854775808) :
    ((exp now2 t0.config.DefaultTTL = 0 ∨ epoch now3 ≤ exp now2 t0.config.DefaultTTL) →
        (t2.Get key now3).2 = .ok v2)
      ∧ t2.Len = 1
      ∧ (∃ idx w, (t2.getShard (sum64 key)).marker = [(sum64 key, idx)]
          ∧ (idx, w) ∈ (t2.getShard (sum64 key)).entries.stored
          ∧ readHashFromEntry w = sum64 key ∧ readEntry w = v2
          ∧ ∀ e ∈ (t2.getShard (sum64 key)).entries.stored, e ≠ (idx, w) →
              readHashFromEntry e.2 = 0)
      ∧ (sum64 key ≠ 0 →
          ((t2.getShard (sum64 key)).entries.stored.filter
            fun e => readHashFromEntry e.2 == sum64 key).length = 1) := by
  obtain ⟨c, k, hc, hk, hsh, hmask, hcfg⟩ := NewTipTop_ok hnew
  have hci := (implementConfig_ok hc).2.1
  have hlen : t0.shards.length = 2 ^ k := by rw [hsh, List.length_replicate]
  have hidx0 := shardIndex_lt hlen hmask (sum64 key)
  have hg0 : t0.getShard (sum64 key) = initShard c redis :=
    getShard_replicate t0 _ _ _ hsh hidx0
  rw [Set_eq, hg0] at hset1
  injection hset1 with e1 e2
  subst e1
  have hidx1 : (t0.putShard (sum64 key)
      ((initShard c redis).set key (sum64 key) v1 t0.config.DefaultTTL now1).1).shardIndex
        (sum64 key) < (t0.putShard (sum64 key)
      ((initShard c redis).set key (sum64 key) v1 t0.config.DefaultTTL now1).1).shards.length := by
    unfold TipTop.putShard TipTop.shardIndex
    dsimp only
    rw [List.length_set]
    exact hidx0
  rw [Set_eq, getShard_putShard _ _ _ hidx0] at hset2
  injection hset2 with e3 e4
  subst e3
  rw [putShard_putShard] at hcap ⊢
  rw [getShard_putShard _ _ _ hidx0] at hcap ⊢
  rw [Get_eq_get, getShard_putShard _ _ _ hidx0]
  have hcfg1 : (t0.putShard (sum64 key)
      ((initShard c redis).set key (sum64 key) v1 t0.config.DefaultTTL now1).1).config
      = t0.config := rfl
  rw [hcfg1] at e4 hcap ⊢
  generalize hs1 : ((initShard c redis).set key (sum64 key) v1 t0.config.DefaultTTL now1).1
    = s1 at *
  generalize hs2 : (s1.set key (sum64 key) v2 t0.config.DefaultTTL now2).1 = s2 at *
  have hset1 : (initShard c redis).set key (sum64 key) v1 t0.config.DefaultTTL now1
      = (s1, none) := Prod.ext hs1 e2
  have hset2 : s1.set key (sum64 key) v2 t0.config.DefaultTTL now2 = (s2, none) :=
    Prod.ext hs2 e4
  have hinv0 := ShardInv_initShard c redis (by rw [hci]; exact hinit)
  have hcap1 : s1.entries.capacity ≤ 4294967296 := Nat.le_trans (set_fields hset2).1 hcap
  have hinv1 := (set_on_empty hinv0 rfl hset1 hcap1).1
  obtain ⟨es, q1, q2, q3⟩ := set_twice_on_empty hinv0 rfl hset1 hset2 hcap
  have hget := get_after_set hinv1 hset2 hcap hr1 hr2 key now3
  have hnx : (exp now2 t0.config.DefaultTTL = 0
        ∨ epoch now3 ≤ exp now2 t0.config.DefaultTTL) →
      ¬ (exp now2 t0.config.DefaultTTL ≠ 0 ∧ epoch now3 > exp now2 t0.config.DefaultTTL) := by
    rintro hlive ⟨a, b⟩
    rcases hlive with hl | hl
    · exact a hl
    · omega
  rw [if_neg (fun hc => hc rfl)] at hget
  have hw2 : readHashFromEntry (wrapEntry (exp now2 t0.config.DefaultTTL) (sum64 key)
      (ChecksumIEEE key) v2 s1.buffer).1 = sum64 key := by
    rw [readHash_wrapEntry, Nat.mod_eq_of_lt (sum64_lt key)]
  have hw1 : readHashFromEntry (resetKeyFromEntry (wrapEntry (exp now1 t0.config.DefaultTTL)
      (sum64 key) (ChecksumIEEE key) v1 (initShard c redis).buffer).1) = 0 :=
    readHash_resetKey _ (by rw [wrapEntry_length]; omega)
  have hw2e : readEntry (wrapEntry (exp now2 t0.config.DefaultTTL) (sum64 key)
      (ChecksumIEEE key) v2 s1.buffer).1 = v2 := readEntry_wrapEntry _ _ _ _ _
  have hw2n : (wrapEntry (exp now2 t0.config.DefaultTTL) (sum64 key)
      (ChecksumIEEE key) v2 s1.buffer).1 ≠ [] := wrapEntry_ne_nil _ _ _ _ _
  have hw1n : resetKeyFromEntry (wrapEntry (exp now1 t0.config.DefaultTTL)
      (sum64 key) (ChecksumIEEE key) v1 (initShard c redis).buffer).1 ≠ [] := by
    intro hc
    have := congrArg List.length hc
    rw [resetKeyFromEntry_length, wrapEntry_length] at this
    simp at this
  generalize (wrapEntry (exp now2 t0.config.DefaultTTL) (sum64 key)
      (ChecksumIEEE key) v2 s1.buffer).1 = W2 at q3 hw2 hw2e hw2n
  generalize resetKeyFromEntry (wrapEntry (exp now1 t0.config.DefaultTTL)
      (sum64 key) (ChecksumIEEE key) v1 (initShard c redis).buffer).1 = R1 at q3 hw1 hw1n
  generalize s1.marker.get (sum64 key) = i1 at q3
  generalize hi2 : s2.marker.get (sum64 key) = i2 at q2 q3
  have hne : ∀ e ∈ es, e.2 ≠ [] := by
    intro e he
    rcases q3 with q3 | q3
    · rw [q3, List.mem_singleton] at he
      rw [he]; exact hw2n
    · rw [q3] at he
      simp only [List.mem_cons, List.mem_singleton, List.not_mem_nil, or_false] at he
      rcases he with he | he
      · rw [he]; exact hw1n
      · rw [he]; exact hw2n
  have hst := stored_eq q1 hne
  refine ⟨fun hlive => by rw [hget, if_neg (hnx hlive)], ?_, ?_, ?_⟩
  · rw [Len_putShard _ _ _ hidx0 (by
      intro x hx
      rw [hsh] at hx
      rw [List.eq_of_mem_replicate hx]
      rfl)]
    show s2.marker.length = 1
    rw [q2]; rfl
  · refine ⟨i2, W2, q2, ?_, hw2, hw2e, ?_⟩
    · rw [hst]
      rcases q3 with q3 | q3 <;> (rw [q3]; simp)
    · intro e he hne'
      rw [hst] at he
      rcases q3 with q3 | q3
      · rw [q3, List.mem_singleton] at he
        exact absurd he hne'
      · rw [q3] at he
        simp only [List.mem_cons, List.mem_singleton, List.not_mem_nil, or_false] at he
        rcases he with he | he
        · rw [he]; exact hw1
        · exact absurd he hne'
  · intro hnz
    rw [hst]
    rcases q3 with q3 | q3
    · rw [q3, List.filter_cons]
      simp only [hw2, beq_self_eq_true, if_true, List.filter_nil, List.length_singleton]
    · rw [q3, List.filter_cons, List.filter_cons]
      have hb : (readHashFromEntry R1 == sum64 key) = false := by
        rw [hw1]
        simp only [beq_eq_false_iff_ne, ne_eq]
        omega
      simp only [hb, hw2, beq_self_eq_true, if_true, List.filter_nil, List.length_singleton,
        Bool.false_eq_true, if_false]

/-! ### The size of the ring -/

theorem Seg_size {arr : List Byte} {es : List (Nat × List Byte)} {s t : Nat}
    (h : Seg arr s t es) : t = s + ringSize es := by
  induction es generalizing s with
  | nil => exact h.symm
  | cons e es ih =>
    obtain ⟨_, _, _, h4⟩ := h
    have := ih h4
    unfold ringSize at this ⊢
    rw [List.map_cons, List.sum_cons]
    simp only [headerEntrySize] at this
    omega

theorem ringSize_append (a b : List (Nat × List Byte)) : ringSize (a ++ b) = ringSize a + ringSize b := by
  unfold ringSize
  rw [List.map_append, List.sum_append]

/-- The stored entries fit the array behind the left margin. -/
theorem QInv_size {q : ByteQueue} {es : List (Nat × List Byte)} (hq : QInv q es)
    (hne : es ≠ []) : ringSize es + 1 ≤ q.capacity := by
  rcases hq with hq | ⟨es1, es2, rfl, hq⟩
  · obtain ⟨h1, h2, h3, h4, h5, h6, h7, h8, h9⟩ := hq
    have := Seg_size h9
    have := Seg_bound h9 hne
    omega
  · obtain ⟨h1, h2, h3, h4, h5, h6, h7, h8, h9⟩ := hq
    have := Seg_size h8
    have := Seg_size h9
    simp only [leftMarginIndex] at this
    rw [ringSize_append]
    omega

/-- `Push` succeeds on an empty queue whose array can hold the entry. -/
theorem Push_empty {q : ByteQueue} (hq : QInv q []) (data : List Byte)
    (hfit : data.length + 5 ≤ q.capacity) : ∃ q', q.Push data = (q', .ok 1) := by
  rcases hq with hq | ⟨es1, es2, he, hq⟩
  · obtain ⟨h1, h2, h3, h4, h5, h6, h7, h8, h9⟩ := hq
    have ht : q.head = q.tail := h9
    have hh : q.head = 1 := h8 ht
    unfold ByteQueue.Push
    dsimp only
    have : ¬ q.availableSpaceAfterTail < ((data.length + headerEntrySize : Nat) : Int) := by
      unfold ByteQueue.availableSpaceAfterTail
      rw [if_pos (by omega)]
      simp only [headerEntrySize]
      omega
    rw [if_neg this]
    exact ⟨_, by rw [← ht, hh]⟩
  · exfalso
    have := (List.append_eq_nil.1 he.symm).1
    subst this
    have h8 : q.head = q.rightMargin := hq.2.2.2.2.2.2.2.1
    have := hq.2.2.2.2.2.1
    omega

theorem removeOldest_of_Pop {s : shard} {q : ByteQueue} {d : List Byte} (now : Int)
    (h : s.entries.Pop = (q, .ok d)) :
    ∃ s1, s.removeOldest now = (s1, none) ∧ s1.entries = q ∧ s1.onRemove = s.onRemove := by
  unfold shard.removeOldest
  rw [h]
  dsimp only
  split
  · exact ⟨_, rfl, rfl, rfl⟩
  · exact ⟨_, rfl, rfl, rfl⟩

/-- With eviction allowed, the loop of `set` succeeds on a ring that holds at most one entry
and can hold the record. -/
theorem setLoop_succeeds {s : shard} {es : List (Nat × List Byte)} (hq : QInv s.entries es)
    (hl : es.length ≤ 1) (hne : ∀ e ∈ es, e.2 ≠ []) (hr : s.onRemove = true) (hash : Nat)
    (w : List Byte) (now : Int) (hfit : w.length + 5 ≤ s.entries.capacity) :
    ∃ s', shard.setLoop (s.entries.count + 1) s hash w now = some (s', none) := by
  have hcount := (QInv_capacity hq).2.2
  cases hp : s.entries.Push w with
  | mk q r =>
    cases r with
    | ok idx =>
      unfold shard.setLoop
      rw [hp]
      exact ⟨_, rfl⟩
    | error e =>
      cases es with
      | nil =>
        obtain ⟨q', hq'⟩ := Push_empty hq w hfit
        rw [hq'] at hp
        cases hp
      | cons e0 es0 =>
        have hes0 : es0 = [] := List.length_eq_zero.1 (by
          rw [List.length_cons] at hl; omega)
        subst hes0
        obtain ⟨q1, hpop⟩ := Pop_succeeds hq (hne e0 (List.mem_cons_self _ _))
        obtain ⟨es', h1, h2, h3, _⟩ := Pop_ok hq hpop
        injection h1 with _ h1
        subst h1
        obtain ⟨s1, hs1, hs1e, hs1r⟩ := removeOldest_of_Pop now hpop
        rw [← hs1e] at h2 h3
        obtain ⟨q2, hq2⟩ := Push_empty h2 w (by rw [h3]; exact hfit)
        have hc : s.entries.count + 1 = 1 + 1 := by rw [hcount]; rfl
        rw [hc]
        unfold shard.setLoop
        rw [hp]
        dsimp only
        rw [hr]
        simp only [Bool.not_true, Bool.false_eq_true, if_false]
        rw [hs1]
        dsimp only
        unfold shard.setLoop
        rw [hq2]
        exact ⟨_, rfl⟩

/-! ### The shard with a 64-byte ring -/

theorem ringSize_singleton (i : Nat) (d : List Byte) : ringSize [(i, d)] = 4 + d.length := by
  unfold ringSize
  simp

theorem slot_of_set {s s' : shard} {es : List (Nat × List Byte)} {key : List Byte} {hash : Nat}
    {value : List Byte} {ttl now : Int} (hs : ShardInv s es) (hl : es.length ≤ 1)
    (h40 : ∀ e ∈ es, e.2.length = 40)
    (hmk : ∀ e ∈ es, s.marker = [(readHashFromEntry e.2, e.1)])
    (hm0 : es = [] → s.marker = [])
    (hc : s.entries.capacity = 64) (hmc : s.entries.maxCapacity = 64) (hr : s.onRemove = true)
    (hv : value.length = 20) (hh : hash < 18446744073709551616)
    (h : s.set key hash value ttl now = (s', none)) :
    Slot s' hash (wrapEntry (exp now ttl) hash (ChecksumIEEE key) value s.buffer).1 := by
  obtain ⟨f1, f2, f3, _, _, f6⟩ := set_fields h
  have hcap' : s'.entries.capacity = 64 := by
    have := f6 (by omega)
    rw [hc, hmc] at this
    simp at this
    omega
  obtain ⟨popped, rest, es', r1, r2, r3, r4, _⟩ := set_ok hs h (by omega)
  have hwl := wrapEntry_length (exp now ttl) hash (ChecksumIEEE key) value s.buffer
  have hwh : readHashFromEntry (wrapEntry (exp now ttl) hash (ChecksumIEEE key) value
      s.buffer).1 = hash := by
    rw [readHash_wrapEntry, Nat.mod_eq_of_lt hh]
  generalize (wrapEntry (exp now ttl) hash (ChecksumIEEE key) value s.buffer).1 = W
    at r3 hwl hwh ⊢
  have hne' : es' ≠ [] := List.ne_nil_of_mem (Pushed_mem r3)
  have hsize := QInv_size r2 hne'
  rw [hcap'] at hsize
  have hlen1 : (popped ++ rest).length ≤ 1 := by rw [← r1, List.length_map]; exact hl
  have hrest40 : ∀ e ∈ rest, e.2.length = 40 := by
    intro e he
    have : e ∈ es.map (tomb (s.marker.get hash)) := by
      rw [r1]; exact List.mem_append_right _ he
    obtain ⟨e0, he0, rfl⟩ := List.mem_map.1 this
    rw [tomb_length]
    exact h40 e0 he0
  have hrest : rest = [] := by
    cases rest with
    | nil => rfl
    | cons e rs =>
      exfalso
      have he40 := hrest40 e (List.mem_cons_self _ _)
      rcases r3 with r3 | ⟨es1, es2, i, n, h0, hn1, hn2, _⟩
      · rw [r3, ringSize_append, ringSize_singleton] at hsize
        have : 4 + e.2.length ≤ ringSize (e :: rs) := by
          unfold ringSize
          rw [List.map_cons, List.sum_cons]
          omega
        omega
      · have hl2 := congrArg List.length h0
        rw [List.length_append] at hl2 hlen1
        have := List.length_pos.2 hn1
        have := List.length_pos.2 hn2
        omega
  subst hrest
  rw [List.append_nil] at r1
  have hes' : es' = [(s'.marker.get hash, W)] := by
    rcases r3 with r3 | ⟨es1, es2, i, n, h0, hn1, _⟩
    · exact r3
    · exact absurd (List.append_eq_nil.1 h0.symm).1 hn1
  subst hes'
  have hmk' : s'.marker = [(hash, s'.marker.get hash)] := by
    rw [r4]
    unfold Marker.put
    rw [Marker.get_cons, if_pos rfl]
    congr 1
    cases es with
    | nil =>
      rw [hm0 rfl]
      cases popped with
      | nil => rfl
      | cons p ps => cases r1
    | cons e0 es0 =>
      have hes0 : es0 = [] := List.length_eq_zero.1 (by
        rw [List.length_cons] at hl; omega)
      subst hes0
      have hm := hmk e0 (List.mem_cons_self _ _)
      rw [List.map_cons, List.map_nil] at r1
      rw [← r1, evictAll_cons]
      show ((s.marker.delete _).delete hash) = []
      by_cases c : hash = readHashFromEntry e0.2
      · apply Marker.delete_all
        apply Marker.delete_keys
        intro e he
        rw [hm, List.mem_singleton] at he
        rw [he, c]
      · have hg : s.marker.get hash = 0 := by
          rw [hm, Marker.get_cons, if_neg (by simp only; omega)]
          rfl
        have h1 := (QInv_mem hs.1 (List.mem_cons_self _ _)).1
        have ht : tomb (s.marker.get hash) e0 = e0 := by
          unfold tomb
          rw [hg, if_neg (by omega)]
        rw [ht, hm]
        have : Marker.delete [(readHashFromEntry e0.2, e0.1)] (readHashFromEntry e0.2) = [] := by
          apply Marker.delete_all
          intro e he
          rw [List.mem_singleton] at he
          rw [he]
        rw [this]
        rfl
  refine ⟨s'.marker.get hash, ⟨r2, ?_, ?_⟩, hmk', hwh, by rw [hwl, hv], hcap',
    by rw [f2, hmc], by rw [f3, hr]⟩
  · intro e he
    rw [List.mem_singleton] at he
    rw [he]
    simp only
    omega
  · intro h' hh'
    by_cases c : h' = hash
    · subst c
      exact ⟨_, List.mem_singleton.2 rfl⟩
    · rw [hmk', Marker.get_cons, if_neg (by simp only; omega)] at hh'
      exact absurd rfl hh'

theorem set_succeeds_small {s : shard} {es : List (Nat × List Byte)} (hs : ShardInv s es)
    (hl : es.length ≤ 1) (hr : s.onRemove = true) (hc : s.entries.capacity = 64)
    (key : List Byte) (hash : Nat) (value : List Byte) (ttl now : Int)
    (hv : value.length = 20) : ∃ s', s.set key hash value ttl now = (s', none) := by
  obtain ⟨p1, p2, _, _, p5, _, p7, _, _⟩ := setPrepare_spec hs key hash value ttl now
  have hne : ∀ e ∈ es.map (tomb (s.marker.get hash)), e.2 ≠ [] := by
    intro e he
    obtain ⟨e0, he0, rfl⟩ := List.mem_map.1 he
    intro hc'
    have h1 := congrArg List.length hc'
    rw [tomb_length, List.length_nil] at h1
    have h2 := hs.2.1 e0 he0
    omega
  obtain ⟨s', hs'⟩ := setLoop_succeeds p1 (by rw [List.length_map]; exact hl) hne
    (by rw [p5]; exact hr) hash (s.setPrepare key hash value ttl now).2 now
    (by rw [p2, wrapEntry_length, p7, hc, hv]; decide)
  have := set_eq_setLoop s key hash value ttl now
  rw [hs'] at this
  injection this with this
  exact ⟨s', this.symm⟩

/-- One `set` of a 20-byte payload on the 64-byte shard: it succeeds, and afterwards the ring
holds the new record alone. -/
theorem slot_step {s : shard} {es : List (Nat × List Byte)} (hs : ShardInv s es)
    (hl : es.length ≤ 1) (h40 : ∀ e ∈ es, e.2.length = 40)
    (hmk : ∀ e ∈ es, s.marker = [(readHashFromEntry e.2, e.1)])
    (hm0 : es = [] → s.marker = [])
    (hc : s.entries.capacity = 64) (hmc : s.entries.maxCapacity = 64) (hr : s.onRemove = true)
    (key : List Byte) (hash : Nat) (value : List Byte) (ttl now : Int)
    (hv : value.length = 20) (hh : hash < 18446744073709551616) :
    ∃ s' w, s.set key hash value ttl now = (s', none) ∧ Slot s' hash w := by
  obtain ⟨s', h⟩ := set_succeeds_small hs hl hr hc key hash value ttl now hv
  exact ⟨s', _, h, slot_of_set hs hl h40 hmk hm0 hc hmc hr hv hh h⟩

theorem slot_next {s : shard} {h0 : Nat} {d0 : List Byte} (hs : Slot s h0 d0)
    (key : List Byte) (hash : Nat) (value : List Byte) (ttl now : Int)
    (hv : value.length = 20) (hh : hash < 18446744073709551616) :
    ∃ s' w, s.set key hash value ttl now = (s', none) ∧ Slot s' hash w := by
  obtain ⟨i0, a1, a2, a3, a4, a5, a6, a7⟩ := hs
  apply slot_step a1 (Nat.le_refl _) ?_ ?_ ?_ a5 a6 a7 key hash value ttl now hv hh
  · intro e he
    rw [List.mem_singleton] at he
    rw [he]; exact a4
  · intro e he
    rw [List.mem_singleton] at he
    rw [he, a2, a3]
  · intro hc
    cases hc

theorem slot_get_other {s : shard} {h0 : Nat} {d0 : List Byte} (hs : Slot s h0 d0)
    (key : List Byte) (hash : Nat) (now : Int) (hne : hash ≠ h0) :
    (s.get key hash now).2 = .error .errKeyNotFound := by
  obtain ⟨i0, _, a2, _⟩ := hs
  rw [get_of_zero]
  rw [a2, Marker.get_cons, if_neg (by simp only; omega)]
  rfl

/-! ### Cap with eviction -/

theorem NewTipTop_capConfig (onRemove : Bool) :
    NewTipTop (capConfig onRemove) { store := [] } = .ok (capCache onRemove) := by
  cases onRemove <;> rfl

theorem single_getShard {t : TipTop} {s : shard} (hs : t.shards = [s]) (hm : t.shardSize = 0)
    (hash : Nat) : t.getShard hash = s := by
  unfold TipTop.getShard TipTop.shardIndex
  rw [hm, Nat.and_zero, hs]
  rfl

theorem single_putShard {t : TipTop} {s : shard} (hs : t.shards = [s]) (hm : t.shardSize = 0)
    (hash : Nat) (s' : shard) : t.putShard hash s' = { t with shards := [s'] } := by
  unfold TipTop.putShard TipTop.shardIndex
  rw [hm, Nat.and_zero, hs]
  rfl

theorem single_Set {t : TipTop} {s s' : shard} (hs : t.shards = [s]) (hm : t.shardSize = 0)
    {key value : List Byte} {now : Int} {r : Option Err}
    (h : s.set key (sum64 key) value t.config.DefaultTTL now = (s', r)) :
    t.Set key value now = ({ t with shards := [s'] }, r) := by
  rw [Set_eq, single_getShard hs hm, single_putShard hs hm, h]

theorem single_Get {t : TipTop} {s : shard} (hs : t.shards = [s]) (hm : t.shardSize = 0)
    (key : List Byte) (now : Int) : (t.Get key now).2 = (s.get key (sum64 key) now).2 := by
  rw [Get_eq_get, single_getShard hs hm]

theorem Slot_inv {s : shard} {h0 : Nat} {d0 : List Byte} (hs : Slot s h0 d0) :
    ∃ es, ShardInv s es ∧ s.entries.capacity = 64 := by
  obtain ⟨i0, a1, _, _, _, a5, _⟩ := hs
  exact ⟨_, a1, a5⟩

/-- C7 (as the code has it). Cap with eviction: on the cache with one shard, a 64-byte ring
capped at 64 bytes and eviction allowed, the three `Set`s of 20-byte payloads under `"k1"`,
`"k2"`, `"k3"` all succeed; a record takes 44 bytes of the 63 usable ones, so every `Set`
evicts the record before it: afterwards `Get("k1")` and `Get("k2")` return `errKeyNotFound`
and `Get("k3")` returns its payload. -/
theorem C7_cap_with_eviction (p1 p2 p3 : List Byte) (n1 n2 n3 n4 : Int)
    (hp1 : p1.length = 20) (hp2 : p2.length = 20) (hp3 : p3.length = 20) :
    ∃ t0 t1 t2 t3, NewTipTop (capConfig true) { store := [] } = .ok t0
      ∧ t0.Set keyK1 p1 n1 = (t1, none) ∧ t1.Set keyK2 p2 n2 = (t2, none)
      ∧ t2.Set keyK3 p3 n3 = (t3, none)
      ∧ (t3.Get keyK1 n4).2 = .error .errKeyNotFound
      ∧ (t3.Get keyK2 n4).2 = .error .errKeyNotFound
      ∧ (t3.Get keyK3 n4).2 = .ok p3 := by
  have hs0 : ShardInv (initShard (capConfig true) { store := [] }) [] :=
    ShardInv_initShard _ _ (by decide)
  obtain ⟨s1, w1, e1, sl1⟩ := slot_step hs0 (by decide) (by simp) (by simp) (fun _ => rfl)
    rfl rfl rfl keyK1 (sum64 keyK1) p1 0 n1 hp1 (sum64_lt _)
  obtain ⟨s2, w2, e2, sl2⟩ := slot_next sl1 keyK2 (sum64 keyK2) p2 0 n2 hp2 (sum64_lt _)
  obtain ⟨s3, w3, e3, sl3⟩ := slot_next sl2 keyK3 (sum64 keyK3) p3 0 n3 hp3 (sum64_lt _)
  obtain ⟨es2, inv2, _⟩ := Slot_inv sl2
  obtain ⟨es3, _, cap3⟩ := Slot_inv sl3
  refine ⟨capCache true, { capCache true with shards := [s1] },
    { capCache true with shards := [s2] }, { capCache true with shards := [s3] },
    NewTipTop_capConfig true, single_Set rfl rfl e1, single_Set rfl rfl e2,
    single_Set rfl rfl e3, ?_, ?_, ?_⟩
  · rw [single_Get rfl rfl]
    exact slot_get_other sl3 _ _ _ (by decide)
  · rw [single_Get rfl rfl]
    exact slot_get_other sl3 _ _ _ (by decide)
  · rw [single_Get rfl rfl]
    rw [get_after_set inv2 e3 (by rw [cap3]; decide) (by rw [exp_zero]; decide)
      (by rw [exp_zero]; decide) keyK3 n4, exp_zero]
    simp

/-! ### Reachable states -/

theorem sameSetup_refl (s : shard) : sameSetup s s := ⟨rfl, rfl, rfl⟩

theorem sameSetup_trans {a b c : shard} (h1 : sameSetup a b) (h2 : sameSetup b c) :
    sameSetup a c :=
  ⟨h2.1.trans h1.1, h2.2.1.trans h1.2.1, h2.2.2.trans h1.2.2⟩

theorem getWrappedEntry_fields (s : shard) (hash : Nat) :
    (s.getWrappedEntry hash).1.marker = s.marker
      ∧ (s.getWrappedEntry hash).1.entries = s.entries
      ∧ (s.getWrappedEntry hash).1.onRemove = s.onRemove
      ∧ (s.getWrappedEntry hash).1.redisEnable = s.redisEnable := by
  unfold shard.getWrappedEntry
  dsimp only
  split
  · exact ⟨rfl, rfl, rfl, rfl⟩
  · split
    · split
      · split <;> exact ⟨rfl, rfl, rfl, rfl⟩
      · exact ⟨rfl, rfl, rfl, rfl⟩
    · exact ⟨rfl, rfl, rfl, rfl⟩

/-- `get` changes the statistics only. -/
theorem get_fields (s : shard) (key : List Byte) (hash : Nat) (now : Int) :
    (s.get key hash now).1.marker = s.marker ∧ (s.get key hash now).1.entries = s.entries
      ∧ (s.get key hash now).1.onRemove = s.onRemove
      ∧ (s.get key hash now).1.redisEnable = s.redisEnable := by
  have h := getWrappedEntry_fields s hash
  unfold shard.get
  split
  · rename_i s1 err heq
    rw [heq] at h
    exact h
  · rename_i s1 w heq
    rw [heq] at h
    dsimp only at h ⊢
    split
    · exact h
    · split
      · exact h
      · exact h

theorem Marker.get_of_mem (m : Marker) (hw : m.WF) {k v : Nat} (h : (k, v) ∈ m) :
    m.get k = v := by
  induction m with
  | nil => cases h
  | cons e m ih =>
    have hnd : e.1 ∉ m.map Prod.fst ∧ (m.map Prod.fst).Nodup := List.nodup_cons.1 hw
    rw [Marker.get_cons]
    rcases List.mem_cons.1 h with h | h
    · rw [← h, if_pos rfl]
    · have : e.1 ≠ k := by
        intro hc
        apply hnd.1
        rw [hc]
        exact List.mem_map_of_mem Prod.fst h
      rw [if_neg this]
      exact ih hnd.2 h

theorem Stored_map_tomb {es : List (Nat × List Byte)} {v : Nat} (i : Nat) (h : Stored es v) :
    Stored (es.map (tomb i)) v := by
  obtain ⟨d, hd⟩ := h
  have := List.mem_map_of_mem (tomb i) hd
  have h1 : tomb i (v, d) = (v, (tomb i (v, d)).2) := by
    apply Prod.ext
    · exact tomb_fst i (v, d)
    · rfl
  rw [h1] at this
  exact ⟨_, this⟩

theorem ShardInv_tomb {s : shard} {es : List (Nat × List Byte)} (hs : ShardInv s es)
    {i : Nat} {d : List Byte} (he : (i, d) ∈ es) (m : Marker)
    (hm : ∀ h, m.get h ≠ 0 → m.get h = s.marker.get h) :
    ShardInv (({ s with marker := m }).tombstone i d) (es.map (tomb i)) := by
  obtain ⟨hq, hlen, hmk⟩ := hs
  refine ⟨QInv_tomb hq he, ?_, ?_⟩
  · intro e he'
    obtain ⟨e0, he0, rfl⟩ := List.mem_map.1 he'
    rw [tomb_length]
    exact hlen e0 he0
  · intro h hh
    have hh' : m.get h ≠ 0 := hh
    have := hmk h (by rw [← hm h hh']; exact hh')
    rw [← hm h hh'] at this
    exact Stored_map_tomb i this

theorem ShardInv_stats {s : shard} {es : List (Nat × List Byte)} (hs : ShardInv s es)
    (s' : shard) (h1 : s'.marker = s.marker) (h2 : s'.entries = s.entries) :
    ShardInv s' es := by
  unfold ShardInv
  rw [h1, h2]
  exact hs

theorem delete_get_sub (m : Marker) (k : Nat) :
    ∀ h, (m.delete k).get h ≠ 0 → (m.delete k).get h = m.get h := by
  intro h hh
  by_cases c : h = k
  · subst c
    rw [Marker.get_delete_self] at hh
    exact absurd rfl hh
  · exact Marker.get_delete_ne m c

/-! ### The shard that never evicts -/

theorem tombstone_setup (s : shard) (i : Nat) (d : List Byte) :
    sameSetup s (s.tombstone i d) := ⟨rfl, rfl, rfl⟩

theorem del_setup (s : shard) (hash : Nat) : sameSetup s (s.del hash).1 := by
  unfold shard.del
  dsimp only
  split
  · exact ⟨rfl, rfl, rfl⟩
  · split
    · split <;> exact ⟨rfl, rfl, rfl⟩
    · split <;> exact ⟨rfl, rfl, rfl⟩

theorem removeOutdatedLoop_setup (order : List (Nat × Nat)) (r : Nat) (s : shard) (now : Int) :
    sameSetup s (shard.removeOutdatedLoop order r s now) := by
  induction order generalizing r s with
  | nil => exact ⟨rfl, rfl, rfl⟩
  | cons p rest ih =>
    obtain ⟨k, v⟩ := p
    unfold shard.removeOutdatedLoop
    split
    · exact ⟨rfl, rfl, rfl⟩
    · split
      · exact ih r s
      · split
        · exact ih r s
        · dsimp only
          split
          · exact sameSetup_trans ⟨rfl, rfl, rfl⟩ (ih _ _)
          · exact ih _ _

theorem set_setup {s s' : shard} {key : List Byte} {hash : Nat} {value : List Byte}
    {ttl now : Int} {r : Option Err} (h : s.set key hash value ttl now = (s', r)) :
    sameSetup s s' := by
  obtain ⟨_, a, b, c, _⟩ := set_fields h
  exact ⟨a, b, c⟩

theorem get_setup (s : shard) (key : List Byte) (hash : Nat) (now : Int) :
    sameSetup s (s.get key hash now).1 := by
  obtain ⟨_, a, b, c⟩ := get_fields s key hash now
  exact ⟨by rw [a], b, c⟩

/-- Every reachable state has the cap and the flags of the fresh shard. -/
theorem Reach_setup {config : Config} {redis : redisCache} {s : shard}
    (h : Reach config redis s) : sameSetup (initShard config redis) s := by
  induction h with
  | init => exact sameSetup_refl _
  | set s key hash value ttl now _ ih => exact sameSetup_trans ih (set_setup rfl)
  | get s key hash now _ ih => exact sameSetup_trans ih (get_setup s key hash now)
  | del s hash _ ih => exact sameSetup_trans ih (del_setup s hash)
  | removeOutdated s r order now _ _ ih =>
    exact sameSetup_trans ih (removeOutdatedLoop_setup order r s now)
  | reset s _ ih => exact sameSetup_trans ih ⟨rfl, rfl, rfl⟩

/-- A failed `set` on a shard that never evicts stops after the first part of `set`. -/
theorem set_fail_noRemove {s s' : shard} {key : List Byte} {hash : Nat} {value : List Byte}
    {ttl now : Int} {e : Err} (hr : s.onRemove = false)
    (h : s.set key hash value ttl now = (s', some e)) :
    s' = (s.setPrepare key hash value ttl now).1 ∧ e = .errMaxEntry
      ∧ 0 < s.entries.maxCapacity := by
  have hl := set_eq_setLoop s key hash value ttl now
  rw [h] at hl
  obtain ⟨_, p2, p3, _⟩ := setPrepare_fields s key hash value ttl now
  have := setLoop_fail_noRemove _ _ _ _ _ _ _ (by rw [p3]; exact hr) hl
  rw [p2] at this
  exact this

theorem set_noEvict {bound : Nat} {s s' : shard} {key : List Byte} {hash : Nat}
    {value : List Byte} {ttl now : Int} {r : Option Err} (hb : bound ≤ 4294967296)
    (hi : NoEvictInv bound s) (hr : s.onRemove = false) (hm1 : 0 < s.entries.maxCapacity)
    (hm2 : s.entries.maxCapacity ≤ bound) (h : s.set key hash value ttl now = (s', r)) :
    NoEvictInv bound s' := by
  obtain ⟨es, hs, hw, hc⟩ := hi
  have hcap' : s'.entries.capacity ≤ bound := by
    have := (set_fields h).2.2.2.2.2 hm1
    exact Nat.le_trans this (Nat.max_le.2 ⟨hc, hm2⟩)
  cases r with
  | none =>
    obtain ⟨popped, rest, es', r1, r2, r3, r4, _, r6, _⟩ := set_ok hs h (by omega)
    have hp : popped = [] := by
      cases popped with
      | nil => rfl
      | cons p ps =>
        have := r6 (by simp)
        rw [hr] at this
        cases this
    subst hp
    rw [List.nil_append] at r1
    subst r1
    refine ⟨es', ⟨r2, ?_, ?_⟩, ?_, hcap'⟩
    · intro e he
      rcases Pushed_mem_inv r3 he with h1 | h1 | ⟨i, n, hn, h1⟩
      · obtain ⟨e0, he0, rfl⟩ := List.mem_map.1 h1
        rw [tomb_length]
        exact hs.2.1 e0 he0
      · rw [h1]
        simp only
        rw [wrapEntry_length]
        omega
      · rw [h1]
        simp only
        rw [List.length_replicate]
        omega
    · intro h' hh'
      by_cases c : h' = hash
      · subst c
        exact ⟨_, Pushed_mem r3⟩
      · rw [r4] at hh' ⊢
        have e1 : ((evictAll s.marker []).put hash (s'.marker.get hash)).get h'
            = s.marker.get h' := Marker.get_put_ne _ _ c
        rw [e1] at hh' ⊢
        obtain ⟨d, hd⟩ := Stored_map_tomb (s.marker.get hash) (hs.2.2 h' hh')
        exact ⟨d, Pushed_mem_old r3 hd⟩
    · rw [r4]
      exact Marker.WF_put _ _ _ hw
  | some e =>
    obtain ⟨h1, _, _⟩ := set_fail_noRemove hr h
    obtain ⟨p1, _, p3, _⟩ := setPrepare_spec hs key hash value ttl now
    subst h1
    refine ⟨_, ⟨p1, ?_, ?_⟩, by rw [p3]; exact hw, hcap'⟩
    · intro e he
      obtain ⟨e0, he0, rfl⟩ := List.mem_map.1 he
      rw [tomb_length]
      exact hs.2.1 e0 he0
    · intro h' hh'
      rw [p3] at hh' ⊢
      exact Stored_map_tomb _ (hs.2.2 h' hh')

theorem del_noEvict {bound : Nat} {s : shard} (hi : NoEvictInv bound s)
    (hr : s.redisEnable = false) (hash : Nat) : NoEvictInv bound (s.del hash).1 := by
  obtain ⟨es, hs, hw, hc⟩ := hi
  by_cases c : s.marker.get hash = 0
  · rw [del_of_zero c hr]
    exact ⟨es, ShardInv_stats hs _ rfl rfl, hw, hc⟩
  · obtain ⟨d, hd, hdel⟩ := del_of_handle hs c
    rw [hdel]
    have hs' : ShardInv s.statsModify es := ShardInv_stats hs _ rfl rfl
    exact ⟨_, ShardInv_tomb hs' hd _ (delete_get_sub s.marker hash),
      Marker.WF_delete _ _ hw, hc⟩

theorem removeOutdatedLoop_noEvict {bound : Nat} (order : List (Nat × Nat)) (r : Nat)
    (s : shard) (now : Int) (es : List (Nat × List Byte)) (hs : ShardInv s es)
    (hw : s.marker.WF) (hc : s.entries.capacity ≤ bound)
    (ho : ∀ p ∈ order, p.2 ≠ 0 → Stored es p.2) :
    NoEvictInv bound (shard.removeOutdatedLoop order r s now) := by
  induction order generalizing r s es with
  | nil => exact ⟨es, hs, hw, hc⟩
  | cons p rest ih =>
    obtain ⟨k, v⟩ := p
    have ho' : ∀ p ∈ rest, p.2 ≠ 0 → Stored es p.2 :=
      fun p hp => ho p (List.mem_cons_of_mem _ hp)
    unfold shard.removeOutdatedLoop
    split
    · exact ⟨es, hs, hw, hc⟩
    · split
      · exact ih r s es hs hw hc ho'
      · rename_i hv
        split
        · exact ih r s es hs hw hc ho'
        · rename_i w hg
          dsimp only
          obtain ⟨d, hd⟩ := ho (k, v) (List.mem_cons_self _ _) hv
          have hnil : d ≠ [] := by
            intro hn
            have := hs.2.1 _ hd
            rw [hn] at this
            simp at this
          have hgd := Get_eq_of_ne_nil hs.1 hd hnil
          rw [hgd] at hg
          injection hg with hg
          subst hg
          split
          · apply ih (r - 1) _ (es.map (tomb v))
              (ShardInv_tomb hs hd _ (delete_get_sub s.marker k)) (Marker.WF_delete _ _ hw) hc
            intro p hp hp0
            exact Stored_map_tomb v (ho' p hp hp0)
          · exact ih (r - 1) s es hs hw hc ho'

theorem reset_noEvict {bound : Nat} {s : shard} (hi : NoEvictInv bound s) :
    NoEvictInv bound s.reset := by
  obtain ⟨es, hs, hw, hc⟩ := hi
  refine ⟨[], ⟨QInv_Reset hs.1, by simp, ?_⟩, List.nodup_nil, hc⟩
  intro h hh
  exact absurd rfl hh

/-- Every state reachable on a shard that never evicts, with a cap and a ring of at most
`2^32` bytes, satisfies the invariant. -/
theorem Reach_noEvict {config : Config} {redis : redisCache} {s : shard}
    (h : Reach config redis s) (hr : config.OnRemove = false)
    (hi : config.InitEntrySize.toNat ≤ 4294967296)
    (hm1 : 0 < config.maximumShardSize.toNat)
    (hm2 : config.maximumShardSize.toNat ≤ 4294967296) :
    NoEvictInv (max config.InitEntrySize.toNat config.maximumShardSize.toNat) s := by
  have hb : max config.InitEntrySize.toNat config.maximumShardSize.toNat ≤ 4294967296 :=
    Nat.max_le.2 ⟨hi, hm2⟩
  have hre : (initShard config redis).redisEnable = false := by
    show (config.OnRemove && config.RedisAddr != "") = false
    rw [hr]; rfl
  induction h with
  | init =>
    exact ⟨[], ShardInv_initShard config redis hi, List.nodup_nil, Nat.le_max_left _ _⟩
  | set s key hash value ttl now hreach ih =>
    obtain ⟨a, b, c⟩ := Reach_setup hreach
    exact set_noEvict hb ih (by rw [b]; exact hr) (by rw [a]; exact hm1)
      (by rw [a]; exact Nat.le_max_right _ _) rfl
  | get s key hash now _ ih =>
    obtain ⟨es, hs, hw, hc⟩ := ih
    obtain ⟨a, b, _⟩ := get_fields s key hash now
    exact ⟨es, ShardInv_stats hs _ a b, by rw [a]; exact hw, by rw [b]; exact hc⟩
  | del s hash hreach ih =>
    obtain ⟨a, b, c⟩ := Reach_setup hreach
    exact del_noEvict ih (by rw [c]; exact hre) hash
  | removeOutdated s r order now _ hperm ih =>
    obtain ⟨es, hs, hw, hc⟩ := ih
    apply removeOutdatedLoop_noEvict order r s now es hs hw hc
    intro p hp hp0
    have hmem : (p.1, p.2) ∈ s.marker := hperm.subset hp
    have hg := Marker.get_of_mem s.marker hw hmem
    have := hs.2.2 p.1 (by rw [hg]; exact hp0)
    rw [hg] at this
    exact this
  | reset s _ ih => exact reset_noEvict ih

/-! ### A failed `set` without eviction -/

theorem tomb_reads (j : Nat) (e : Nat × List Byte) (h : 16 ≤ e.2.length) :
    readCRC32FromEntry (tomb j e).2 = readCRC32FromEntry e.2
      ∧ readTimestampFromEntry (tomb j e).2 = readTimestampFromEntry e.2
      ∧ readEntry (tomb j e).2 = readEntry e.2 := by
  unfold tomb
  split
  · exact ⟨readCRC32_resetKey _ h, readTimestamp_resetKey _ h, readEntry_resetKey _ h⟩
  · exact ⟨rfl, rfl, rfl⟩

/-- Tombstoning the previous record of a fingerprint changes the result of no `get`: `get`
reads the checksum, the expiration and the payload of a record, never its fingerprint. -/
theorem get_after_setPrepare {s : shard} {es : List (Nat × List Byte)} (hs : ShardInv s es)
    (key : List Byte) (hash : Nat) (value : List Byte) (ttl now : Int) (key' : List Byte)
    (hash' : Nat) (now' : Int) :
    ((s.setPrepare key hash value ttl now).1.get key' hash' now').2
      = (s.get key' hash' now').2 := by
  obtain ⟨p1, _, p3, _⟩ := setPrepare_spec hs key hash value ttl now
  by_cases c : s.marker.get hash' = 0
  · rw [get_of_zero _ _ _ _ c, get_of_zero _ _ _ _ (by rw [p3]; exact c)]
  · obtain ⟨d, hd⟩ := hs.2.2 hash' c
    have hl := hs.2.1 _ hd
    simp only at hl
    have hnil : d ≠ [] := by
      intro hn
      rw [hn] at hl
      simp at hl
    have hd' : ((s.setPrepare key hash value ttl now).1.marker.get hash',
        (tomb (s.marker.get hash) (s.marker.get hash', d)).2)
          ∈ es.map (tomb (s.marker.get hash)) := by
      rw [p3]
      have := List.mem_map_of_mem (tomb (s.marker.get hash)) hd
      have h1 : tomb (s.marker.get hash) (s.marker.get hash', d)
          = (s.marker.get hash', (tomb (s.marker.get hash) (s.marker.get hash', d)).2) := by
        apply Prod.ext
        · exact tomb_fst _ _
        · rfl
      rw [h1] at this
      exact this
    have hnil' : (tomb (s.marker.get hash) (s.marker.get hash', d)).2 ≠ [] := by
      intro hn
      have := congrArg List.length hn
      rw [tomb_length] at this
      simp only [List.length_nil] at this
      omega
    obtain ⟨t1, t2, t3⟩ := tomb_reads (s.marker.get hash) (s.marker.get hash', d)
      (by simp only; omega)
    rw [get_eq p1 hd' hnil' key' now', get_eq hs.1 hd hnil key' now', t1, t2, t3]
    simp only at *
    split
    · rfl
    · split <;> rfl

/-- C8. `errMaxEntry` is atomic when eviction is disabled: in every state reachable from a
fresh shard with `OnRemove = false` (ring and cap within `2^32` bytes), a `set` that returns
`errMaxEntry` leaves the index and `len` unchanged, and every `get`, of any key, the key being
set included, returns afterwards what it returned before. -/
theorem C8_max_entry_atomic (config : Config) (redis : redisCache) (s s' : shard)
    (key : List Byte) (hash : Nat) (value : List Byte) (ttl now : Int)
    (hr : config.OnRemove = false) (hi : config.InitEntrySize.toNat ≤ 4294967296)
    (hm : config.maximumShardSize.toNat ≤ 4294967296) (hreach : Reach config redis s)
    (hset : s.set key hash value ttl now = (s', some .errMaxEntry)) :
    s'.marker = s.marker ∧ s'.len = s.len
      ∧ ∀ key' hash' now', (s'.get key' hash' now').2 = (s.get key' hash' now').2 := by
  obtain ⟨a, b, _⟩ := Reach_setup hreach
  have hr' : s.onRemove = false := by rw [b]; exact hr
  obtain ⟨h1, _, h3⟩ := set_fail_noRemove hr' hset
  rw [a] at h3
  obtain ⟨es, hs, _, _⟩ := Reach_noEvict hreach hr hi h3 hm
  obtain ⟨_, _, _, _, p5, _⟩ := setPrepare_fields s key hash value ttl now
  subst h1
  refine ⟨p5, by unfold shard.len; rw [p5], ?_⟩
  intro key' hash' now'
  exact get_after_setPrepare hs key hash value ttl now key' hash' now'

/-! ### Scenarios of the queue -/

set_option maxRecDepth 100000 in
/-- C9. `ByteQueue` is not FIFO across a wrap followed by a growth.  In `NewByteQueue(64, 0)`:
push `a` (40 bytes), push `b` (10 bytes), pop (returns `a`), push `c` (4 bytes, wraps to
offset 1), push `d` (10 bytes, grows the array to 128 bytes).  The next `Pop` returns `c`, the
third entry pushed, while `b`, pushed before it, is still stored; the `Pop` after that
returns a 32-byte zero filler that was never pushed; `b` comes third and `d` fourth. -/
theorem C9_fifo_broken_by_wrap_then_growth :
    ((NewByteQueue 64 0).Push (fill 40 1)).2 = .ok 1
    ∧ (((NewByteQueue 64 0).Push (fill 40 1)).1.Push (fill 10 2)).2 = .ok 45
    ∧ (((NewByteQueue 64 0).Push (fill 40 1)).1.Push (fill 10 2)).1.Pop.2 = .ok (fill 40 1)
    ∧ ((((NewByteQueue 64 0).Push (fill 40 1)).1.Push (fill 10 2)).1.Pop.1.Push (fill 4 3)).2
        = .ok 1
    ∧ (((((NewByteQueue 64 0).Push (fill 40 1)).1.Push (fill 10 2)).1.Pop.1.Push
        (fill 4 3)).1.Push (fill 10 4)).2 = .ok 59
    ∧ fifoQueue.capacity = 128
    ∧ fifoQueue.Pop.2 = .ok (fill 4 3)
    ∧ fifoQueue.Pop.1.Pop.2 = .ok (fill 32 0)
    ∧ fifoQueue.Pop.1.Pop.1.Pop.2 = .ok (fill 10 2)
    ∧ fifoQueue.Pop.1.Pop.1.Pop.1.Pop.2 = .ok (fill 10 4) := by
  decide

/-- C10. A handle returned by `Push` is not readable when the payload is empty and its header
ends flush with the array: in `NewByteQueue(5, 0)`, `Push([])` fits after the tail, returns the
handle `1` and no error, and `Get(1)` returns `errIndexOutOfBounds` (`1 + 4 >= 5`) although the
entry is stored; `Pop` fails in the same way. -/
theorem C10_empty_payload_handle_unreadable :
    ((NewByteQueue 5 0).Push []).2 = .ok 1
    ∧ ((NewByteQueue 5 0).Push []).1.count = 1
    ∧ ((NewByteQueue 5 0).Push []).1.array.length = 5
    ∧ ((NewByteQueue 5 0).Push []).1.Get 1 = .error .errIndexOutOfBounds
    ∧ ((NewByteQueue 5 0).Push []).1.Pop.2 = .error .errIndexOutOfBounds := by
  decide

set_option maxRecDepth 100000 in
/-- C1, witness: `set("alpha", "1")` on a fresh shard of 64 bytes, then `get("alpha")`. -/
theorem C1_witness :
    ((initShard (capConfig true) { store := [] }).set keyAlpha (sum64 keyAlpha) [49] 0 0).2 = none
    ∧ ((((initShard (capConfig true) { store := [] }).set keyAlpha (sum64 keyAlpha) [49] 0 0).1.get
        keyAlpha (sum64 keyAlpha) 7000000000).2 = .ok [49]) :=
  ⟨by decide,
    C1_set_get_round_trip (initShard (capConfig true) { store := [] }) _ [] keyAlpha
      (sum64 keyAlpha) [49] 0 7000000000 (ShardInv_initShard _ _ (by decide))
      (Prod.ext rfl (by decide)) (by decide)⟩

/-! ### Scenarios of the cache -/

set_option maxRecDepth 100000 in
/-- For the key `keyZero`, whose fingerprint is `0`, after two successful `Set`s the ring
stores two records whose fingerprint field equals the fingerprint of the key: the tombstoned
first record and the second one. -/
theorem zero_fingerprint_two_records :
    NewTipTop smallConfig { store := [] } = .ok smallCache
    ∧ sum64 keyZero = 0
    ∧ (smallCache.Set keyZero [49] 0).2 = none
    ∧ ((smallCache.Set keyZero [49] 0).1.Set keyZero [50] 0).2 = none
    ∧ ((((smallCache.Set keyZero [49] 0).1.Set keyZero [50] 0).1.getShard
        (sum64 keyZero)).entries.stored.filter
          fun e => readHashFromEntry e.2 == sum64 keyZero).length = 2 := by
  decide

set_option maxRecDepth 100000 in
/-- C2, witness: `Set("alpha", "1")`, `Set("alpha", "2")` on a fresh cache of two shards. -/
theorem C2_witness :
    (((smallCache.Set keyAlpha [49] 0).1.Set keyAlpha [50] 0).1.Get keyAlpha 0).2 = .ok [50]
    ∧ ((smallCache.Set keyAlpha [49] 0).1.Set keyAlpha [50] 0).1.Len = 1 :=
  have h := C2_overwrite smallConfig { store := [] } smallCache
    (smallCache.Set keyAlpha [49] 0).1 ((smallCache.Set keyAlpha [49] 0).1.Set keyAlpha [50] 0).1
    keyAlpha [49] [50] 0 0 0 (by decide) (by decide) (Prod.ext rfl (by decide))
    (Prod.ext rfl (by decide)) (by decide) (by decide) (by decide)
  ⟨h.1 (Or.inl (by decide)), h.2.1⟩

set_option maxRecDepth 100000 in
/-- C3, witness: `set("alpha", "1")`, `del("alpha")`, `get("alpha")`. -/
theorem C3_witness :
    ((((initShard (capConfig true) { store := [] }).set keyAlpha (sum64 keyAlpha) [49] 0 0).1.del
        (sum64 keyAlpha)).2 = none)
    ∧ (((((initShard (capConfig true) { store := [] }).set keyAlpha (sum64 keyAlpha) [49] 0
        0).1.del (sum64 keyAlpha)).1.get keyAlpha (sum64 keyAlpha) 0).2
          = .error .errKeyNotFound) :=
  have hs := (@set_on_empty (initShard (capConfig true) { store := [] })
    ((initShard (capConfig true) { store := [] }).set keyAlpha (sum64 keyAlpha) [49] 0 0).1
    keyAlpha (sum64 keyAlpha) [49] 0 0
    (ShardInv_initShard (capConfig true) { store := [] } (by decide)) rfl
    (Prod.ext rfl (by decide)) (by decide)).1
  have h := (C3_del
    ((initShard (capConfig true) { store := [] }).set keyAlpha (sum64 keyAlpha) [49] 0 0).1
    [(((initShard (capConfig true) { store := [] }).set keyAlpha (sum64 keyAlpha) [49] 0
        0).1.marker.get (sum64 keyAlpha),
      (wrapEntry (exp 0 0) (sum64 keyAlpha) (ChecksumIEEE keyAlpha) [49]
        (initShard (capConfig true) { store := [] }).buffer).1)]
    (sum64 keyAlpha) hs (by unfold Marker.WF; decide) (by decide)).1 (by decide)
  ⟨h.1, h.2.2.2 keyAlpha 0⟩

set_option maxRecDepth 100000 in
/-- C4, witness: the keys `"k1"` and `"k2"` stored under the same fingerprint `42`. -/
theorem C4_witness :
    ((((initShard smallConfig { store := [] }).set keyK1 42 [1] 0 0).1.set keyK2 42 [2] 0 0).1.get
        keyK1 42 0).2 = .error .errKeyNotFound
    ∧ ((((initShard smallConfig { store := [] }).set keyK1 42 [1] 0 0).1.set keyK2 42 [2] 0
        0).1.get keyK2 42 0).2 = .ok [2] :=
  have h := C4_collision smallConfig { store := [] } keyK1 keyK2 42 [1] [2] 0 0 0 0 0
    ((initShard smallConfig { store := [] }).set keyK1 42 [1] 0 0).1
    (((initShard smallConfig { store := [] }).set keyK1 42 [1] 0 0).1.set keyK2 42 [2] 0 0).1
    (by decide) (by decide) (Prod.ext rfl (by decide)) (Prod.ext rfl (by decide)) (by decide)
    (by decide) (by decide)
  ⟨h.1, h.2.2.2.1 (Or.inl (by decide))⟩

set_option maxRecDepth 100000 in
/-- A record set at clock `0` with a time-to-live of one second is still returned by `get` at
clock `1 s + 1 ns`, although more than the time-to-live has passed: both instants lie in the
Unix second `1`. -/
theorem same_second_not_expired :
    (1000000001 : Int) - 0 > 1000000000
    ∧ ((initShard (capConfig true) { store := [] }).set keyAlpha (sum64 keyAlpha) [49]
        1000000000 0).2 = none
    ∧ (((initShard (capConfig true) { store := [] }).set keyAlpha (sum64 keyAlpha) [49]
        1000000000 0).1.get keyAlpha (sum64 keyAlpha) 1000000001).2 = .ok [49] := by
  decide

set_option maxRecDepth 100000 in
/-- C5, witness: a record set at clock `5 s` with a time-to-live of one second is dead at
clock `7.5 s`. -/
theorem C5_witness :
    (((initShard (capConfig true) { store := [] }).set keyAlpha (sum64 keyAlpha) [49]
        1000000000 5000000000).1.get keyAlpha (sum64 keyAlpha) 7500000000).2
      = .error .errEntryIsDead :=
  (C5_expiration (initShard (capConfig true) { store := [] }) _ [] keyAlpha (sum64 keyAlpha)
    [49] 1000000000 5000000000 7500000000 (ShardInv_initShard _ _ (by decide))
    (Prod.ext rfl (by decide)) (by decide) (by decide) (by decide)).1 (by decide)

set_option maxRecDepth 100000 in
/-- C6, witness: `Set("alpha", "1")` on a fresh cache whose `DefaultTTL` is `0`, read a
century later. -/
theorem C6_witness :
    (smallCache.Set keyAlpha [49] 0).2 = none
    ∧ ((smallCache.Set keyAlpha [49] 0).1.Get keyAlpha 3155760000000000000).2 = .ok [49] :=
  ⟨by decide,
    (C6_zero_ttl_never_expires.2 smallCache (smallCache.Set keyAlpha [49] 0).1 [] keyAlpha [49] 0
      (by decide) (by decide) (ShardInv_initShard smallConfig { store := [] } (by decide))
      (Prod.ext rfl (by decide)) (by decide)).2 3155760000000000000⟩

set_option maxRecDepth 100000 in
/-- C7, counterexample: in the scenario "cap with eviction" `Get("k2")` returns
`errKeyNotFound`, not its payload: the third `Set` evicted the second record. -/
theorem C7_counterexample_k2_evicted :
    NewTipTop (capConfig true) { store := [] } = .ok (capCache true)
    ∧ ((capCache true).Set keyK1 (fill 20 1) 0).2 = none
    ∧ (((capCache true).Set keyK1 (fill 20 1) 0).1.Set keyK2 (fill 20 2) 0).2 = none
    ∧ ((((capCache true).Set keyK1 (fill 20 1) 0).1.Set keyK2 (fill 20 2) 0).1.Set keyK3
        (fill 20 3) 0).2 = none
    ∧ (((((capCache true).Set keyK1 (fill 20 1) 0).1.Set keyK2 (fill 20 2) 0).1.Set keyK3
        (fill 20 3) 0).1.Get keyK2 0).2 = .error .errKeyNotFound := by
  decide

/-- C7, witness: the scenario with the payloads of twenty bytes `7`, `8` and `9`. -/
theorem C7_witness :
    ∃ t0 t1 t2 t3, NewTipTop (capConfig true) { store := [] } = .ok t0
      ∧ t0.Set keyK1 (fill 20 7) 1 = (t1, none) ∧ t1.Set keyK2 (fill 20 8) 2 = (t2, none)
      ∧ t2.Set keyK3 (fill 20 9) 3 = (t3, none)
      ∧ (t3.Get keyK1 4).2 = .error .errKeyNotFound
      ∧ (t3.Get keyK2 4).2 = .error .errKeyNotFound
      ∧ (t3.Get keyK3 4).2 = .ok (fill 20 9) :=
  C7_cap_with_eviction (fill 20 7) (fill 20 8) (fill 20 9) 1 2 3 4 (by decide) (by decide)
    (by decide)

set_option maxRecDepth 100000 in
/-- C8, witness (scenario "cap without eviction"): with `onRemove = false` the third `set`
returns `errMaxEntry`, the index is as before and `get("k1")` still returns its payload. -/
theorem C8_witness :
    (capShard.set keyK3 (sum64 keyK3) (fill 20 3) 0 0).2 = some .errMaxEntry
    ∧ ((capShard.set keyK3 (sum64 keyK3) (fill 20 3) 0 0).1.get keyK1 (sum64 keyK1) 0).2
        = .ok (fill 20 1)
    ∧ (capShard.set keyK3 (sum64 keyK3) (fill 20 3) 0 0).1.marker = capShard.marker
    ∧ (capShard.set keyK3 (sum64 keyK3) (fill 20 3) 0 0).1.len = capShard.len :=
  have h := C8_max_entry_atomic (capConfig false) { store := [] } capShard
    (capShard.set keyK3 (sum64 keyK3) (fill 20 3) 0 0).1 keyK3 (sum64 keyK3) (fill 20 3) 0 0
    rfl (by decide) (by decide)
    (Reach.set _ keyK2 (sum64 keyK2) (fill 20 2) 0 0
      (Reach.set _ keyK1 (sum64 keyK1) (fill 20 1) 0 0 (Reach.init)))
    (Prod.ext rfl (by decide))
  ⟨by decide, by decide, h.1, h.2.1⟩

/-! ### The capacity of the queue -/

theorem push_array_length (q : ByteQueue) (data : List Byte) (n : Nat) :
    (q.push data n).array.length = q.array.length := by
  unfold ByteQueue.push ByteQueue.copy
  dsimp only
  split <;> simp only [copyAt_length]

theorem allocate_array_length (q : ByteQueue) (minimum : Nat) :
    (q.allocate minimum).array.length = newCapacity q minimum := by
  rw [allocate_def]
  split
  · split
    · show (ByteQueue.push _ _ _).array.length = _
      rw [push_array_length]
      exact grown_length q minimum
    · exact grown_length q minimum
  · exact List.length_replicate _ _

/-- The capacity chosen by `allocate` is larger than the old one when the push is not refused. -/
theorem newCapacity_lt (q : ByteQueue) (minimum : Nat) (hm : 0 < minimum)
    (h : ¬ (q.capacity + minimum ≥ q.maxCapacity ∧ q.maxCapacity > 0)) :
    q.capacity < newCapacity q minimum := by
  have := newCapacity_ge q minimum h
  omega

/-- `Push` keeps the backing array as long as the capacity. -/
theorem Push_array_length (q : ByteQueue) (data : List Byte)
    (h : q.array.length = q.capacity) :
    (q.Push data).1.array.length = (q.Push data).1.capacity := by
  unfold ByteQueue.Push
  dsimp only
  split
  · split
    · rw [push_array_length, (push_capacity _ _ _).1]
      exact h
    · split
      · exact h
      · rw [push_array_length, (push_capacity _ _ _).1, allocate_array_length,
          (allocate_capacity _ _).1]
  · rw [push_array_length, (push_capacity _ _ _).1]
    exact h

theorem Pop_array (q : ByteQueue) :
    q.Pop.1.array = q.array ∧ q.Pop.1.capacity = q.capacity
      ∧ q.Pop.1.maxCapacity = q.maxCapacity := by
  unfold ByteQueue.Pop
  split
  · exact ⟨rfl, rfl, rfl⟩
  · dsimp only
    split
    · split <;> exact ⟨rfl, rfl, rfl⟩
    · exact ⟨rfl, rfl, rfl⟩

/-- What one call does to the capacity, the cap and the length of the array. -/
theorem call_capacity (q : ByteQueue) (c : QueueCall) :
    q.capacity ≤ (q.call c).capacity ∧ (q.call c).maxCapacity = q.maxCapacity
      ∧ (q.array.length = q.capacity → (q.call c).array.length = (q.call c).capacity)
      ∧ (0 < q.maxCapacity → q.capacity ≤ q.maxCapacity →
          (q.call c).capacity ≤ q.maxCapacity) := by
  cases c with
  | push data =>
    have h := Push_capacity (Prod.ext rfl rfl : q.Push data = ((q.Push data).1, (q.Push data).2))
    refine ⟨h.1, h.2.1, Push_array_length q data, ?_⟩
    intro h0 h1
    have := h.2.2 h0
    show (q.Push data).1.capacity ≤ q.maxCapacity
    omega
  | pop =>
    obtain ⟨a, b, c⟩ := Pop_array q
    refine ⟨Nat.le_of_eq b.symm, c, ?_, ?_⟩
    · intro h
      show q.Pop.1.array.length = q.Pop.1.capacity
      rw [a, b]
      exact h
    · intro _ h1
      show q.Pop.1.capacity ≤ q.maxCapacity
      rw [b]
      exact h1
  | get index => exact ⟨Nat.le_refl _, rfl, fun h => h, fun _ h => h⟩
  | reset => exact ⟨Nat.le_refl _, rfl, fun h => h, fun _ h => h⟩

theorem calls_capacity (cs : List QueueCall) (q : ByteQueue) (h0 : 0 < q.maxCapacity)
    (h1 : q.capacity ≤ q.maxCapacity) (h2 : q.array.length = q.capacity) :
    (q.calls cs).array.length = (q.calls cs).capacity
      ∧ (q.calls cs).capacity ≤ q.maxCapacity ∧ q.capacity ≤ (q.calls cs).capacity
      ∧ (q.calls cs).maxCapacity = q.maxCapacity := by
  induction cs generalizing q with
  | nil => exact ⟨h2, h1, Nat.le_refl _, rfl⟩
  | cons c cs ih =>
    obtain ⟨a, b, d, e⟩ := call_capacity q c
    have := ih (q.call c) (by rw [b]; exact h0) (by rw [b]; exact e h0 h1) (d h2)
    rw [b] at this
    exact ⟨this.1, this.2.1, Nat.le_trans a this.2.2.1, this.2.2.2⟩

/-- C11 (as the code has it). When the record fits neither after the tail nor before the
head, `Push` returns `errFullQueue`, and leaves the queue as it was, exactly when the queue has
a cap and the capacity plus the size of the record (payload and 4-byte header) reaches the cap,
in particular when the capacity already equals the cap; in every other case `Push` grows the
array, to a larger capacity that is still the length of the array, and returns a handle. -/
theorem C11_push_full (q : ByteQueue) (data : List Byte)
    (hafter : q.availableSpaceAfterTail < ((data.length + headerEntrySize : Nat) : Int))
    (hbefore : q.availableSpaceBeforeHead < ((data.length + headerEntrySize : Nat) : Int)) :
    ((q.Push data).2 = .error .errFullQueue ↔
        (0 < q.maxCapacity ∧ q.maxCapacity ≤ q.capacity + (data.length + 4)))
    ∧ ((q.Push data).2 = .error .errFullQueue → (q.Push data).1 = q)
    ∧ (0 < q.maxCapacity → q.capacity = q.maxCapacity →
        (q.Push data).2 = .error .errFullQueue)
    ∧ (¬ (0 < q.maxCapacity ∧ q.maxCapacity ≤ q.capacity + (data.length + 4)) →
        (∃ idx, (q.Push data).2 = .ok idx) ∧ q.capacity < (q.Push data).1.capacity
          ∧ (q.Push data).1.array.length = (q.Push data).1.capacity) := by
  have hb : ¬ q.availableSpaceBeforeHead ≥ ((data.length + headerEntrySize : Nat) : Int) := by
    omega
  by_cases hfull : q.capacity + (data.length + headerEntrySize) ≥ q.maxCapacity
      ∧ q.maxCapacity > 0
  · have hp : q.Push data = (q, .error .errFullQueue) := by
      unfold ByteQueue.Push
      dsimp only
      rw [if_pos hafter, if_neg hb, if_pos hfull]
    rw [hp]
    refine ⟨⟨fun _ => ⟨hfull.2, hfull.1⟩, fun _ => rfl⟩, fun _ => rfl, fun _ _ => rfl, ?_⟩
    intro hn
    exact absurd ⟨hfull.2, hfull.1⟩ hn
  · have hp : q.Push data = ((q.allocate (data.length + headerEntrySize)).push data data.length,
        .ok (q.allocate (data.length + headerEntrySize)).tail) := by
      unfold ByteQueue.Push
      dsimp only
      rw [if_pos hafter, if_neg hb, if_neg hfull]
    rw [hp]
    have hn : ¬ (0 < q.maxCapacity ∧ q.maxCapacity ≤ q.capacity + (data.length + 4)) := by
      intro h
      exact hfull ⟨h.2, h.1⟩
    refine ⟨⟨fun h => (by cases h), fun h => absurd h hn⟩, fun h => (by cases h), ?_, ?_⟩
    · intro h0 h1
      exact absurd ⟨h0, by omega⟩ hn
    · intro _
      refine ⟨⟨_, rfl⟩, ?_, ?_⟩
      · show q.capacity < (ByteQueue.push _ _ _).capacity
        rw [(push_capacity _ _ _).1, (allocate_capacity _ _).1]
        exact newCapacity_lt q _ (by simp only [headerEntrySize]; omega) hfull
      · show (ByteQueue.push _ _ _).array.length = (ByteQueue.push _ _ _).capacity
        rw [push_array_length, (push_capacity _ _ _).1, allocate_array_length,
          (allocate_capacity _ _).1]

/-- C12. Bounded, never-shrinking buffer: in the queue reached from
`NewByteQueue(initial, cap)`, with `0 < initial <= cap`, by any calls of `Push`, `Pop`, `Get`
and `Reset`, `Capacity()` is the length of the backing array, is at most `cap`, is at least
`initial`, and does not decrease at the next call, whichever it is. -/
theorem C12_capacity_bounded_monotone (initial cap : Nat) (cs : List QueueCall)
    (c : QueueCall) (h0 : 0 < initial) (h1 : initial ≤ cap) :
    ((NewByteQueue initial cap).calls cs).Capacity
        = ((NewByteQueue initial cap).calls cs).array.length
      ∧ ((NewByteQueue initial cap).calls cs).Capacity ≤ cap
      ∧ initial ≤ ((NewByteQueue initial cap).calls cs).Capacity
      ∧ ((NewByteQueue initial cap).calls cs).Capacity
          ≤ (((NewByteQueue initial cap).calls cs).call c).Capacity := by
  obtain ⟨a, b, d, _⟩ := calls_capacity cs (NewByteQueue initial cap)
    (show 0 < cap by omega) h1 (List.length_replicate _ _)
  exact ⟨a.symm, b, d, (call_capacity _ c).1⟩

/-! ### The record codec, field by field -/

theorem wrapEntry_fields (ts : Int) (h c : Nat) (entry buf : List Byte) :
    (wrapEntry ts h c entry buf).1.take 8 = putUint64 (uint64OfInt ts)
      ∧ slice (wrapEntry ts h c entry buf).1 8 8 = putUint64 (h % 18446744073709551616)
      ∧ slice (wrapEntry ts h c entry buf).1 16 4 = putUint32 (c % 4294967296)
      ∧ (wrapEntry ts h c entry buf).1.drop 20 = entry := by
  rw [wrapEntry_fst]
  have l1 : (putUint64 (uint64OfInt ts)).length = 8 := putUint64_length _
  have l2 : (putUint64 (h % 18446744073709551616)).length = 8 := putUint64_length _
  have l3 : (putUint32 (c % 4294967296)).length = 4 := putUint32_length _
  generalize putUint64 (uint64OfInt ts) = A at l1 ⊢
  generalize putUint64 (h % 18446744073709551616) = B at l2 ⊢
  generalize putUint32 (c % 4294967296) = C at l3 ⊢
  unfold slice
  refine ⟨?_, ?_, ?_, ?_⟩
  · exact List.take_left' l1
  · rw [List.drop_left' l1]
    exact List.take_left' l2
  · rw [← List.append_assoc, List.drop_left' (by rw [List.length_append]; omega)]
    exact List.take_left' l3
  · rw [← List.append_assoc, ← List.append_assoc]
    exact List.drop_left' (by simp only [List.length_append]; omega)

theorem resetKeyFromEntry_frame (d : List Byte) (h : 16 ≤ d.length) :
    (resetKeyFromEntry d).take 8 = d.take 8
      ∧ slice (resetKeyFromEntry d) 8 8 = putUint64 0
      ∧ (resetKeyFromEntry d).drop 16 = d.drop 16 := by
  rw [resetKeyFromEntry_eq d h]
  have l8 : (d.take 8).length = 8 := by rw [List.length_take]; omega
  have lz : (putUint64 0).length = 8 := putUint64_length _
  generalize d.take 8 = A at l8 ⊢
  generalize putUint64 0 = Z at lz ⊢
  unfold slice
  refine ⟨?_, ?_, ?_⟩
  · exact List.take_left' l8
  · rw [List.drop_left' l8]
    exact List.take_left' lz
  · rw [← List.append_assoc]
    exact List.drop_left' (by rw [List.length_append]; omega)

/-- C13. Record codec round trip: for every expiration `ts` (an `int64`), fingerprint `h` (a
`uint64`), checksum `c` (a `uint32`), payload `p` and scratch buffer, the record
`wrapEntry(ts, h, c, p, &scratch)` has length `len(p) + 20`, its bytes 0..7, 8..15 and 16..19
are the little-endian encodings of `ts`, `h` and `c`, its bytes from 20 on are `p`, and the
four readers return `ts`, `h`, `c` and `p`. -/
theorem C13_codec_round_trip (ts : Int) (h c : Nat) (p scratch : List Byte)
    (hts1 : -9223372036854775808 ≤ ts) (hts2 : ts < 9223372036854775808)
    (hh : h < 18446744073709551616) (hc : c < 4294967296) :
    (wrapEntry ts h c p scratch).1.length = p.length + 20
      ∧ readTimestampFromEntry (wrapEntry ts h c p scratch).1 = ts
      ∧ readHashFromEntry (wrapEntry ts h c p scratch).1 = h
      ∧ readCRC32FromEntry (wrapEntry ts h c p scratch).1 = c
      ∧ readEntry (wrapEntry ts h c p scratch).1 = p
      ∧ slice (wrapEntry ts h c p scratch).1 0 8 = putUint64 (uint64OfInt ts)
      ∧ slice (wrapEntry ts h c p scratch).1 8 8 = putUint64 h
      ∧ slice (wrapEntry ts h c p scratch).1 16 4 = putUint32 c
      ∧ (wrapEntry ts h c p scratch).1.drop 20 = p := by
  obtain ⟨f1, f2, f3, f4⟩ := wrapEntry_fields ts h c p scratch
  rw [Nat.mod_eq_of_lt hh] at f2
  rw [Nat.mod_eq_of_lt hc] at f3
  refine ⟨wrapEntry_length ts h c p scratch, readTimestamp_wrapEntry ts h c p scratch hts1 hts2,
    ?_, ?_, readEntry_wrapEntry ts h c p scratch, f1, f2, f3, f4⟩
  · rw [readHash_wrapEntry, Nat.mod_eq_of_lt hh]
  · rw [readCRC32_wrapEntry, Nat.mod_eq_of_lt hc]

/-- C14. Tombstoning touches only the fingerprint: for every record `r` of at least 20 bytes,
`resetKeyFromEntry(r)` leaves the length, bytes 0..7 and the bytes from 16 on as they were,
writes zero into bytes 8..15, so that `readHashFromEntry` returns `0`, and leaves what
`readTimestampFromEntry`, `readCRC32FromEntry` and `readEntry` return unchanged. -/
theorem C14_tombstone_frame (r : List Byte) (hr : 20 ≤ r.length) :
    (resetKeyFromEntry r).length = r.length
      ∧ readHashFromEntry (resetKeyFromEntry r) = 0
      ∧ readTimestampFromEntry (resetKeyFromEntry r) = readTimestampFromEntry r
      ∧ readCRC32FromEntry (resetKeyFromEntry r) = readCRC32FromEntry r
      ∧ readEntry (resetKeyFromEntry r) = readEntry r
      ∧ (resetKeyFromEntry r).take 8 = r.take 8
      ∧ slice (resetKeyFromEntry r) 8 8 = [0, 0, 0, 0, 0, 0, 0, 0]
      ∧ (resetKeyFromEntry r).drop 16 = r.drop 16
      ∧ ∀ i, i < 8 ∨ 16 ≤ i → (resetKeyFromEntry r)[i]? = r[i]? := by
  have h16 : 16 ≤ r.length := by omega
  obtain ⟨f1, f2, f3⟩ := resetKeyFromEntry_frame r h16
  refine ⟨resetKeyFromEntry_length r, readHash_resetKey r h16, readTimestamp_resetKey r h16,
    readCRC32_resetKey r h16, readEntry_resetKey r h16, f1, f2, f3, ?_⟩
  intro i hi
  rcases hi with hi | hi
  · have a : ((resetKeyFromEntry r).take 8)[i]? = (resetKeyFromEntry r)[i]? := by
      rw [List.getElem?_take, if_pos hi]
    have b : (r.take 8)[i]? = r[i]? := by
      rw [List.getElem?_take, if_pos hi]
    rw [← a, ← b, f1]
  · have a : ((resetKeyFromEntry r).drop 16)[i - 16]? = (resetKeyFromEntry r)[16 + (i - 16)]? :=
      List.getElem?_drop _ _ _
    have b : (r.drop 16)[i - 16]? = r[16 + (i - 16)]? := List.getElem?_drop _ _ _
    have e : 16 + (i - 16) = i := by omega
    rw [e] at a b
    rw [← a, ← b, f3]

/-! ### Failed overwrites -/

/-- After a successful `set` and a failed one of the same key on a shard that never evicts,
the index still holds the handle of the first record, the record is tombstoned, and `get`
reads it as before. -/
theorem failed_overwrite {config : Config} {redis : redisCache} {s s1 s2 : shard}
    {key : List Byte} {hash : Nat} {v1 v2 : List Byte} {ttl1 ttl2 t1 t2 : Int}
    (hr : config.OnRemove = false) (hi : config.InitEntrySize.toNat ≤ 4294967296)
    (hm : config.maximumShardSize.toNat ≤ 4294967296) (hreach : Reach config redis s)
    (hset1 : s.set key hash v1 ttl1 t1 = (s1, none))
    (hr1 : -9223372036854775808 ≤ exp t1 ttl1) (hr2 : exp t1 ttl1 < 9223372036854775808)
    (hset2 : s1.set key hash v2 ttl2 t2 = (s2, some .errMaxEntry)) :
    s2.marker.get hash ≠ 0
      ∧ s2.entries.Get (s2.marker.get hash)
          = .ok (resetKeyFromEntry (wrapEntry (exp t1 ttl1) hash (ChecksumIEEE key) v1 s.buffer).1)
      ∧ ∀ now, (s2.get key hash now).2 =
          if exp t1 ttl1 ≠ 0 ∧ epoch now > exp t1 ttl1 then .error .errEntryIsDead
          else .ok v1 := by
  have hreach1 : Reach config redis s1 := by
    have := Reach.set s key hash v1 ttl1 t1 hreach
    rw [hset1] at this
    exact this
  obtain ⟨a, b, _⟩ := Reach_setup hreach1
  have hr' : s1.onRemove = false := by rw [b]; exact hr
  obtain ⟨e1, _, hpos⟩ := set_fail_noRemove hr' hset2
  rw [a] at hpos
  obtain ⟨es, hs, _, _⟩ := Reach_noEvict hreach hr hi hpos hm
  obtain ⟨es1, hs1, _, hc1⟩ := Reach_noEvict hreach1 hr hi hpos hm
  have hcap1 : s1.entries.capacity ≤ 4294967296 := by
    have : max config.InitEntrySize.toNat config.maximumShardSize.toNat ≤ 4294967296 :=
      Nat.max_le.2 ⟨hi, hm⟩
    omega
  obtain ⟨popped, rest, es', _, q1, pu, _⟩ := set_ok hs hset1 hcap1
  generalize hw : (wrapEntry (exp t1 ttl1) hash (ChecksumIEEE key) v1 s.buffer).1 = w1 at pu ⊢
  have hwl : w1.length = v1.length + 20 := by rw [← hw]; exact wrapEntry_length _ _ _ _ _
  have hwn : w1 ≠ [] := by
    intro h0
    rw [h0] at hwl
    simp at hwl
  have hmem' : (s1.marker.get hash, w1) ∈ es' := Pushed_mem pu
  have hidx : s1.marker.get hash ≠ 0 := by
    have := (QInv_mem q1 hmem').1
    simp only at this
    omega
  have hget1 : s1.entries.Get (s1.marker.get hash) = .ok w1 := Get_eq_of_ne_nil q1 hmem' hwn
  obtain ⟨d, hd⟩ := hs1.2.2 hash hidx
  have hdl := hs1.2.1 _ hd
  have hdn : d ≠ [] := by
    intro h0
    rw [h0] at hdl
    simp at hdl
  have hget1' := Get_eq_of_ne_nil hs1.1 hd hdn
  rw [hget1] at hget1'
  injection hget1' with hdw
  subst hdw
  obtain ⟨p1, _, p3, _⟩ := setPrepare_spec hs1 key hash v2 ttl2 t2
  subst e1
  rw [p3]
  refine ⟨hidx, ?_, ?_⟩
  · have hm2 := mem_map_tomb_self hd
    apply Get_eq_of_ne_nil p1 hm2
    intro h0
    have := resetKeyFromEntry_length w1
    rw [h0] at this
    simp at this
    omega
  · intro now
    rw [get_after_setPrepare hs1 key hash v2 ttl2 t2 key hash now,
      get_after_set hs hset1 hcap1 hr1 hr2 key now, if_neg (fun hc => hc rfl)]
    split <;> rfl

set_option maxRecDepth 100000 in
/-- C15. The index of a shard can hold an entry whose record is no longer stored.  On the
shard with a 64-byte ring capped at 64 bytes and eviction allowed, `set("k1", 20 bytes)`
succeeds with the handle `1`; `set("k1", 100 bytes)` tombstones that record, cannot push, evicts
the tombstoned record (whose fingerprint field now names the index entry `0`, not the one of
`"k1"`) and returns `errMaxEntry`.  Afterwards the index still holds the handle `1` for
`"k1"` while the ring is empty, and `get("k1")` returns `errEmptyQueue`.  A following
`set("k2", 20 bytes)` stores its record at offset `1`: the index then holds two entries with
the handle `1`, and the record that the entry of `"k1"` addresses carries the fingerprint of
`"k2"`. -/
theorem C15_index_entry_outlives_record :
    ((initShard (capConfig true) { store := [] }).set keyK1 (sum64 keyK1) (fill 20 1) 0 0).2
        = none
    ∧ ((initShard (capConfig true) { store := [] }).set keyK1 (sum64 keyK1) (fill 20 1) 0
        0).1.marker = [(sum64 keyK1, 1)]
    ∧ (((initShard (capConfig true) { store := [] }).set keyK1 (sum64 keyK1) (fill 20 1) 0
        0).1.set keyK1 (sum64 keyK1) (fill 100 2) 0 0).2 = some .errMaxEntry
    ∧ danglingShard.marker = [(sum64 keyK1, 1)]
    ∧ danglingShard.len = 1
    ∧ danglingShard.entries.count = 0
    ∧ danglingShard.entries.stored = []
    ∧ danglingShard.entries.Get 1 = .error .errEmptyQueue
    ∧ (danglingShard.get keyK1 (sum64 keyK1) 0).2 = .error .errEmptyQueue
    ∧ (danglingShard.set keyK2 (sum64 keyK2) (fill 20 3) 0 0).2 = none
    ∧ (danglingShard.set keyK2 (sum64 keyK2) (fill 20 3) 0 0).1.marker
        = [(sum64 keyK2, 1), (sum64 keyK1, 1)]
    ∧ (danglingShard.set keyK2 (sum64 keyK2) (fill 20 3) 0 0).1.entries.count = 1
    ∧ ((danglingShard.set keyK2 (sum64 keyK2) (fill 20 3) 0 0).1.entries.Get 1).map
        readHashFromEntry = .ok (sum64 keyK2)
    ∧ sum64 keyK2 ≠ sum64 keyK1 ∧ sum64 keyK2 ≠ 0 := by
  decide

/-- C16 (as the code has it). A tombstoned record is still read: `get` never looks at the
fingerprint field.  In every shard state in which the index handle of the fingerprint
addresses a stored record whose fingerprint field is `0`, `get(k)` returns the payload of that
record when the stored CRC-32 is that of `k` and the record has not expired, `errKeyNotFound`
on another CRC-32 and `errEntryIsDead` after its expiration.  Such a state arises on a shard
that never evicts when `set(k, v1)` succeeded and a later `set(k, v2)` tombstones the record
and returns `errMaxEntry`: the handle of `k` then addresses the tombstoned first record and
`get(k)` still returns `v1` until the record expires. -/
theorem C16_tombstoned_record_is_read :
    (∀ (s : shard) (es : List (Nat × List Byte)) (key : List Byte) (hash : Nat) (w : List Byte)
        (now : Int),
        QInv s.entries es → (s.marker.get hash, w) ∈ es → 20 ≤ w.length →
        readHashFromEntry w = 0 →
        s.entries.Get (s.marker.get hash) = .ok w
        ∧ (s.get key hash now).2 =
          if readCRC32FromEntry w ≠ ChecksumIEEE key then .error .errKeyNotFound
          else if readTimestampFromEntry w ≠ 0 ∧ epoch now > readTimestampFromEntry w then
            .error .errEntryIsDead
          else .ok (readEntry w))
    ∧ (∀ (config : Config) (redis : redisCache) (s s1 s2 : shard) (key : List Byte) (hash : Nat)
        (v1 v2 : List Byte) (ttl1 ttl2 t1 t2 : Int),
        config.OnRemove = false → config.InitEntrySize.toNat ≤ 4294967296 →
        config.maximumShardSize.toNat ≤ 4294967296 → Reach config redis s →
        s.set key hash v1 ttl1 t1 = (s1, none) →
        -9223372036854775808 ≤ exp t1 ttl1 → exp t1 ttl1 < 9223372036854775808 →
        s1.set key hash v2 ttl2 t2 = (s2, some .errMaxEntry) →
        s2.marker.get hash ≠ 0
        ∧ (∃ w, s2.entries.Get (s2.marker.get hash) = .ok w ∧ readHashFromEntry w = 0
            ∧ readEntry w = v1)
        ∧ ∀ now, (s2.get key hash now).2 =
            if exp t1 ttl1 ≠ 0 ∧ epoch now > exp t1 ttl1 then .error .errEntryIsDead
            else .ok v1) := by
  constructor
  · intro s es key hash w now hq hw hl _
    have hwn : w ≠ [] := by
      intro h0
      rw [h0] at hl
      simp at hl
    refine ⟨Get_eq_of_ne_nil hq hw hwn, ?_⟩
    rw [get_eq hq hw hwn key now]
    split
    · rfl
    · split <;> rfl
  · intro config redis s s1 s2 key hash v1 v2 ttl1 ttl2 t1 t2 hr hi hm hreach hset1 hr1 hr2 hset2
    obtain ⟨a, b, c⟩ := failed_overwrite hr hi hm hreach hset1 hr1 hr2 hset2
    have hl : 16 ≤ (wrapEntry (exp t1 ttl1) hash (ChecksumIEEE key) v1 s.buffer).1.length := by
      rw [wrapEntry_length]
      omega
    refine ⟨a, ⟨_, b, readHash_resetKey _ hl, ?_⟩, c⟩
    rw [readEntry_resetKey _ hl, readEntry_wrapEntry]

/-! ### Configuration, statistics and reset -/

theorem maximumShardSize_eq (c : Config) (h1 : 1 ≤ c.ShardSize) (h2 : 0 ≤ c.MaxCacheSize) :
    c.maximumShardSize = c.MaxCacheSize / c.ShardSize := by
  unfold Config.maximumShardSize
  split
  · exact Int.tdiv_eq_ediv (by omega) (by omega)
  · have : c.MaxCacheSize = 0 := by omega
    rw [this, Int.zero_ediv]

/-- C17 (as the code has it). Per-shard cap: for `ShardSize >= 1` and `MaxCacheSize >= 0`,
`maximumShardSize()` returns `MaxCacheSize / ShardSize` (integer division); the result is `0`,
which the ring reads as "no cap", exactly when `MaxCacheSize < ShardSize`, in particular when
`MaxCacheSize = 0`; when `MaxCacheSize >= ShardSize` it is a positive cap such that
`ShardSize` times the cap does not exceed `MaxCacheSize`. -/
theorem C17_maximumShardSize (c : Config) (h1 : 1 ≤ c.ShardSize) (h2 : 0 ≤ c.MaxCacheSize) :
    c.maximumShardSize = c.MaxCacheSize / c.ShardSize
      ∧ (c.maximumShardSize = 0 ↔ c.MaxCacheSize < c.ShardSize)
      ∧ (c.MaxCacheSize = 0 → c.maximumShardSize = 0)
      ∧ (c.ShardSize ≤ c.MaxCacheSize →
          0 < c.maximumShardSize ∧ c.ShardSize * c.maximumShardSize ≤ c.MaxCacheSize)
      ∧ ∀ redis, (initShard c redis).entries.maxCapacity = c.maximumShardSize.toNat := by
  have he := maximumShardSize_eq c h1 h2
  have hpos : 0 < c.ShardSize := by omega
  refine ⟨he, ?_, ?_, ?_, fun _ => rfl⟩
  · rw [he]
    constructor
    · intro h0
      have := Int.lt_ediv_add_one_mul_self c.MaxCacheSize hpos
      rw [h0] at this
      omega
    · intro hlt
      exact Int.ediv_eq_zero_of_lt h2 hlt
  · intro h0
    rw [he, h0, Int.zero_ediv]
  · intro hle
    rw [he]
    constructor
    · have : (1 : Int) ≤ c.MaxCacheSize / c.ShardSize :=
        Int.le_ediv_of_mul_le hpos (by omega)
      omega
    · exact Int.mul_ediv_self_le (by omega)

theorem GetStats_foldl (shards : List shard) (acc : Stats) :
    shards.foldl (fun s sh =>
        let tmp := sh.getStats
        { s with Hits := s.Hits + tmp.Hits
                 Misses := s.Misses + tmp.Misses
                 HitsRedis := s.HitsRedis + tmp.HitsRedis
                 MissesRedis := s.MissesRedis + tmp.MissesRedis
                 Modify := s.Modify + tmp.Modify
                 Collision := s.Collision + tmp.Collision }) acc
      = { Hits := acc.Hits + (shards.map fun s => s.getStats.Hits).sum
          HitsRedis := acc.HitsRedis + (shards.map fun s => s.getStats.HitsRedis).sum
          Misses := acc.Misses + (shards.map fun s => s.getStats.Misses).sum
          MissesRedis := acc.MissesRedis + (shards.map fun s => s.getStats.MissesRedis).sum
          Collision := acc.Collision + (shards.map fun s => s.getStats.Collision).sum
          Modify := acc.Modify + (shards.map fun s => s.getStats.Modify).sum
          Sync := acc.Sync } := by
  induction shards generalizing acc with
  | nil => simp
  | cons sh rest ih =>
    rw [List.foldl_cons, ih]
    simp only [List.map_cons, List.sum_cons, Nat.add_assoc]

/-- What `GetStats()` returns: the sums of six counters, and zero for `Sync`. -/
theorem GetStats_eq (t : TipTop) :
    t.GetStats
      = { Hits := (t.shards.map fun s => s.getStats.Hits).sum
          HitsRedis := (t.shards.map fun s => s.getStats.HitsRedis).sum
          Misses := (t.shards.map fun s => s.getStats.Misses).sum
          MissesRedis := (t.shards.map fun s => s.getStats.MissesRedis).sum
          Collision := (t.shards.map fun s => s.getStats.Collision).sum
          Modify := (t.shards.map fun s => s.getStats.Modify).sum
          Sync := 0 } := by
  unfold TipTop.GetStats
  rw [GetStats_foldl]
  simp [NewStats]

set_option maxRecDepth 100000 in
/-- C18. `GetStats()` does not sum the counter `Sync`.  For every cache it returns the sum
over the shards of `Hits`, `Misses`, `HitsRedis`, `MissesRedis`, `Collision` and `Modify`, and
`0` for `Sync`, whatever the shards counted: on the cache `syncedCache`, whose single shard
promoted one record by `sync` and counts `Sync = 1`, `GetStats().Sync` is `0`. -/
theorem C18_GetStats_omits_Sync :
    (∀ t : TipTop,
        t.GetStats.Hits = (t.shards.map fun s => s.getStats.Hits).sum
        ∧ t.GetStats.Misses = (t.shards.map fun s => s.getStats.Misses).sum
        ∧ t.GetStats.HitsRedis = (t.shards.map fun s => s.getStats.HitsRedis).sum
        ∧ t.GetStats.MissesRedis = (t.shards.map fun s => s.getStats.MissesRedis).sum
        ∧ t.GetStats.Collision = (t.shards.map fun s => s.getStats.Collision).sum
        ∧ t.GetStats.Modify = (t.shards.map fun s => s.getStats.Modify).sum
        ∧ t.GetStats.Sync = 0)
    ∧ (syncedCache.shards.map fun s => s.getStats.Sync) = [1]
    ∧ (syncedCache.shards.map fun s => s.getStats.Sync).sum = 1
    ∧ syncedCache.GetStats.Sync = 0 := by
  refine ⟨?_, by decide, by decide, ?_⟩
  · intro t
    rw [GetStats_eq]
    exact ⟨rfl, rfl, rfl, rfl, rfl, rfl, rfl⟩
  · rw [GetStats_eq]

/-- With `isPowerOfTwo` the mathematical predicate, a `ShardSize` of `0` is rejected, not
replaced by the default: `implementConfig`
tests `isPowerOfTwo(config.ShardSize)` first and returns its error for `0`, which is not a
power of two, so the statement that sets `ShardSize` to `1024` is never reached (an accepted
configuration keeps its `ShardSize`, which is not `0`), and `NewTipTop` fails.  The default of
`CleanWindow` is applied: an accepted configuration whose `CleanWindow` is `0` gets 30
minutes. -/
theorem zero_shard_size_rejected :
    (∀ config : Config, config.ShardSize = 0 →
        implementConfig config = .error "shard's size must be the power of 2")
    ∧ (∀ (config : Config) (redis : redisCache), config.ShardSize = 0 →
        NewTipTop config redis = .error "shard's size must be the power of 2")
    ∧ (∀ config c : Config, implementConfig config = .ok c →
        c.ShardSize = config.ShardSize ∧ c.ShardSize ≠ 0)
    ∧ (∀ config c : Config, implementConfig config = .ok c → config.CleanWindow = 0 →
        c.CleanWindow = DefaultCleanWindows)
    ∧ implementConfig zeroShardConfig = .error "shard's size must be the power of 2" := by
  have h0 : ∀ config : Config, config.ShardSize = 0 →
      implementConfig config = .error "shard's size must be the power of 2" := by
    intro config h
    unfold implementConfig
    rw [h]
    rfl
  have hok : ∀ config c : Config, implementConfig config = .ok c →
      config.ShardSize ≠ 0 ∧ c = (if config.CleanWindow = 0 then
        { config with CleanWindow := DefaultCleanWindows } else config) := by
    intro config c h
    have hne : config.ShardSize ≠ 0 := by
      intro hz
      rw [h0 config hz] at h
      cases h
    refine ⟨hne, ?_⟩
    unfold implementConfig at h
    split at h
    · cases h
    · dsimp only at h
      have e : (if config.CleanWindow = 0 then
          ({ config with CleanWindow := DefaultCleanWindows } : Config) else config).ShardSize
            = config.ShardSize := by
        split <;> rfl
      rw [if_neg (by rw [e]; exact hne)] at h
      injection h with h
      exact h.symm
  refine ⟨h0, ?_, ?_, ?_, h0 _ rfl⟩
  · intro config redis h
    unfold NewTipTop
    rw [h0 config h]
  · intro config c h
    obtain ⟨hne, hc⟩ := hok config c h
    have e : c.ShardSize = config.ShardSize := by
      rw [hc]
      split <;> rfl
    exact ⟨e, by rw [e]; exact hne⟩
  · intro config c h hz
    obtain ⟨_, hc⟩ := hok config c h
    rw [hc, if_pos hz]

/-- C20. `Reset()` empties the cache: afterwards the index of every shard is empty and
`Len()` is `0`, every ring has count `0` and `head = tail = rightMargin = 1`, every
statistics counter of every shard is `0`, `Cap()` is what it was, and `Get(k)` returns
`errKeyNotFound` for every key `k`. -/
theorem C20_reset_empties (t : TipTop) :
    (∀ s ∈ t.Reset.shards, s.marker = [] ∧ s.len = 0 ∧ s.entries.count = 0
        ∧ s.entries.head = 1 ∧ s.entries.tail = 1 ∧ s.entries.rightMargin = 1
        ∧ s.stats = { Hits := 0, HitsRedis := 0, Misses := 0, MissesRedis := 0, Collision := 0,
                      Modify := 0, Sync := 0 })
      ∧ t.Reset.Len = 0
      ∧ t.Reset.Cap = t.Cap
      ∧ t.Reset.shards.length = t.shards.length
      ∧ t.Reset.GetStats = { Hits := 0, HitsRedis := 0, Misses := 0, MissesRedis := 0,
                             Collision := 0, Modify := 0, Sync := 0 }
      ∧ ∀ key now, t.shardIndex (sum64 key) < t.shards.length →
          (t.Reset.Get key now).2 = .error .errKeyNotFound := by
  have hall : ∀ s ∈ t.Reset.shards, s.marker = [] ∧ s.len = 0 ∧ s.entries.count = 0
      ∧ s.entries.head = 1 ∧ s.entries.tail = 1 ∧ s.entries.rightMargin = 1
      ∧ s.stats = { Hits := 0, HitsRedis := 0, Misses := 0, MissesRedis := 0, Collision := 0,
                    Modify := 0, Sync := 0 } := by
    intro s hs
    unfold TipTop.Reset at hs
    obtain ⟨s0, _, rfl⟩ := List.mem_map.1 hs
    exact ⟨rfl, rfl, rfl, rfl, rfl, rfl, rfl⟩
  refine ⟨hall, ?_, ?_, ?_, ?_, ?_⟩
  · unfold TipTop.Len
    apply List.sum_eq_zero
    intro x hx
    obtain ⟨s, hs, rfl⟩ := List.mem_map.1 hx
    exact (hall s hs).2.1
  · unfold TipTop.Cap TipTop.Reset
    rw [List.map_map]
    rfl
  · unfold TipTop.Reset
    exact List.length_map _ _
  · rw [GetStats_eq]
    have hz : ∀ (f : shard → Nat), (∀ s ∈ t.Reset.shards, f s = 0) →
        (t.Reset.shards.map f).sum = 0 := by
      intro f hf
      apply List.sum_eq_zero
      intro x hx
      obtain ⟨s, hs, rfl⟩ := List.mem_map.1 hx
      exact hf s hs
    rw [hz _ (fun s hs => by show s.stats.Hits = 0; rw [(hall s hs).2.2.2.2.2.2]),
      hz _ (fun s hs => by show s.stats.HitsRedis = 0; rw [(hall s hs).2.2.2.2.2.2]),
      hz _ (fun s hs => by show s.stats.Misses = 0; rw [(hall s hs).2.2.2.2.2.2]),
      hz _ (fun s hs => by show s.stats.MissesRedis = 0; rw [(hall s hs).2.2.2.2.2.2]),
      hz _ (fun s hs => by show s.stats.Collision = 0; rw [(hall s hs).2.2.2.2.2.2]),
      hz _ (fun s hs => by show s.stats.Modify = 0; rw [(hall s hs).2.2.2.2.2.2])]
  · intro key now hidx
    rw [Get_eq_get]
    have hlen : t.Reset.shards.length = t.shards.length := by
      unfold TipTop.Reset
      exact List.length_map _ _
    have hidx' : t.Reset.shardIndex (sum64 key) < t.Reset.shards.length := by
      rw [hlen]
      exact hidx
    have hmem : t.Reset.getShard (sum64 key) ∈ t.Reset.shards := by
      unfold TipTop.getShard
      rw [List.getElem?_eq_getElem hidx']
      exact List.getElem_mem _
    rw [get_of_zero _ _ _ _ (by rw [(hall _ hmem).1]; rfl)]

/-! ### Further scenarios -/

/-- C11, counterexample: the queue with a 64-byte array and a cap of 100 bytes that holds one
entry of 40 bytes refuses a second entry of 40 bytes with `errFullQueue`, although its
capacity, 64, is below the cap: `64 + 44 >= 100`. -/
theorem C11_counterexample_full_below_cap :
    fullQueue.availableSpaceAfterTail < 44
    ∧ fullQueue.availableSpaceBeforeHead < 44
    ∧ fullQueue.capacity = 64 ∧ fullQueue.maxCapacity = 100
    ∧ fullQueue.capacity < fullQueue.maxCapacity
    ∧ (fullQueue.Push (fill 40 2)).2 = .error .errFullQueue := by
  decide

/-- C11, witness: the same push is refused with a cap of 100 bytes and grows the array with
no cap. -/
theorem C11_witness :
    (fullQueue.Push (fill 40 2)).2 = .error .errFullQueue
    ∧ ((∃ idx, (((NewByteQueue 64 0).Push (fill 40 1)).1.Push (fill 40 2)).2 = .ok idx)
      ∧ ((NewByteQueue 64 0).Push (fill 40 1)).1.capacity
          < (((NewByteQueue 64 0).Push (fill 40 1)).1.Push (fill 40 2)).1.capacity
      ∧ (((NewByteQueue 64 0).Push (fill 40 1)).1.Push (fill 40 2)).1.array.length
          = (((NewByteQueue 64 0).Push (fill 40 1)).1.Push (fill 40 2)).1.capacity) :=
  ⟨(C11_push_full fullQueue (fill 40 2) (by decide) (by decide)).1.2 (by decide),
    (C11_push_full ((NewByteQueue 64 0).Push (fill 40 1)).1 (fill 40 2) (by decide)
      (by decide)).2.2.2 (by decide)⟩

/-- C12, witness: a queue of 64 bytes with a cap of 128 bytes after the calls `growthCalls`,
and a further push. -/
theorem C12_witness :
    ((NewByteQueue 64 128).calls growthCalls).Capacity
        = ((NewByteQueue 64 128).calls growthCalls).array.length
      ∧ ((NewByteQueue 64 128).calls growthCalls).Capacity ≤ 128
      ∧ 64 ≤ ((NewByteQueue 64 128).calls growthCalls).Capacity
      ∧ ((NewByteQueue 64 128).calls growthCalls).Capacity
          ≤ (((NewByteQueue 64 128).calls growthCalls).call (.push (fill 10 4))).Capacity :=
  C12_capacity_bounded_monotone 64 128 growthCalls (.push (fill 10 4)) (by decide) (by decide)

/-- C13, witness: the record of expiration `-3`, fingerprint `42`, checksum `7` and payload
`1, 2, 3`, packed into an empty scratch buffer. -/
theorem C13_witness :
    (wrapEntry (-3) 42 7 [1, 2, 3] []).1.length = 23
      ∧ readTimestampFromEntry (wrapEntry (-3) 42 7 [1, 2, 3] []).1 = -3
      ∧ readHashFromEntry (wrapEntry (-3) 42 7 [1, 2, 3] []).1 = 42
      ∧ readCRC32FromEntry (wrapEntry (-3) 42 7 [1, 2, 3] []).1 = 7
      ∧ readEntry (wrapEntry (-3) 42 7 [1, 2, 3] []).1 = [1, 2, 3] :=
  have h := C13_codec_round_trip (-3) 42 7 [1, 2, 3] [] (by decide) (by decide) (by decide)
    (by decide)
  ⟨h.1, h.2.1, h.2.2.1, h.2.2.2.1, h.2.2.2.2.1⟩

/-- C14, witness: a record of 24 bytes `9`. -/
theorem C14_witness :
    (resetKeyFromEntry (fill 24 9)).length = (fill 24 9).length
      ∧ readHashFromEntry (resetKeyFromEntry (fill 24 9)) = 0
      ∧ readEntry (resetKeyFromEntry (fill 24 9)) = readEntry (fill 24 9) :=
  have h := C14_tombstone_frame (fill 24 9) (by decide)
  ⟨h.1, h.2.1, h.2.2.2.2.1⟩

set_option maxRecDepth 100000 in
/-- C16, counterexample: on the shard with a 64-byte ring capped at 64 bytes and eviction
disabled, after `set("k1", p1)` succeeded and a second `set("k1", p2)` returned `errMaxEntry`,
the handle of `"k1"` addresses a record whose fingerprint field is `0`, and `get("k1")`
returns the payload `p1` of that record, not `errKeyNotFound`. -/
theorem C16_counterexample_tombstoned_read :
    ((initShard (capConfig false) { store := [] }).set keyK1 (sum64 keyK1) (fill 20 1) 0 0).2
        = none
    ∧ (((initShard (capConfig false) { store := [] }).set keyK1 (sum64 keyK1) (fill 20 1) 0
        0).1.set keyK1 (sum64 keyK1) (fill 20 2) 0 0).2 = some .errMaxEntry
    ∧ tombstonedShard.redisEnable = false
    ∧ tombstonedShard.marker.get (sum64 keyK1) = 1
    ∧ (tombstonedShard.entries.Get (tombstonedShard.marker.get (sum64 keyK1))).map
        readHashFromEntry = .ok 0
    ∧ (tombstonedShard.entries.Get (tombstonedShard.marker.get (sum64 keyK1))).map
        readEntry = .ok (fill 20 1)
    ∧ (tombstonedShard.get keyK1 (sum64 keyK1) 0).2 = .ok (fill 20 1) := by
  decide

set_option maxRecDepth 100000 in
/-- C16, witness: the failed overwrite of `"k1"` on the shard that never evicts. -/
theorem C16_witness :
    tombstonedShard.marker.get (sum64 keyK1) ≠ 0
    ∧ (tombstonedShard.get keyK1 (sum64 keyK1) 5000000000).2 = .ok (fill 20 1) :=
  have h := C16_tombstoned_record_is_read.2 (capConfig false) { store := [] }
    (initShard (capConfig false) { store := [] })
    ((initShard (capConfig false) { store := [] }).set keyK1 (sum64 keyK1) (fill 20 1) 0 0).1
    tombstonedShard keyK1 (sum64 keyK1) (fill 20 1) (fill 20 2) 0 0 0 0 rfl (by decide)
    (by decide) Reach.init (Prod.ext rfl (by decide)) (by decide) (by decide)
    (Prod.ext rfl (by decide))
  ⟨h.1, (h.2.2 5000000000).trans (by decide)⟩

/-- C17, counterexample: with two shards and a total cap of one byte, `maximumShardSize()`
returns `0`, the value that means "no cap", although `MaxCacheSize` is not `0`. -/
theorem C17_counterexample_small_cap :
    1 ≤ tinyCapConfig.ShardSize ∧ 0 ≤ tinyCapConfig.MaxCacheSize
    ∧ tinyCapConfig.MaxCacheSize = 1
    ∧ tinyCapConfig.maximumShardSize = 0
    ∧ (initShard tinyCapConfig { store := [] }).entries.maxCapacity = 0 := by
  decide

/-- C17, witness: four shards and a total cap of ten bytes give a cap of two bytes a
shard. -/
theorem C17_witness :
    fourShardConfig.maximumShardSize = 10 / 4
    ∧ 0 < fourShardConfig.maximumShardSize
    ∧ fourShardConfig.ShardSize * fourShardConfig.maximumShardSize
        ≤ fourShardConfig.MaxCacheSize :=
  have h := C17_maximumShardSize fourShardConfig (by decide) (by decide)
  ⟨h.1, h.2.2.2.1 (by decide)⟩

set_option maxRecDepth 100000 in
/-- C20, witness: `Set("alpha", "1")` on a fresh cache of two shards, then `Reset()`. -/
theorem C20_witness :
    (smallCache.Set keyAlpha [49] 0).1.Len = 1
    ∧ (smallCache.Set keyAlpha [49] 0).1.Reset.Len = 0
    ∧ ((smallCache.Set keyAlpha [49] 0).1.Reset.Get keyAlpha 0).2 = .error .errKeyNotFound
    ∧ (smallCache.Set keyAlpha [49] 0).1.Reset.Cap = (smallCache.Set keyAlpha [49] 0).1.Cap :=
  have h := C20_reset_empties (smallCache.Set keyAlpha [49] 0).1
  ⟨by decide, h.2.1, h.2.2.2.2.2 keyAlpha 0 (by decide), h.2.2.1⟩

/-! ### The router, the secondary store, the janitor, the shutdown -/

theorem shardIndex_eq_mod {t : TipTop} {k : Nat} (hm : t.shardSize = 2 ^ k - 1) (hash : Nat) :
    t.shardIndex hash = hash % 2 ^ k := by
  unfold TipTop.shardIndex
  rw [hm, Nat.and_pow_two_sub_one_eq_mod]

theorem putShard_frame (t : TipTop) (hash : Nat) (s : shard) :
    (t.putShard hash s).shardSize = t.shardSize
      ∧ (t.putShard hash s).shards.length = t.shards.length
      ∧ ∀ j, j ≠ t.shardIndex hash → (t.putShard hash s).shards[j]? = t.shards[j]? := by
  unfold TipTop.putShard
  refine ⟨rfl, List.length_set _ _ _, ?_⟩
  intro j hj
  show (t.shards.set (t.shardIndex hash) s)[j]? = t.shards[j]?
  rw [List.getElem?_set_ne (Ne.symm hj)]

/-- `getShard(hash)` is the shard at the index `hash & t.shardSize` when that index is within
the slice. -/
theorem getShard_eq (t : TipTop) (hash : Nat) (h : t.shardIndex hash < t.shards.length) :
    t.shards[t.shardIndex hash]? = some (t.getShard hash) := by
  unfold TipTop.getShard
  rw [List.getElem?_eq_getElem h]
  rfl

/-- C22. Shard selection is in range and is the residue.  In a cache built by `NewTipTop`
the number of shards is `N = 2^k`, and for every fingerprint `h` the index `h & (N - 1)` that
`getShard` computes is `h mod N` and is below `N`, so that `getShard(h)` is the shard
`t.shards[h mod N]`; every index below `N` is selected by some 64-bit fingerprint; and `Get`,
`SetWithTTL`, `Set` and `Delete` of a key all run the operation of the shard (`get`, `set`,
`del`) on the shard `t.shards[h mod N]` of the key's fingerprint `h`, return its result and
write that shard back at the same index: they leave the mask, the number of shards and every
other shard as they were. -/
theorem C22_shard_selection (config : Config) (redis : redisCache) (t : TipTop)
    (hnew : NewTipTop config redis = .ok t) :
    ∃ k, k < 63 ∧ t.shards.length = 2 ^ k ∧ 1 ≤ t.shards.length
      ∧ t.shardSize = t.shards.length - 1
      ∧ (∀ h, t.shardIndex h = h % t.shards.length ∧ t.shardIndex h < t.shards.length)
      ∧ (∀ i, i < t.shards.length → ∃ h, h < 18446744073709551616 ∧ t.shardIndex h = i)
      ∧ (∀ (key : List Byte) (now : Int),
          (t.Get key now).1.shardSize = t.shardSize
          ∧ (t.Get key now).1.shards.length = t.shards.length
          ∧ ∀ j, j ≠ t.shardIndex (sum64 key) → (t.Get key now).1.shards[j]? = t.shards[j]?)
      ∧ (∀ (key value : List Byte) (ttl now : Int),
          (t.SetWithTTL key value ttl now).1.shardSize = t.shardSize
          ∧ (t.SetWithTTL key value ttl now).1.shards.length = t.shards.length
          ∧ ∀ j, j ≠ t.shardIndex (sum64 key) →
              (t.SetWithTTL key value ttl now).1.shards[j]? = t.shards[j]?)
      ∧ (∀ (key value : List Byte) (now : Int),
          (t.Set key value now).1.shardSize = t.shardSize
          ∧ (t.Set key value now).1.shards.length = t.shards.length
          ∧ ∀ j, j ≠ t.shardIndex (sum64 key) →
              (t.Set key value now).1.shards[j]? = t.shards[j]?)
      ∧ (∀ key : List Byte,
          (t.Delete key).1.shardSize = t.shardSize
          ∧ (t.Delete key).1.shards.length = t.shards.length
          ∧ ∀ j, j ≠ t.shardIndex (sum64 key) → (t.Delete key).1.shards[j]? = t.shards[j]?)
      ∧ (∀ h, ∃ s, t.shards[h % t.shards.length]? = some s ∧ t.getShard h = s)
      ∧ (∀ (key : List Byte) (now : Int), ∃ s,
          t.shards[sum64 key % t.shards.length]? = some s
          ∧ t.Get key now
              = ({ t with
                    shards := t.shards.set (sum64 key % t.shards.length)
                      (s.get key (sum64 key) now).1 }, (s.get key (sum64 key) now).2))
      ∧ (∀ (key value : List Byte) (ttl now : Int), ∃ s,
          t.shards[sum64 key % t.shards.length]? = some s
          ∧ t.SetWithTTL key value ttl now
              = ({ t with
                    shards := t.shards.set (sum64 key % t.shards.length)
                      (s.set key (sum64 key) value ttl now).1 },
                  (s.set key (sum64 key) value ttl now).2))
      ∧ (∀ (key value : List Byte) (now : Int), ∃ s,
          t.shards[sum64 key % t.shards.length]? = some s
          ∧ t.Set key value now
              = ({ t with
                    shards := t.shards.set (sum64 key % t.shards.length)
                      (s.set key (sum64 key) value t.config.DefaultTTL now).1 },
                  (s.set key (sum64 key) value t.config.DefaultTTL now).2))
      ∧ (∀ key : List Byte, ∃ s,
          t.shards[sum64 key % t.shards.length]? = some s
          ∧ t.Delete key
              = ({ t with
                    shards := t.shards.set (sum64 key % t.shards.length)
                      (s.del (sum64 key)).1 }, (s.del (sum64 key)).2)) := by
  obtain ⟨c, k, _, hk, hsh, hmask, _⟩ := NewTipTop_ok hnew
  have hlen : t.shards.length = 2 ^ k := by rw [hsh, List.length_replicate]
  have hpos : 1 ≤ 2 ^ k := Nat.one_le_two_pow
  have hbig : (2 : Nat) ^ k < 2 ^ 63 := Nat.pow_lt_pow_right (by decide) hk
  have h63 : (2 : Nat) ^ 63 = 9223372036854775808 := by decide
  have hidx : ∀ h, t.shardIndex h = h % t.shards.length := by
    intro h
    rw [hlen, shardIndex_eq_mod hmask]
  have hlt : ∀ h, t.shardIndex h < t.shards.length := by
    intro h
    rw [hidx]
    exact Nat.mod_lt _ (by omega)
  refine ⟨k, hk, hlen, by omega, by rw [hmask, hlen], ?_, ?_, ?_, ?_, ?_, ?_, ?_, ?_, ?_, ?_,
    ?_⟩
  · intro h
    rw [hlen, shardIndex_eq_mod hmask]
    exact ⟨rfl, Nat.mod_lt _ (by omega)⟩
  · intro i hi
    refine ⟨i, by omega, ?_⟩
    rw [shardIndex_eq_mod hmask]
    exact Nat.mod_eq_of_lt (by omega)
  · intro key now
    exact putShard_frame t (sum64 key) _
  · intro key value ttl now
    exact putShard_frame t (sum64 key) _
  · intro key value now
    exact putShard_frame t (sum64 key) _
  · intro key
    exact putShard_frame t (sum64 key) _
  · intro h
    refine ⟨t.getShard h, ?_, rfl⟩
    rw [← hidx]
    exact getShard_eq t h (hlt h)
  · intro key now
    refine ⟨t.getShard (sum64 key), ?_, ?_⟩
    · rw [← hidx]
      exact getShard_eq t _ (hlt _)
    · rw [← hidx]
      rfl
  · intro key value ttl now
    refine ⟨t.getShard (sum64 key), ?_, ?_⟩
    · rw [← hidx]
      exact getShard_eq t _ (hlt _)
    · rw [← hidx]
      rfl
  · intro key value now
    refine ⟨t.getShard (sum64 key), ?_, ?_⟩
    · rw [← hidx]
      exact getShard_eq t _ (hlt _)
    · rw [← hidx]
      rfl
  · intro key
    refine ⟨t.getShard (sum64 key), ?_, ?_⟩
    · rw [← hidx]
      exact getShard_eq t _ (hlt _)
    · rw [← hidx]
      rfl

set_option maxRecDepth 100000 in
/-- C23. `setKey` passes the time-to-live in nanoseconds.  It issues no write for an
expiration that is negative or not after the current epoch second, and a write without expiry
for the expiration `0`; for an expiration `E` after the current second `now` it issues a write
whose `time.Duration` is the number `E - now`, that is `E - now` nanoseconds, not
`(E - now) * time.Second`.  In the scenario `evictedShard` the record of `"k1"`, which expires
60 seconds after its eviction, is written to the secondary store with a time-to-live of 60
nanoseconds. -/
theorem C23_setKey_ttl_in_nanoseconds :
    (∀ (r : redisCache) (key : Nat) (value : List Byte) (E now : Int),
        E < 0 ∨ (0 < E ∧ E ≤ now) → r.setKey key value E now = r)
    ∧ (∀ (r : redisCache) (key : Nat) (value : List Byte) (now : Int),
        (r.setKey key value 0 now).store = (key, value, 0) :: (r.delKey key).store)
    ∧ (∀ (r : redisCache) (key : Nat) (value : List Byte) (E now : Int), 0 < E → now < E →
        (r.setKey key value E now).store = (key, value, E - now) :: (r.delKey key).store
        ∧ E - now < (E - now) * Second)
    ∧ (({ store := [] } : redisCache).setKey 7 [1] 1060 1000).store = [(7, [1], 60)]
    ∧ (60 : Int) * Second = 60000000000
    ∧ evictedShard.redisEnable = true
    ∧ evictedShard.marker = [(sum64 keyK2, 1)]
    ∧ evictedShard.redisCache.store.map (fun e => (e.1, readTimestampFromEntry e.2.1, e.2.2))
        = [(sum64 keyK1, 1060, 60)] := by
  refine ⟨?_, ?_, ?_, by decide, by decide, by decide, by decide, by decide⟩
  · intro r key value E now h
    unfold redisCache.setKey
    rw [if_neg (by omega), if_neg (by omega)]
  · intro r key value now
    unfold redisCache.setKey
    rw [if_neg (by omega), if_pos rfl]
  · intro r key value E now h1 h2
    unfold redisCache.setKey
    rw [if_pos ⟨h1, h2⟩]
    refine ⟨rfl, ?_⟩
    unfold Second
    omega

/-- What one tick of the janitor can draw: every index swept is below the bound
`t.shardSize`, and fewer shards are swept than the bound. -/
theorem removeOutdatedLoop_swept (draws : Nat → TipTop.SweepDraw) (now : Int) (n i : Nat)
    (t t' : TipTop) (swept : List Nat)
    (h : TipTop.removeOutdatedLoop draws now n i t = some (t', swept)) :
    swept.length = n ∧ t'.shardSize = t.shardSize ∧ ∀ j ∈ swept, j < t.shardSize := by
  induction n generalizing i t t' swept with
  | zero =>
    unfold TipTop.removeOutdatedLoop at h
    injection h with h
    injection h with h1 h2
    subst h1; subst h2
    exact ⟨rfl, rfl, fun j hj => absurd hj (List.not_mem_nil j)⟩
  | succ n ih =>
    unfold TipTop.removeOutdatedLoop at h
    split at h
    · cases h
    · rename_i j hj
      split at h
      · cases h
      · split at h
        · cases h
        · split at h
          · cases h
          · rename_i t1 sw1 hrec
            injection h with h
            injection h with h1 h2
            subst h1; subst h2
            obtain ⟨a, b, c⟩ := ih _ _ _ _ hrec
            have hjlt : j < t.shardSize := by
              unfold shuffle at hj
              split at hj
              · cases hj
              · rename_i hb
                injection hj with hj
                rw [← hj, Int.toNat_ofNat]
                exact Nat.mod_lt _ (by omega)
            refine ⟨by rw [List.length_cons, a], b, ?_⟩
            intro x hx
            rcases List.mem_cons.1 hx with hx | hx
            · rw [hx]; exact hjlt
            · exact c x hx

theorem removeOutdated_swept {t t' : TipTop} {first : Nat} {draws : Nat → TipTop.SweepDraw}
    {now : Int} {swept : List Nat} (h : t.removeOutdated first draws now = some (t', swept)) :
    0 < t.shardSize ∧ swept.length < t.shardSize ∧ ∀ j ∈ swept, j < t.shardSize := by
  unfold TipTop.removeOutdated at h
  split at h
  · cases h
  · rename_i n hn
    obtain ⟨a, _, c⟩ := removeOutdatedLoop_swept draws now n 0 t t' swept h
    unfold shuffle at hn
    split at hn
    · cases hn
    · rename_i hb
      injection hn with hn
      have : n < t.shardSize := by
        rw [← hn, Int.toNat_ofNat]
        exact Nat.mod_lt _ (by omega)
      exact ⟨by omega, by omega, c⟩

set_option maxRecDepth 100000 in
/-- C24. The janitor passes the mask `N - 1`, not the number `N` of shards, to the shuffler.
In a cache of `N` shards built by `NewTipTop`, `removeOutdated` passes the bound
`int(t.shardSize) = N - 1` at every call of the shuffler.  With one shard the bound is `0` and
the shuffler panics, whatever the random source yields.  With more shards every index drawn
is below `N - 1`: the last shard is never swept, fewer than `N - 1` shards are swept in one
tick, and with two shards none is. -/
theorem C24_janitor_bound_is_the_mask :
    (∀ (config : Config) (redis : redisCache) (t : TipTop), NewTipTop config redis = .ok t →
        (t.shardSize : Int) = (t.shards.length : Int) - 1
        ∧ (t.shards.length = 1 → ∀ first draws now, t.removeOutdated first draws now = none)
        ∧ (∀ first draws now t' swept, t.removeOutdated first draws now = some (t', swept) →
            swept.length + 1 < t.shards.length
            ∧ (∀ j ∈ swept, j + 1 < t.shards.length)
            ∧ t.shards.length - 1 ∉ swept)
        ∧ (t.shards.length = 2 → ∀ first draws now t' swept,
            t.removeOutdated first draws now = some (t', swept) → swept = []))
    ∧ NewTipTop (capConfig true) { store := [] } = .ok (capCache true)
    ∧ ((capCache true).shardSize : Int) = 0
    ∧ (capCache true).removeOutdated 0 zeroDraws 0 = none
    ∧ NewTipTop smallConfig { store := [] } = .ok smallCache
    ∧ (smallCache.Set keyAlpha [49] 0).1.removeOutdated 5 zeroDraws 0
        = some ((smallCache.Set keyAlpha [49] 0).1, []) := by
  refine ⟨?_, by decide, by decide, by decide, by decide, by decide⟩
  intro config redis t hnew
  obtain ⟨c, k, _, hk, hsh, hmask, _⟩ := NewTipTop_ok hnew
  have hlen : t.shards.length = 2 ^ k := by rw [hsh, List.length_replicate]
  have hpos : 1 ≤ 2 ^ k := Nat.one_le_two_pow
  have hm : t.shardSize + 1 = t.shards.length := by rw [hmask, hlen]; omega
  refine ⟨by omega, ?_, ?_, ?_⟩
  · intro h1 first draws now
    have hz : t.shardSize = 0 := by omega
    unfold TipTop.removeOutdated shuffle
    rw [hz]
    rfl
  · intro first draws now t' swept h
    obtain ⟨a, b, c⟩ := removeOutdated_swept h
    refine ⟨by omega, fun j hj => by have := c j hj; omega, ?_⟩
    intro hmem
    have := c _ hmem
    omega
  · intro h2 first draws now t' swept h
    obtain ⟨a, b, c⟩ := removeOutdated_swept h
    have : swept.length = 0 := by omega
    exact List.length_eq_zero.1 this

set_option maxRecDepth 100000 in
/-- C25. `Close()` panics on every constructed cache: `NewTipTop` does not set the field
`close`, so the shutdown channel of the cache it returns is `nil`, `close(t.close)` is the
run-time panic "close of nil channel", `Close()` neither closes the shards nor returns `nil`,
and a janitor loop that waits on the channel never receives from it. -/
theorem C25_close_of_nil_channel :
    (∀ (config : Config) (redis : redisCache) (t : TipTop), NewTipTop config redis = .ok t →
        t.close = none ∧ t.Close = .error "close of nil channel"
        ∧ t.janitorReturns = false)
    ∧ NewTipTop smallConfig { store := [] } = .ok smallCache
    ∧ smallCache.close = none
    ∧ smallCache.Close = .error "close of nil channel"
    ∧ (∀ t : TipTop, t.close = some .opened →
        ∃ t', t.Close = .ok (t', none) ∧ t'.close = some .closed
          ∧ t'.janitorReturns = true) := by
  refine ⟨?_, by decide, by decide, by decide, ?_⟩
  · intro config redis t hnew
    have hc : t.close = none := by
      unfold NewTipTop at hnew
      split at hnew
      · cases hnew
      · injection hnew with hnew
        rw [← hnew]
    refine ⟨hc, ?_, ?_⟩
    · unfold TipTop.Close
      rw [hc]
      rfl
    · unfold TipTop.janitorReturns
      rw [hc]
      rfl
  · intro t ht
    refine ⟨{ t with close := some .closed, shards := t.shards.map shard.close }, ?_, rfl, rfl⟩
    unfold TipTop.Close
    rw [ht]
    rfl

/-! ### The sweep of a shard -/

theorem SameReads_refl (es : List (Nat × List Byte)) : SameReads es es :=
  fun _ d h => ⟨d, h, rfl, rfl, rfl⟩

theorem SameReads_trans {a b c : List (Nat × List Byte)} (h1 : SameReads a b)
    (h2 : SameReads b c) : SameReads a c := by
  intro i d hd
  obtain ⟨d1, m1, x1, y1, z1⟩ := h1 i d hd
  obtain ⟨d2, m2, x2, y2, z2⟩ := h2 i d1 m1
  exact ⟨d2, m2, by rw [x2, x1], by rw [y2, y1], by rw [z2, z1]⟩

theorem SameReads_tomb {es : List (Nat × List Byte)} (h : ∀ e ∈ es, 20 ≤ e.2.length) (v : Nat) :
    SameReads es (es.map (tomb v)) := by
  intro i d hd
  have hl : 20 ≤ d.length := h _ hd
  obtain ⟨a, b, c⟩ := tomb_reads v (i, d) (by show 16 ≤ d.length; omega)
  refine ⟨(tomb v (i, d)).2, ?_, a, b, c⟩
  have : (i, (tomb v (i, d)).2) = tomb v (i, d) := by
    have := tomb_fst v (i, d)
    exact Prod.ext this.symm rfl
  rw [this]
  exact List.mem_map.2 ⟨_, hd, rfl⟩

/-- Two shards that hold the same handle for a fingerprint, in rings whose entries read the
same, answer `get` alike. -/
theorem get_congr {s s' : shard} {es es' : List (Nat × List Byte)} (hs : ShardInv s es)
    (hs' : ShardInv s' es') (hr : SameReads es es') (key : List Byte) (hash : Nat) (now : Int)
    (hm : s'.marker.get hash = s.marker.get hash) :
    (s'.get key hash now).2 = (s.get key hash now).2 := by
  by_cases c : s.marker.get hash = 0
  · rw [get_of_zero _ _ _ _ c, get_of_zero _ _ _ _ (by rw [hm]; exact c)]
  · obtain ⟨d, hd⟩ := hs.2.2 hash c
    have hl : 20 ≤ d.length := hs.2.1 _ hd
    have hnil : d ≠ [] := by
      intro hn
      rw [hn] at hl
      simp at hl
    obtain ⟨d', hd', t1, t2, t3⟩ := hr _ _ hd
    have hl' : 20 ≤ d'.length := hs'.2.1 _ hd'
    have hnil' : d' ≠ [] := by
      intro hn
      rw [hn] at hl'
      simp at hl'
    rw [← hm] at hd'
    rw [get_eq hs'.1 hd' hnil' key now, get_eq hs.1 hd hnil key now, t1, t2, t3]
    split
    · rfl
    · split <;> rfl

/-- The loop of `removeOutdated` keeps the invariant of the shard, deletes from the index only
entries whose record has expired, at most `r` of them, and leaves what the records read. -/
theorem removeOutdatedLoop_spec (order : List (Nat × Nat)) (r : Nat) (s : shard) (now : Int)
    (es : List (Nat × List Byte)) (hs : ShardInv s es) (hw : s.marker.WF)
    (hnd : (order.map Prod.fst).Nodup) (ho : ∀ p ∈ order, s.marker.get p.1 = p.2) :
    ∃ es', ShardInv (shard.removeOutdatedLoop order r s now) es'
      ∧ (shard.removeOutdatedLoop order r s now).marker.WF
      ∧ SameReads es es'
      ∧ (∀ h, (shard.removeOutdatedLoop order r s now).marker.get h = s.marker.get h
          ∨ ((shard.removeOutdatedLoop order r s now).marker.get h = 0 ∧ s.marker.get h ≠ 0
            ∧ ∃ d, (s.marker.get h, d) ∈ es ∧ readTimestampFromEntry d ≠ 0
              ∧ epoch now > readTimestampFromEntry d))
      ∧ (shard.removeOutdatedLoop order r s now).len ≤ s.len
      ∧ s.len ≤ (shard.removeOutdatedLoop order r s now).len + r := by
  induction order generalizing r s es with
  | nil =>
    exact ⟨es, hs, hw, SameReads_refl es, fun h => Or.inl rfl, Nat.le_refl _, Nat.le_add_right _ _⟩
  | cons p rest ih =>
    obtain ⟨k, v⟩ := p
    have hnd' : (rest.map Prod.fst).Nodup := by
      rw [List.map_cons] at hnd
      exact (List.nodup_cons.1 hnd).2
    have hk : ∀ p ∈ rest, p.1 ≠ k := by
      intro p hp hpk
      rw [List.map_cons] at hnd
      have hmem : p.1 ∈ rest.map Prod.fst := List.mem_map_of_mem _ hp
      rw [hpk] at hmem
      exact (List.nodup_cons.1 hnd).1 hmem
    have ho' : ∀ p ∈ rest, s.marker.get p.1 = p.2 :=
      fun p hp => ho p (List.mem_cons_of_mem _ hp)
    have hkv : s.marker.get k = v := ho (k, v) (List.mem_cons_self _ _)
    unfold shard.removeOutdatedLoop
    split
    · exact ⟨es, hs, hw, SameReads_refl es, fun h => Or.inl rfl, Nat.le_refl _,
        Nat.le_add_right _ _⟩
    · rename_i hr0
      split
      · exact ih r s es hs hw hnd' ho'
      · rename_i hv
        split
        · exact ih r s es hs hw hnd' ho'
        · rename_i w hg
          dsimp only
          obtain ⟨d, hd⟩ := hs.2.2 k (by rw [hkv]; exact hv)
          rw [hkv] at hd
          have hl : 20 ≤ d.length := hs.2.1 _ hd
          have hnil : d ≠ [] := by
            intro hn
            rw [hn] at hl
            simp at hl
          have hgd := Get_eq_of_ne_nil hs.1 hd hnil
          rw [hgd] at hg
          injection hg with hg
          subst hg
          split
          · rename_i hexp
            have hs1 := ShardInv_tomb hs hd (s.marker.delete k) (delete_get_sub s.marker k)
            have ho1 : ∀ p ∈ rest,
                (({ s with marker := s.marker.delete k }).tombstone v d).marker.get p.1
                  = p.2 := by
              intro p hp
              show (s.marker.delete k).get p.1 = p.2
              rw [Marker.get_delete_ne _ (hk p hp)]
              exact ho' p hp
            obtain ⟨es', a1, a2, a3, a4, a5, a6⟩ := ih (r - 1) _ (es.map (tomb v)) hs1
              (Marker.WF_delete _ _ hw) hnd' ho1
            have hlen : (({ s with marker := s.marker.delete k }).tombstone v d).len + 1
                = s.len :=
              Marker.length_delete s.marker k hw
                (Marker.mem_keys_of_get_ne_zero _ _ (by rw [hkv]; exact hv))
            refine ⟨es', a1, a2, SameReads_trans (SameReads_tomb hs.2.1 v) a3, ?_, by omega,
              by omega⟩
            intro h
            have hm1 : ∀ x, (({ s with marker := s.marker.delete k }).tombstone v d).marker.get x
                = (s.marker.delete k).get x := fun _ => rfl
            by_cases hhk : h = k
            · subst hhk
              rcases a4 h with a | ⟨_, b, _⟩
              · right
                rw [hm1, Marker.get_delete_self] at a
                exact ⟨a, by rw [hkv]; exact hv, d, by rw [hkv]; exact hd, hexp.1, hexp.2⟩
              · rw [hm1, Marker.get_delete_self] at b
                exact absurd rfl b
            · rcases a4 h with a | ⟨a, b, d1, m1, e1, e2⟩
              · left
                rw [a, hm1, Marker.get_delete_ne _ hhk]
              · right
                rw [hm1, Marker.get_delete_ne _ hhk] at b m1
                obtain ⟨e, he, hte⟩ := List.mem_map.1 m1
                have hel : 20 ≤ e.2.length := hs.2.1 _ he
                obtain ⟨_, t2, _⟩ := tomb_reads v e (by omega)
                have hf := tomb_fst v e
                rw [hte] at hf t2
                simp only at hf t2
                refine ⟨a, b, e.2, ?_, by rw [← t2]; exact e1, by rw [← t2]; exact e2⟩
                rw [hf]
                exact he
          · obtain ⟨es', a1, a2, a3, a4, a5, a6⟩ := ih (r - 1) s es hs hw hnd' ho'
            exact ⟨es', a1, a2, a3, a4, a5, by omega⟩

/-- C21. The sweep removes only expired entries.  For every shard state that satisfies the
index invariant, every clock value, every bound `r` and every order of iteration over the
index, `removeOutdated()` removes from the index only fingerprints whose record has a non-zero
expiration below the Unix second of the clock, removes at most `r` entries, keeps the index
invariant, and `get` returns afterwards what it returned before for every fingerprint that is
still in the index. -/
theorem C21_sweep_removes_only_expired (s : shard) (es : List (Nat × List Byte)) (r : Nat)
    (order : List (Nat × Nat)) (now : Int) (hs : ShardInv s es) (hw : s.marker.WF)
    (ho : order.Perm s.marker) :
    (∀ hash, (s.removeOutdated r order now).marker.get hash ≠ s.marker.get hash →
        (s.removeOutdated r order now).marker.get hash = 0
        ∧ ∃ w, s.entries.Get (s.marker.get hash) = .ok w ∧ readTimestampFromEntry w ≠ 0
          ∧ readTimestampFromEntry w < epoch now)
    ∧ (s.removeOutdated r order now).len ≤ s.len
    ∧ s.len ≤ (s.removeOutdated r order now).len + r
    ∧ (∀ key hash now', (s.removeOutdated r order now).marker.get hash = s.marker.get hash →
        ((s.removeOutdated r order now).get key hash now').2 = (s.get key hash now').2)
    ∧ (∃ es', ShardInv (s.removeOutdated r order now) es')
    ∧ (s.removeOutdated r order now).marker.WF := by
  have hnd : (order.map Prod.fst).Nodup := (ho.map Prod.fst).nodup_iff.2 hw
  have hoo : ∀ p ∈ order, s.marker.get p.1 = p.2 := by
    intro p hp
    exact Marker.get_of_mem s.marker hw (ho.subset hp)
  obtain ⟨es', a1, a2, a3, a4, a5, a6⟩ := removeOutdatedLoop_spec order r s now es hs hw hnd hoo
  refine ⟨?_, a5, a6, ?_, ⟨es', a1⟩, a2⟩
  · intro hash hne
    rcases a4 hash with a | ⟨a, b, d, m, e1, e2⟩
    · exact absurd a hne
    · have hl : 20 ≤ d.length := hs.2.1 _ m
      have hnil : d ≠ [] := by
        intro hn
        rw [hn] at hl
        simp at hl
      exact ⟨a, d, Get_eq_of_ne_nil hs.1 m hnil, e1, e2⟩
  · intro key hash now' hm
    exact get_congr hs a1 a3 key hash now' hm

/-! ### The geometry of a push -/

theorem calls_capacity_le (cs : List QueueCall) (q : ByteQueue) :
    q.capacity ≤ (q.calls cs).capacity := by
  induction cs generalizing q with
  | nil => exact Nat.le_refl _
  | cons c cs ih => exact Nat.le_trans (call_capacity q c).1 (ih (q.call c))

/-- The invariant of the queue holds after any calls, as long as the array stays within
`2^32` bytes. -/
theorem calls_QInv (cs : List QueueCall) {q : ByteQueue} {es : List (Nat × List Byte)}
    (hq : QInv q es) (hcap : (q.calls cs).capacity ≤ 4294967296) :
    ∃ es', QInv (q.calls cs) es' := by
  induction cs generalizing q es with
  | nil => exact ⟨es, hq⟩
  | cons c cs ih =>
    have hcap' : ((q.call c).calls cs).capacity ≤ 4294967296 := hcap
    have hc1 : (q.call c).capacity ≤ 4294967296 :=
      Nat.le_trans (calls_capacity_le cs (q.call c)) hcap'
    show ∃ es', QInv ((q.call c).calls cs) es'
    cases c with
    | push data =>
      obtain ⟨q1, r, hp⟩ : ∃ q1 r, q.Push data = (q1, r) := ⟨_, _, rfl⟩
      have hk : q.call (.push data) = q1 := by
        show (q.Push data).1 = q1
        rw [hp]
      rw [hk] at hcap' hc1 ⊢
      cases r with
      | error e =>
        obtain ⟨e1, _⟩ := Push_error hp
        rw [e1] at hcap' ⊢
        exact ih hq hcap'
      | ok idx =>
        obtain ⟨es1, hq1, _⟩ := Push_ok hq hp hc1
        exact ih hq1 hcap'
    | pop =>
      obtain ⟨q1, r, hp⟩ : ∃ q1 r, q.Pop = (q1, r) := ⟨_, _, rfl⟩
      have hk : q.call .pop = q1 := by
        show q.Pop.1 = q1
        rw [hp]
      rw [hk] at hcap' ⊢
      cases r with
      | error e =>
        have e1 := Pop_error hp
        rw [e1] at hcap' ⊢
        exact ih hq hcap'
      | ok y =>
        obtain ⟨es1, _, hq1, _⟩ := Pop_ok hq hp
        exact ih hq1 hcap'
    | get index => exact ih hq hcap'
    | reset => exact ih (QInv_Reset hq) hcap'

theorem Seg_pairwise {arr : List Byte} {es : List (Nat × List Byte)} {s t : Nat}
    (h : Seg arr s t es) : es.Pairwise Apart := by
  induction es generalizing s with
  | nil => exact List.Pairwise.nil
  | cons e es ih =>
    obtain ⟨h1, _, _, h4⟩ := h
    refine List.Pairwise.cons ?_ (ih h4)
    intro b hb
    left
    have := (Seg_mem h4 hb).1
    simp only [headerEntrySize] at this
    omega

/-- The entries of a queue occupy pairwise disjoint ranges of bytes. -/
theorem QInv_pairwise {q : ByteQueue} {es : List (Nat × List Byte)} (hq : QInv q es) :
    es.Pairwise Apart := by
  rcases hq with hq | ⟨es1, es2, rfl, hq⟩
  · exact Seg_pairwise hq.2.2.2.2.2.2.2.2
  · obtain ⟨_, _, _, _, hgap, _, _, s1, s2⟩ := hq
    rw [List.pairwise_append]
    refine ⟨Seg_pairwise s1, Seg_pairwise s2, ?_⟩
    intro a ha b hb
    right
    have h1 := (Seg_mem s1 ha).1
    have h2 := (Seg_mem s2 hb).2.1
    omega

/-- After a successful `Push` the tail lies right behind the record. -/
theorem Push_tail {q q' : ByteQueue} {data : List Byte} {idx : Nat}
    (h : q.Push data = (q', .ok idx)) (hfit : idx + 4 + data.length ≤ q'.array.length)
    (hl : data.length < 4294967296) : q'.tail = idx + 4 + data.length := by
  have key : ∀ q1 : ByteQueue, q' = q1.push data data.length → idx = q1.tail →
      q'.tail = idx + 4 + data.length := by
    intro q1 e1 e2
    have hfit1 : q1.tail + 4 + data.length ≤ q1.array.length := by
      rw [e1, push_array_length] at hfit
      rw [← e2]
      exact hfit
    rw [e1, push_eq q1 data hfit1 hl, e2]
  unfold ByteQueue.Push at h
  dsimp only at h
  split at h
  · split at h
    · injection h with h1 h2
      injection h2 with h2
      exact key _ h1.symm h2.symm
    · split at h
      · cases h
      · injection h with h1 h2
        injection h2 with h2
        exact key _ h1.symm h2.symm
  · injection h with h1 h2
    injection h2 with h2
    exact key _ h1.symm h2.symm

/-- What a successful `Push` does to a queue that satisfies the invariant. -/
theorem Push_geometry {q q' : ByteQueue} {es : List (Nat × List Byte)} {d : List Byte}
    {H : Nat} (hq : QInv q es) (hp : q.Push d = (q', .ok H))
    (hcap : q'.capacity ≤ 4294967296) :
    1 ≤ H ∧ H + 4 + d.length ≤ q'.array.length
      ∧ slice q'.array H (4 + d.length) = putUint32 d.length ++ d
      ∧ q'.tail = H + 4 + d.length
      ∧ (∀ e ∈ es, Apart e (H, d)
          ∧ slice q'.array e.1 (4 + e.2.length) = putUint32 e.2.length ++ e.2)
      ∧ (q'.tail < q'.head → q'.tail + 36 ≤ q'.head) := by
  obtain ⟨es', hq', hpu, _⟩ := Push_ok hq hp hcap
  obtain ⟨m1, m2, m3, m4⟩ := QInv_mem hq' (Pushed_mem hpu)
  simp only at m1 m2 m3 m4
  refine ⟨m1, m2, m4, Push_tail hp m2 m3, ?_, ?_⟩
  · intro e he
    refine ⟨?_, (QInv_mem hq' (Pushed_mem_old hpu he)).2.2.2⟩
    have hpw := QInv_pairwise hq'
    rcases hpu with h | ⟨es1, es2, i, n, h0, _, _, _, h⟩
    · rw [h, List.pairwise_append] at hpw
      exact hpw.2.2 e he (H, d) (List.mem_singleton.2 rfl)
    · rw [h, List.pairwise_append] at hpw
      apply hpw.2.2 e _ (H, d) (List.mem_singleton.2 rfl)
      rw [h0] at he
      rcases List.mem_append.1 he with he | he
      · exact List.mem_append_right _ (List.mem_cons_of_mem _ he)
      · exact List.mem_append_left _ he
  · intro hlt
    rcases hq' with hl | ⟨es1, es2, _, hw⟩
    · have := hl.2.2.2.2.1
      omega
    · have := hw.2.2.2.2.1
      simp only [minimumEmptyBlobSize, headerEntrySize] at this
      omega

/-- C26. A successful `Push` stores the whole record and clobbers nothing.  In every queue
reached from `NewByteQueue(initial, cap)` by calls of `Push`, `Pop`, `Get` and `Reset`, if
`Push(d)` returns the handle `H` (and the array stays within `2^32` bytes), then the record
fits in the array, `H + 4 + len(d) <= len(array)`, the array holds the 4-byte header and all of
`d` at `H`, the tail is `H + 4 + len(d)`, the range of the record is disjoint from the range
of every record that was stored before the push, each of which is still in the array as it
was, and when `tail < head` afterwards, `head - tail >= 36`. -/
theorem C26_push_stores_whole_record (initial cap : Nat) (cs : List QueueCall)
    (d : List Byte) (H : Nat) (q' : ByteQueue)
    (hp : ((NewByteQueue initial cap).calls cs).Push d = (q', .ok H))
    (hcap : q'.capacity ≤ 4294967296) :
    ∃ es, QInv ((NewByteQueue initial cap).calls cs) es
      ∧ 1 ≤ H ∧ H + 4 + d.length ≤ q'.array.length
      ∧ slice q'.array H (4 + d.length) = putUint32 d.length ++ d
      ∧ q'.tail = H + 4 + d.length
      ∧ (∀ e ∈ es, (e.1 + 4 + e.2.length ≤ H ∨ H + 4 + d.length ≤ e.1)
          ∧ slice q'.array e.1 (4 + e.2.length) = putUint32 e.2.length ++ e.2)
      ∧ (q'.tail < q'.head → q'.tail + 36 ≤ q'.head) := by
  have hc1 : ((NewByteQueue initial cap).calls cs).capacity ≤ 4294967296 :=
    Nat.le_trans (Push_capacity hp).1 hcap
  have hc0 : initial ≤ 4294967296 :=
    Nat.le_trans (calls_capacity_le cs (NewByteQueue initial cap)) hc1
  obtain ⟨es, hq⟩ := calls_QInv cs (QInv_NewByteQueue initial cap hc0) hc1
  exact ⟨es, hq, Push_geometry hq hp hcap⟩

/-! ### Scenarios of the sweep, the router and the push -/

set_option maxRecDepth 100000 in
/-- C21, witness: the sweep of `expiringShard` at the clock `5 s` removes the entry of
`"alpha"`, whose record expired at the second `1`. -/
theorem C21_witness :
    (expiringShard.removeOutdated 1 expiringShard.marker 5000000000).marker.get (sum64 keyAlpha)
        = 0
    ∧ ∃ w, expiringShard.entries.Get (expiringShard.marker.get (sum64 keyAlpha)) = .ok w
        ∧ readTimestampFromEntry w ≠ 0 ∧ readTimestampFromEntry w < epoch 5000000000 :=
  have hs := @set_on_empty (initShard (capConfig true) { store := [] }) expiringShard
    keyAlpha (sum64 keyAlpha) [49] Second 0
    (ShardInv_initShard (capConfig true) { store := [] } (by decide)) rfl
    (Prod.ext rfl (by decide)) (by decide)
  (C21_sweep_removes_only_expired expiringShard _ 1 expiringShard.marker 5000000000 hs.1
    (by unfold Marker.WF; decide) (List.Perm.refl _)).1 (sum64 keyAlpha) (by decide)

set_option maxRecDepth 100000 in
/-- C22, witness: the cache of two shards built from `smallConfig`. -/
theorem C22_witness :
    1 ≤ smallCache.shards.length
    ∧ smallCache.shardIndex 7 = 7 % smallCache.shards.length
    ∧ smallCache.shardIndex 7 < smallCache.shards.length :=
  match C22_shard_selection smallConfig { store := [] } smallCache (by decide) with
  | ⟨_, _, _, h1, _, h2, _⟩ => ⟨h1, (h2 7).1, (h2 7).2⟩

set_option maxRecDepth 100000 in
/-- C26, witness: in a queue of 64 bytes that holds an entry of 40 bytes, the push of 10
bytes returns the handle 45 and moves the tail to 59. -/
theorem C26_witness :
    45 + 4 + (fill 10 2).length
        ≤ (((NewByteQueue 64 0).calls [.push (fill 40 1)]).Push (fill 10 2)).1.array.length
    ∧ (((NewByteQueue 64 0).calls [.push (fill 40 1)]).Push (fill 10 2)).1.tail
        = 45 + 4 + (fill 10 2).length :=
  match C26_push_stores_whole_record 64 0 [.push (fill 40 1)] (fill 10 2) 45
      (((NewByteQueue 64 0).calls [.push (fill 40 1)]).Push (fill 10 2)).1
      (Prod.ext rfl (by decide)) (by decide) with
  | ⟨_, _, _, h1, _, h2, _⟩ => ⟨h1, h2⟩

/-! ### Records longer than their length header can tell -/

/-- What `push` does when the entry fits behind the tail, whatever its length: the header
holds the length modulo `2^32`. -/
theorem push_eq_mod (q : ByteQueue) (data : List Byte)
    (h : q.tail + 4 + data.length ≤ q.array.length) :
    q.push data data.length =
      { q with array := writeAt q.array q.tail
                 (putUint32 (data.length % 4294967296) ++ data)
               tail := q.tail + 4 + data.length
               rightMargin := if q.tail + 4 + data.length > q.head then q.tail + 4 + data.length
                 else q.rightMargin
               count := q.count + 1 } := by
  generalize hn : data.length % 4294967296 = n
  have e1 : copyAt q.array q.tail (putUint32 n) = (writeAt q.array q.tail (putUint32 n), 4) := by
    apply Prod.ext
    · exact copyAt_fst _ _ _ (by rw [putUint32_length]; omega)
    · rw [copyAt_snd _ _ _ (by rw [putUint32_length]; omega), putUint32_length]
  have hw : (writeAt q.array q.tail (putUint32 n)).length = q.array.length :=
    writeAt_length _ _ _ (by rw [putUint32_length]; omega)
  have e2 : copyAt (writeAt q.array q.tail (putUint32 n)) (q.tail + 4) data =
      (writeAt q.array q.tail (putUint32 n ++ data), data.length) := by
    apply Prod.ext
    · rw [copyAt_fst _ _ _ (by rw [hw]; omega)]
      have := writeAt_writeAt_append q.array q.tail (putUint32 n) data
        (by rw [putUint32_length]; omega)
      rw [putUint32_length] at this
      exact this
    · exact copyAt_snd _ _ _ (by rw [hw]; omega)
  unfold ByteQueue.push ByteQueue.copy
  simp only [headerEntrySize, hn, List.take_of_length_le (Nat.le_refl _),
    List.take_of_length_le (Nat.le_of_eq (putUint32_length n)), e1, e2]
  by_cases c : q.tail + 4 + data.length > q.head
  · simp [c]
  · simp [c]

theorem allocate_linear_fields (q : ByteQueue) (minimum : Nat) (h2 : ¬ q.tail < q.head) :
    (q.allocate minimum).tail = q.tail ∧ (q.allocate minimum).head = q.head
      ∧ (q.allocate minimum).count = q.count := by
  by_cases h1 : 1 = q.rightMargin
  · rw [allocate_empty_eq q minimum h1]
    exact ⟨rfl, rfl, rfl⟩
  · rw [allocate_linear_eq q minimum h1 h2]
    exact ⟨rfl, rfl, rfl⟩

/-- `Get` reads the entry whose header lies at the index. -/
theorem Get_of_header (q : ByteQueue) (idx n : Nat) (hc : q.count ≠ 0) (h1 : 1 ≤ idx)
    (h2 : idx + 4 < q.array.length) (hh : slice q.array idx 4 = putUint32 n)
    (hn : n < 4294967296) : q.Get idx = .ok (slice q.array (idx + 4) n) := by
  have hp : q.peekCheckErr idx = none := by
    unfold ByteQueue.peekCheckErr
    rw [if_neg hc, if_neg (by omega), if_neg (by simp only [headerEntrySize]; omega)]
  unfold ByteQueue.Get ByteQueue.getWithLength
  rw [hp]
  simp only [headerEntrySize, hh]
  have : getUint32 (putUint32 n) = n := by
    have := getUint32_putUint32_append n []
    rw [List.append_nil, Nat.mod_eq_of_lt hn] at this
    exact this
  rw [this]

/-- A record of `2^32 + 20` bytes pushed on a small ring without cap: `Push` succeeds with the
handle `tail`, the header holds `20`, and `Get` returns the first 20 bytes of the record. -/
theorem Push_big (q : ByteQueue) (w : List Byte)
    (hsmall : q.capacity < 4294967296) (hmax : q.maxCapacity = 0) (h1 : 1 ≤ q.head)
    (hlin : q.head ≤ q.tail) (ht : q.tail ≤ q.capacity + 1)
    (hw : w.length = 4294967296 + 20) :
    ∃ q', q.Push w = (q', .ok q.tail) ∧ q'.Get q.tail = .ok (w.take 20) := by
  have hafter : q.availableSpaceAfterTail < ((w.length + headerEntrySize : Nat) : Int) := by
    unfold ByteQueue.availableSpaceAfterTail
    rw [if_pos (show q.tail ≥ q.head from hlin)]
    simp only [headerEntrySize]
    omega
  have hbefore : ¬ q.availableSpaceBeforeHead ≥ ((w.length + headerEntrySize : Nat) : Int) := by
    unfold ByteQueue.availableSpaceBeforeHead
    rw [if_pos (show q.tail ≥ q.head from hlin)]
    simp only [headerEntrySize, minimumEmptyBlobSize, leftMarginIndex]
    omega
  have hfull : ¬ (q.capacity + (w.length + headerEntrySize) ≥ q.maxCapacity
      ∧ q.maxCapacity > 0) := by
    rw [hmax]
    omega
  have hp : q.Push w = ((q.allocate (w.length + headerEntrySize)).push w w.length,
      .ok (q.allocate (w.length + headerEntrySize)).tail) := by
    unfold ByteQueue.Push
    dsimp only
    rw [if_pos hafter, if_neg hbefore, if_neg hfull]
  obtain ⟨a1, a2, a3⟩ := allocate_linear_fields q (w.length + headerEntrySize) (by omega)
  have a4 : (q.allocate (w.length + headerEntrySize)).array.length
      = newCapacity q (w.length + headerEntrySize) := allocate_array_length _ _
  have hnc : q.capacity + (w.length + headerEntrySize) + 1
      ≤ newCapacity q (w.length + headerEntrySize) := by
    unfold newCapacity
    rw [hmax]
    simp only [headerEntrySize]
    split <;> split <;> omega
  simp only [headerEntrySize] at hp a1 a2 a3 a4 hnc
  generalize q.allocate (w.length + 4) = qa at hp a1 a2 a3 a4
  have hfit : qa.tail + 4 + w.length ≤ qa.array.length := by omega
  rw [a1] at hp
  refine ⟨_, hp, ?_⟩
  rw [push_eq_mod qa w hfit]
  have hmod : w.length % 4294967296 = 20 := by
    rw [hw]
  rw [hmod, a1]
  have hfit' : q.tail + (putUint32 20 ++ w).length ≤ qa.array.length := by
    rw [List.length_append, putUint32_length]
    omega
  have hs := slice_writeAt_same qa.array q.tail (putUint32 20 ++ w) hfit'
  rw [List.length_append, putUint32_length] at hs
  obtain ⟨s1, s2⟩ := slice_append_split _ q.tail 4 w.length _ _ hs (putUint32_length 20)
  have hal : (writeAt qa.array q.tail (putUint32 20 ++ w)).length = qa.array.length :=
    writeAt_length _ _ _ hfit'
  have hget := Get_of_header
    ({ qa with array := writeAt qa.array q.tail (putUint32 20 ++ w)
               tail := q.tail + 4 + w.length
               rightMargin := if q.tail + 4 + w.length > qa.head then q.tail + 4 + w.length
                 else qa.rightMargin
               count := qa.count + 1 } : ByteQueue) q.tail 20 (Nat.succ_ne_zero _)
    (by omega) (by show q.tail + 4 < (writeAt _ _ _).length; rw [hal]; omega) s1 (by decide)
  rw [hget]
  congr 1
  show slice (writeAt qa.array q.tail (putUint32 20 ++ w)) (q.tail + 4) 20 = w.take 20
  have hw' : w.length = 20 + 4294967296 := by omega
  rw [hw', slice_add] at s2
  have hx : (slice (writeAt qa.array q.tail (putUint32 20 ++ w)) (q.tail + 4) 20).length = 20 :=
    slice_length _ _ _ (by rw [hal]; omega)
  have ht20 := congrArg (List.take 20) s2
  rw [List.take_left' hx] at ht20
  exact ht20

/-! ### A payload of `2^32` bytes -/

theorem hugePayload_length : hugePayload.length = 4294967296 := List.length_replicate _ _

theorem hugePayload_ne_nil : hugePayload ≠ [] := by
  intro h
  have := congrArg List.length h
  rw [hugePayload_length] at this
  exact absurd this (by decide)

/-- The first part of `set` changes at most the content of the array of the ring. -/
theorem setPrepare_queue (s : shard) (key : List Byte) (hash : Nat) (value : List Byte)
    (ttl now : Int) :
    ∃ arr, arr.length = s.entries.array.length
      ∧ (s.setPrepare key hash value ttl now).1.entries = { s.entries with array := arr }
      ∧ (s.setPrepare key hash value ttl now).1.marker = s.marker
      ∧ ∃ buf, (s.setPrepare key hash value ttl now).2
          = (wrapEntry (exp now ttl) hash (ChecksumIEEE key) value buf).1 := by
  unfold shard.setPrepare
  dsimp only
  split
  · split
    · exact ⟨_, copyAt_length _ _ _, rfl, rfl, _, rfl⟩
    · exact ⟨_, rfl, rfl, rfl, _, rfl⟩
  · exact ⟨_, rfl, rfl, rfl, _, rfl⟩

/-- What `get` returns when the handle of the fingerprint can be read. -/
theorem get_of_Get (s : shard) (key : List Byte) (hash : Nat) (now : Int) (d : List Byte)
    (hne : s.marker.get hash ≠ 0) (hg : s.entries.Get (s.marker.get hash) = .ok d) :
    s.get key hash now =
      if readCRC32FromEntry d ≠ ChecksumIEEE key then (s.statsCollision, .error .errKeyNotFound)
      else if readTimestampFromEntry d ≠ 0 ∧ epoch now > readTimestampFromEntry d then
        (s, .error .errEntryIsDead)
      else (s.statsHit, .ok (readEntry d)) := by
  have hw : s.getWrappedEntry hash = (s, .ok d) := by
    unfold shard.getWrappedEntry
    simp only [if_neg hne, hg]
  unfold shard.get
  rw [hw]

theorem wrapEntry_take_header (ts : Int) (h c : Nat) (entry buf : List Byte) :
    (wrapEntry ts h c entry buf).1.take 20 = (wrapEntry ts h c [] []).1 := by
  rw [wrapEntry_fst, wrapEntry_fst]
  have l1 : (putUint64 (uint64OfInt ts)).length = 8 := putUint64_length _
  have l2 : (putUint64 (h % 18446744073709551616)).length = 8 := putUint64_length _
  have l3 : (putUint32 (c % 4294967296)).length = 4 := putUint32_length _
  generalize putUint64 (uint64OfInt ts) = A at l1 ⊢
  generalize putUint64 (h % 18446744073709551616) = B at l2 ⊢
  generalize putUint32 (c % 4294967296) = C at l3 ⊢
  rw [List.append_nil, ← List.append_assoc, ← List.append_assoc, ← List.append_assoc]
  exact List.take_left' (by simp only [List.length_append]; omega)

/-- A `set` of a payload of `2^32` bytes on a shard with a small ring without cap succeeds,
and the following `get` returns the empty payload: the 4-byte header of the record holds the
length of the record modulo `2^32`, which is `20`, the length of the record header alone. -/
theorem set_big (s : shard) (key : List Byte) (hash : Nat) (v : List Byte) (ttl now : Int)
    (hsmall : s.entries.capacity < 4294967296) (hmax : s.entries.maxCapacity = 0)
    (h1 : 1 ≤ s.entries.head) (hlin : s.entries.head ≤ s.entries.tail)
    (ht : s.entries.tail ≤ s.entries.capacity + 1) (hv : v.length = 4294967296)
    (hr1 : -9223372036854775808 ≤ exp now ttl) (hr2 : exp now ttl < 9223372036854775808) :
    (s.set key hash v ttl now).2 = none
      ∧ ∀ now', ((s.set key hash v ttl now).1.get key hash now').2 =
          if exp now ttl ≠ 0 ∧ epoch now' > exp now ttl then .error .errEntryIsDead
          else .ok [] := by
  obtain ⟨arr, ha, he, hm, buf, hp2⟩ := setPrepare_queue s key hash v ttl now
  have hwl : (s.setPrepare key hash v ttl now).2.length = 4294967296 + 20 := by
    rw [hp2, wrapEntry_length, hv]
  obtain ⟨q', hpush, hget⟩ := Push_big (s.setPrepare key hash v ttl now).1.entries
    (s.setPrepare key hash v ttl now).2 (by rw [he]; exact hsmall)
    (by rw [he]; exact hmax) (by rw [he]; exact h1) (by rw [he]; exact hlin)
    (by rw [he]; exact ht) hwl
  have htail : (s.setPrepare key hash v ttl now).1.entries.tail = s.entries.tail := by rw [he]
  rw [htail] at hpush hget
  rw [hp2, wrapEntry_take_header] at hget
  have hset : s.set key hash v ttl now
      = (({ (s.setPrepare key hash v ttl now).1 with
              entries := q'
              marker := (s.setPrepare key hash v ttl now).1.marker.put hash
                s.entries.tail }).statsModify, none) := by
    unfold shard.set
    dsimp only
    unfold shard.setLoop
    rw [hpush]
  rw [hset]
  refine ⟨rfl, ?_⟩
  intro now'
  have hmk : (({ (s.setPrepare key hash v ttl now).1 with
              entries := q'
              marker := (s.setPrepare key hash v ttl now).1.marker.put hash
                s.entries.tail }).statsModify).marker.get hash = s.entries.tail :=
    Marker.get_put_self _ _ _
  rw [get_of_Get _ key hash now' (wrapEntry (exp now ttl) hash (ChecksumIEEE key) [] []).1
    (by rw [hmk]; omega) (by rw [hmk]; exact hget)]
  rw [readCRC32_wrapEntry, Nat.mod_eq_of_lt (ChecksumIEEE_lt key),
    readTimestamp_wrapEntry _ _ _ _ _ hr1 hr2, readEntry_wrapEntry,
    if_neg (fun hc => hc rfl)]
  split <;> rfl

/-! ### Scenarios of the long payload -/

/-- A pair whose second component is `b`. -/
theorem eq_pair_of_snd {α β : Type} (p : α × β) (b : β) (h : p.2 = b) : p = (p.1, b) := by
  cases p
  cases h
  rfl

set_option maxRecDepth 100000 in
/-- C1, counterexample: on a fresh shard whose ring is not capped, `set("alpha", v)` with a
payload `v` of `2^32` bytes and no time-to-live returns no error, and the `get("alpha")` that
follows returns the empty payload with no error: the 4-byte header of the record holds its
length `2^32 + 20` modulo `2^32`. -/
theorem C1_counterexample_huge_payload :
    hugePayload.length = 4294967296
    ∧ hugePayload ≠ []
    ∧ ((initShard smallConfig { store := [] }).set keyAlpha (sum64 keyAlpha) hugePayload 0 0).2
        = none
    ∧ (((initShard smallConfig { store := [] }).set keyAlpha (sum64 keyAlpha) hugePayload 0
        0).1.get keyAlpha (sum64 keyAlpha) 0).2 = .ok [] :=
  have h := set_big (initShard smallConfig { store := [] }) keyAlpha (sum64 keyAlpha)
    hugePayload 0 0 (by decide) (by decide) (by decide) (by decide) (by decide)
    hugePayload_length (by decide) (by decide)
  ⟨hugePayload_length, hugePayload_ne_nil, h.1, (h.2 0).trans (by decide)⟩

set_option maxRecDepth 100000 in
/-- C2, counterexample: for the key `keyZero`, whose fingerprint is `0`, after two successful
`Set`s the ring stores two records whose fingerprint field equals the fingerprint of the key;
and on a fresh cache of one shard whose ring is not capped, after `Set("alpha", "1")` and
`Set("alpha", v)` with a payload `v` of `2^32` bytes both succeed, `Get("alpha")` returns the
empty payload. -/
theorem C2_counterexample_overwrite :
    (NewTipTop smallConfig { store := [] } = .ok smallCache
      ∧ sum64 keyZero = 0
      ∧ (smallCache.Set keyZero [49] 0).2 = none
      ∧ ((smallCache.Set keyZero [49] 0).1.Set keyZero [50] 0).2 = none
      ∧ ((((smallCache.Set keyZero [49] 0).1.Set keyZero [50] 0).1.getShard
          (sum64 keyZero)).entries.stored.filter
            fun e => readHashFromEntry e.2 == sum64 keyZero).length = 2)
    ∧ (NewTipTop plainConfig { store := [] } = .ok plainCache
      ∧ hugePayload.length = 4294967296
      ∧ (plainCache.Set keyAlpha [49] 0).2 = none
      ∧ ((plainCache.Set keyAlpha [49] 0).1.Set keyAlpha hugePayload 0).2 = none
      ∧ (((plainCache.Set keyAlpha [49] 0).1.Set keyAlpha hugePayload 0).1.Get keyAlpha 0).2
          = .ok []) :=
  have h := set_big
    ((initShard plainConfig { store := [] }).set keyAlpha (sum64 keyAlpha) [49] 0 0).1 keyAlpha
    (sum64 keyAlpha) hugePayload 0 0 (by decide) (by decide) (by decide) (by decide)
    (by decide) hugePayload_length (by decide) (by decide)
  have hset : (plainCache.Set keyAlpha [49] 0).1.Set keyAlpha hugePayload 0
      = ({ (plainCache.Set keyAlpha [49] 0).1 with
            shards := [(((initShard plainConfig { store := [] }).set keyAlpha (sum64 keyAlpha)
              [49] 0 0).1.set keyAlpha (sum64 keyAlpha) hugePayload 0 0).1] }, none) :=
    single_Set (by decide) (by decide) (eq_pair_of_snd _ _ h.1)
  ⟨zero_fingerprint_two_records,
    by decide, hugePayload_length, by decide, by rw [hset],
    by
      rw [hset]
      exact (single_Get rfl (by decide) keyAlpha 0).trans ((h.2 0).trans (by decide))⟩

set_option maxRecDepth 100000 in
/-- C4, counterexample: the keys `"k1"` and `"k2"`, of different CRC-32, stored under the
fingerprint `42` on a fresh shard.  When `set("k2")` is given a time-to-live of one second at
clock `0`, `get("k2")` at clock `5 s` returns `errEntryIsDead`, not the payload; and when
`set("k2")` is given a payload of `2^32` bytes, `get("k2")` returns the empty payload. -/
theorem C4_counterexample_second_record :
    ChecksumIEEE keyK1 ≠ ChecksumIEEE keyK2
    ∧ ((initShard smallConfig { store := [] }).set keyK1 42 [1] 0 0).2 = none
    ∧ (((initShard smallConfig { store := [] }).set keyK1 42 [1] 0 0).1.set keyK2 42 [2]
        Second 0).2 = none
    ∧ ((((initShard smallConfig { store := [] }).set keyK1 42 [1] 0 0).1.set keyK2 42 [2]
        Second 0).1.get keyK2 42 5000000000).2 = .error .errEntryIsDead
    ∧ hugePayload.length = 4294967296
    ∧ (((initShard smallConfig { store := [] }).set keyK1 42 [1] 0 0).1.set keyK2 42
        hugePayload 0 0).2 = none
    ∧ ((((initShard smallConfig { store := [] }).set keyK1 42 [1] 0 0).1.set keyK2 42
        hugePayload 0 0).1.get keyK2 42 0).2 = .ok [] :=
  have h := set_big ((initShard smallConfig { store := [] }).set keyK1 42 [1] 0 0).1 keyK2 42
    hugePayload 0 0 (by decide) (by decide) (by decide) (by decide) (by decide)
    hugePayload_length (by decide) (by decide)
  ⟨by decide, by decide, by decide, by decide, hugePayload_length, h.1,
    (h.2 0).trans (by decide)⟩

set_option maxRecDepth 100000 in
/-- C5, counterexample: a record set at clock `0` with a time-to-live of one second is still
returned by `get` at clock `1 s + 1 ns`, although more than the time-to-live has passed: both
instants lie in the Unix second `1`; and a record whose payload has `2^32` bytes, set at clock
`0` with a time-to-live of one hour on a ring that is not capped, is read back at clock `0`
as the empty payload. -/
theorem C5_counterexample_clock_and_size :
    ((1000000001 : Int) - 0 > 1000000000
      ∧ ((initShard (capConfig true) { store := [] }).set keyAlpha (sum64 keyAlpha) [49]
          1000000000 0).2 = none
      ∧ (((initShard (capConfig true) { store := [] }).set keyAlpha (sum64 keyAlpha) [49]
          1000000000 0).1.get keyAlpha (sum64 keyAlpha) 1000000001).2 = .ok [49])
    ∧ (hugePayload.length = 4294967296
      ∧ ((initShard smallConfig { store := [] }).set keyK1 (sum64 keyK1) hugePayload
          3600000000000 0).2 = none
      ∧ (((initShard smallConfig { store := [] }).set keyK1 (sum64 keyK1) hugePayload
          3600000000000 0).1.get keyK1 (sum64 keyK1) 0).2 = .ok []) :=
  have h := set_big (initShard smallConfig { store := [] }) keyK1 (sum64 keyK1) hugePayload
    3600000000000 0 (by decide) (by decide) (by decide) (by decide) (by decide)
    hugePayload_length (by decide) (by decide)
  ⟨same_second_not_expired, hugePayload_length, h.1, (h.2 0).trans (by decide)⟩

set_option maxRecDepth 100000 in
/-- C6, counterexample: on a fresh shard whose ring is not capped, `set("k2", v)` with a
payload `v` of `2^32` bytes and a time-to-live of `0` succeeds at clock `0`, and `get("k2")`
a century later returns the empty payload, not `v`; the same for `Set` on a fresh cache of
one shard whose `DefaultTTL` is `0`. -/
theorem C6_counterexample_huge_payload :
    hugePayload.length = 4294967296
    ∧ ((initShard smallConfig { store := [] }).set keyK2 (sum64 keyK2) hugePayload 0 0).2 = none
    ∧ (((initShard smallConfig { store := [] }).set keyK2 (sum64 keyK2) hugePayload 0
        0).1.get keyK2 (sum64 keyK2) 3155760000000000000).2 = .ok []
    ∧ plainCache.config.DefaultTTL = 0
    ∧ (plainCache.Set keyK2 hugePayload 0).2 = none
    ∧ ((plainCache.Set keyK2 hugePayload 0).1.Get keyK2 3155760000000000000).2 = .ok [] :=
  have h := set_big (initShard smallConfig { store := [] }) keyK2 (sum64 keyK2) hugePayload
    0 0 (by decide) (by decide) (by decide) (by decide) (by decide)
    hugePayload_length (by decide) (by decide)
  have h2 := set_big (initShard plainConfig { store := [] }) keyK2 (sum64 keyK2) hugePayload
    0 0 (by decide) (by decide) (by decide) (by decide) (by decide)
    hugePayload_length (by decide) (by decide)
  have hset : plainCache.Set keyK2 hugePayload 0
      = ({ plainCache with
            shards := [((initShard plainConfig { store := [] }).set keyK2 (sum64 keyK2)
              hugePayload 0 0).1] }, none) :=
    single_Set rfl rfl (eq_pair_of_snd _ _ h2.1)
  ⟨hugePayload_length, h.1, (h.2 3155760000000000000).trans (by decide), by decide,
    by rw [hset],
    by
      rw [hset]
      exact (single_Get rfl rfl keyK2 3155760000000000000).trans
        ((h2.2 3155760000000000000).trans (by decide))⟩

/-! ### Configuration defaults -/

/-- What `implementConfig` returns, whatever `isPowerOfTwo` is. -/
theorem implementConfigWith_eq (isPow : Int → Bool) (config : Config) :
    implementConfigWith isPow config =
      if isPow config.ShardSize = false then .error "shard's size must be the power of 2"
      else .ok
        { config with
          CleanWindow := if config.CleanWindow = 0 then DefaultCleanWindows
            else config.CleanWindow
          ShardSize := if config.ShardSize = 0 then DefaultShardSize else config.ShardSize } := by
  unfold implementConfigWith
  cases isPow config.ShardSize
  · rfl
  · by_cases h1 : config.CleanWindow = 0 <;> by_cases h2 : config.ShardSize = 0 <;>
      simp [h1, h2]

/-- C19 (as the code has it). Config defaults.  `implementConfig` tests
`isPowerOfTwo(config.ShardSize)` before anything else.  Whatever that helper is: for every
configuration whose `ShardSize` is `0`, `implementConfig` returns no error and sets `ShardSize`
to the default `1024` when `isPowerOfTwo(0)` holds, and returns the error
`"shard's size must be the power of 2"` when it does not; and every accepted configuration
whose `CleanWindow` is `0` gets the default of 30 minutes (another `CleanWindow`, and a
`ShardSize` other than `0`, are kept).  With `isPowerOfTwo` the mathematical predicate, `0` is
rejected: `implementConfig` and `NewTipTop` return the error for every configuration whose
`ShardSize` is `0`, and an accepted configuration keeps its `ShardSize`. -/
theorem C19_config_defaults :
    (∀ (isPow : Int → Bool) (config : Config), config.ShardSize = 0 → isPow 0 = true →
        ∃ c, implementConfigWith isPow config = .ok c ∧ c.ShardSize = 1024)
    ∧ (∀ (isPow : Int → Bool) (config : Config), config.ShardSize = 0 → isPow 0 = false →
        implementConfigWith isPow config = .error "shard's size must be the power of 2")
    ∧ (∀ (isPow : Int → Bool) (config c : Config), implementConfigWith isPow config = .ok c →
        (config.CleanWindow = 0 → c.CleanWindow = 30 * 60 * 1000000000)
        ∧ (config.CleanWindow ≠ 0 → c.CleanWindow = config.CleanWindow)
        ∧ (config.ShardSize ≠ 0 → c.ShardSize = config.ShardSize))
    ∧ (∀ config : Config, implementConfigWith isPowerOfTwo config = implementConfig config)
    ∧ isPowerOfTwo 0 = false
    ∧ (∀ k : Nat, k < 63 → isPowerOfTwo (2 ^ k) = true)
    ∧ (∀ config : Config, config.ShardSize = 0 →
        implementConfig config = .error "shard's size must be the power of 2")
    ∧ (∀ (config : Config) (redis : redisCache), config.ShardSize = 0 →
        NewTipTop config redis = .error "shard's size must be the power of 2")
    ∧ (∀ config c : Config, implementConfig config = .ok c →
        c.ShardSize = config.ShardSize ∧ c.ShardSize ≠ 0
        ∧ (config.CleanWindow = 0 → c.CleanWindow = 30 * 60 * 1000000000)) := by
  have h := zero_shard_size_rejected
  refine ⟨?_, ?_, ?_, fun _ => rfl, by decide, ?_, h.1, h.2.1, ?_⟩
  · intro isPow config h0 hp
    rw [implementConfigWith_eq, h0, hp]
    exact ⟨_, rfl, rfl⟩
  · intro isPow config h0 hp
    rw [implementConfigWith_eq, h0, hp]
    rfl
  · intro isPow config c hc
    rw [implementConfigWith_eq] at hc
    split at hc
    · cases hc
    · injection hc with hc
      subst hc
      refine ⟨?_, ?_, ?_⟩
      · intro hz
        show (if config.CleanWindow = 0 then DefaultCleanWindows else config.CleanWindow) = _
        rw [if_pos hz]
      · intro hz
        show (if config.CleanWindow = 0 then DefaultCleanWindows else config.CleanWindow) = _
        rw [if_neg hz]
      · intro hz
        show (if config.ShardSize = 0 then DefaultShardSize else config.ShardSize) = _
        rw [if_neg hz]
  · intro k hk
    unfold isPowerOfTwo
    rw [List.any_eq_true]
    exact ⟨k, List.mem_range.mpr hk, by simp⟩
  · intro config c hc
    exact ⟨(h.2.2.1 config c hc).1, (h.2.2.1 config c hc).2,
      fun hz => (h.2.2.2.1 config c hc hz).trans rfl⟩

/-- C19, counterexample: the configuration that leaves `ShardSize` at `0` is not given the
default `1024`: with `isPowerOfTwo` the mathematical predicate, under which `0` is no power
of two, `implementConfig` returns the error. -/
theorem C19_counterexample_zero_rejected :
    zeroShardConfig.ShardSize = 0
    ∧ isPowerOfTwo 0 = false
    ∧ implementConfig zeroShardConfig = .error "shard's size must be the power of 2"
    ∧ NewTipTop zeroShardConfig { store := [] }
        = .error "shard's size must be the power of 2" := by
  decide

/-- C19, witness: a helper that lets `0` pass gives `ShardSize = 1024` to the configuration
that leaves it at `0`, and the accepted configuration that leaves `CleanWindow` at `0` gets
30 minutes. -/
theorem C19_witness :
    (∃ c, implementConfigWith (fun _ => true) zeroShardConfig = .ok c ∧ c.ShardSize = 1024)
    ∧ (∃ c, implementConfig zeroWindowConfig = .ok c ∧ c.CleanWindow = 1800000000000) :=
  ⟨C19_config_defaults.1 (fun _ => true) zeroShardConfig rfl rfl,
    ⟨{ zeroWindowConfig with CleanWindow := 1800000000000 }, by decide,
      (C19_config_defaults.2.2.1 isPowerOfTwo zeroWindowConfig
        { zeroWindowConfig with CleanWindow := 1800000000000 } (by decide)).1 rfl⟩⟩

end Tiptop
